import Mathlib

/-!
The generated HTTP-to-Twirp gateway of protoc-gen-twirp-gateway.

A shallow embedding of `gateway.go`: the generation-time helpers
`GatewayModule.method` / `GatewayModule.pattern` (with `patternRE`) and the
run-time code emitted from `tmpl` (`gatewayRoute.try`, `gatewaySetJSON` and the
per-service handler closure).

Representation of Go data:

* text that Go processes rune by rune (path templates, compiled patterns, the
  request path, header values, HTTP verbs) is a Lean `String`, a sequence of
  Unicode code points;
* text that Go processes byte by byte (the raw query, `url.Values` keys and
  values, the dotted path handed to `gatewaySetJSON`, JSON object keys and
  strings, request bodies) is a `GoBytes`, a list of bytes, so `len(s)` is the
  list length;
* `interface{}` values produced by `encoding/json` are the tree type `Value`;
* a Go `map` is an association list with first-match lookup; the order in which
  `range` visits a map is a parameter (`Runtime.rangeVerbs`, `Runtime.rangeKeys`)
  that may be any permutation of the keys;
* a run-time panic is the error side of `Except GoPanic`, or `Outcome.panic` for
  the handler;
* library behaviour that the source does not fix (Unicode lower-casing beyond
  ASCII, the JSON codec) is a field of `Runtime`; `regexp`, `net/url` and
  `strings` are modelled directly, `url.ParseQuery` as in Go 1.17 and later
  (`&` is the only separator).
-/

namespace TwirpGateway

/-! ## Byte strings -/

/-- Go strings handled byte-wise. -/
abbrev GoBytes := List UInt8

/-- UTF-8 encoding of a list of code points. -/
def utf8 : List Char → GoBytes
  | [] => []
  | c :: cs => String.utf8EncodeChar c ++ utf8 cs

/-- The bytes of a string constant. -/
def bytes (s : String) : GoBytes := utf8 s.data

/-- Run-time panics raised by the Go code modelled here. -/
inductive GoPanic where
  | sliceBounds      -- slice bounds out of range
  | indexRange       -- index out of range
  | typeAssertion    -- interface conversion failed
  | nilMapWrite      -- assignment to entry in nil map
  | unexpectedType   -- explicit panic(...) in GatewayModule.method / pattern
  deriving DecidableEq, Repr

/-! ## Dynamic values: what `encoding/json` stores in an `interface{}` -/

/-- Go values reachable from a decoded `map[string]interface{}`: the nil
interface (JSON `null` and the zero value read for a missing key), `bool`,
`float64` (kept as its numeral), `string`, `[]interface{}`,
`map[string]interface{}`, and the nil map of that type. -/
inductive Value where
  | null : Value
  | bool (b : Bool) : Value
  | num (numeral : String) : Value
  | str (s : GoBytes) : Value
  | arr (xs : List Value) : Value
  | obj (m : List (GoBytes × Value)) : Value
  | nilMap : Value

/-- Map read `m[k]`, `none` when the key is absent. -/
def mapGet (m : List (GoBytes × Value)) (k : GoBytes) : Option Value :=
  match m with
  | [] => none
  | (k', v) :: rest => if k' = k then some v else mapGet rest k

/-- Map write `m[k] = v`: overwrite the entry when the key is present, add one
otherwise. -/
def mapSet (m : List (GoBytes × Value)) (k : GoBytes) (v : Value) : List (GoBytes × Value) :=
  match m with
  | [] => [(k, v)]
  | (k', v') :: rest => if k' = k then (k, v) :: rest else (k', v') :: mapSet rest k v

/-- The expression `data.(map[string]interface{})[p]`: the type assertion panics
unless `data` holds a map; reading a missing key (or any key of the nil map)
yields the nil interface. -/
def indexAsMap (data : Value) (p : GoBytes) : Except GoPanic Value :=
  match data with
  | .obj m => .ok ((mapGet m p).getD .null)
  | .nilMap => .ok .null
  | _ => .error .typeAssertion

/-- Go `strings.Split(s, sep)` for a one-byte separator. -/
def strings_Split (s : GoBytes) (sep : UInt8) : List GoBytes :=
  match s with
  | [] => [[]]
  | b :: rest =>
    if b = sep then [] :: strings_Split rest sep
    else
      match strings_Split rest sep with
      | [] => [[b]]
      | seg :: segs => (b :: seg) :: segs

/-- The loop `for _, p := range segs { data = data.(map[string]interface{})[p] }`. -/
def walk (data : Value) (segs : List GoBytes) : Except GoPanic Value :=
  match segs with
  | [] => .ok data
  | p :: ps =>
    match indexAsMap data p with
    | .ok next => walk next ps
    | .error e => .error e

/-- The document after storing `value` under `key` in the map reached from
`root` along `cursor` (the in-place map write seen from the root). -/
def writeAt (root : Value) (cursor : List GoBytes) (key : GoBytes) (value : Value) : Value :=
  match cursor with
  | [] =>
    match root with
    | .obj m => .obj (mapSet m key value)
    | other => other
  | p :: ps =>
    match root with
    | .obj m =>
      match mapGet m p with
      | some child => .obj (mapSet m p (writeAt child ps key value))
      | none => .obj m
    | other => other

/-- Outcome of a call of `gatewaySetJSON`: the document as the call leaves it
and either the normal return (the returned error is always `nil`) or a panic. -/
structure SetResult where
  root : Value
  ret : Except GoPanic Unit

/-- The dot separator. -/
def dot : UInt8 := 46

/-- Embedding of `gatewaySetJSON(data, path, value)`.

```go
pp := strings.Split(path, ".")
for _, p := range pp[:len(path)-1] { data = data.(map[string]interface{})[p] }
data.(map[string]interface{})[pp[len(path)-1]] = value
return nil
```
The slice expression and the index both use `len(path)-1`, the byte length of
the path, as in the source. -/
def gatewaySetJSON (root : Value) (path : GoBytes) (value : Value) : SetResult :=
  let pp := strings_Split path dot
  match path.length with
  | 0 => ⟨root, .error .sliceBounds⟩          -- pp[:-1]
  | n + 1 =>
    if pp.length < n then ⟨root, .error .sliceBounds⟩   -- pp[:n] with n > cap(pp)
    else
      match walk root (pp.take n) with
      | .error e => ⟨root, .error e⟩
      | .ok data =>
        match data with
        | .obj _ =>
          match pp.get? n with
          | none => ⟨root, .error .indexRange⟩
          | some key => ⟨writeAt root (pp.take n) key value, .ok ()⟩
        | .nilMap =>
          match pp.get? n with
          | none => ⟨root, .error .indexRange⟩
          | some _ => ⟨root, .error .nilMapWrite⟩
        | _ => ⟨root, .error .typeAssertion⟩

/-! ## Regular expressions (Go `regexp`, leftmost-first semantics) -/

/-- Regular expression syntax trees: the constructs of Go `regexp/syntax` that
the gateway's patterns use. Repetitions are greedy; `bot` and `eot` are `^` and
`$` without the multi-line flag (beginning and end of text). Capture groups are
numbered by the position of their opening parenthesis. -/
inductive Regex where
  | empty : Regex
  | lit (c : Char) : Regex
  | cls (neg : Bool) (ranges : List (Char × Char)) : Regex
  | bot : Regex
  | eot : Regex
  | cat (a b : Regex) : Regex
  | alt (a b : Regex) : Regex
  | star (a : Regex) : Regex
  | plus (a : Regex) : Regex
  | quest (a : Regex) : Regex
  | cap (name : String) (a : Regex) : Regex
  deriving DecidableEq, Repr

/-- Membership of a rune in a list of inclusive ranges. -/
def inRanges (ranges : List (Char × Char)) (c : Char) : Bool :=
  ranges.any (fun r => decide (r.1.toNat ≤ c.toNat) && decide (c.toNat ≤ r.2.toNat))

/-- Membership of a rune in a (possibly negated) character class. -/
def inClass (neg : Bool) (ranges : List (Char × Char)) (c : Char) : Bool :=
  if neg then !(inRanges ranges c) else inRanges ranges c

/-- Go `NumSubexp`: the number of capture groups. -/
def numCap : Regex → Nat
  | .cat a b => numCap a + numCap b
  | .alt a b => numCap a + numCap b
  | .star a => numCap a
  | .plus a => numCap a
  | .quest a => numCap a
  | .cap _ a => 1 + numCap a
  | _ => 0

/-- Names of the capture groups in index order (group 1 first). -/
def capNames : Regex → List String
  | .cat a b => capNames a ++ capNames b
  | .alt a b => capNames a ++ capNames b
  | .star a => capNames a
  | .plus a => capNames a
  | .quest a => capNames a
  | .cap name a => name :: capNames a
  | _ => []

/-- Go `SubexpNames`: entry 0 is the empty name of the whole match. -/
def SubexpNames (re : Regex) : List String := "" :: capNames re

/-- Captures recorded so far, most recent first: group index and its text. -/
abbrev Caps := List (Nat × List Char)

/-- A successful match: the captures and the input left after the match. -/
abbrev Found := Caps × List Char

/-- Continuation of a match: at-beginning-of-text flag, remaining input, captures. -/
abbrev Cont := Bool → List Char → Caps → Option Found

/-- A matcher in continuation-passing style; alternatives are tried in
priority order and the first success is the result. -/
abbrev Matcher := Bool → List Char → Caps → Cont → Option Found

/-- Greedy iteration of `step`, at most `fuel` times; every iteration has to
consume input. More iterations are preferred to fewer. -/
def iterate (step : Matcher) : Nat → Matcher
  | 0 => fun st s caps k => k st s caps
  | fuel + 1 => fun st s caps k =>
    match step st s caps (fun st' s' caps' =>
        if s'.length < s.length then iterate step fuel st' s' caps' k else none) with
    | some r => some r
    | none => k st s caps

/-- Backtracking matcher. `base` is the number of groups opened to the left of
the node, so the group of a `cap` node has index `base + 1`. -/
def matchRe : Regex → Nat → Matcher
  | .empty, _ => fun st s caps k => k st s caps
  | .lit c, _ => fun _ s caps k =>
    match s with
    | x :: xs => if x = c then k false xs caps else none
    | [] => none
  | .cls neg ranges, _ => fun _ s caps k =>
    match s with
    | x :: xs => if inClass neg ranges x then k false xs caps else none
    | [] => none
  | .bot, _ => fun st s caps k => if st then k st s caps else none
  | .eot, _ => fun st s caps k =>
    match s with
    | [] => k st s caps
    | _ :: _ => none
  | .cat a b, base => fun st s caps k =>
    matchRe a base st s caps (fun st' s' caps' => matchRe b (base + numCap a) st' s' caps' k)
  | .alt a b, base => fun st s caps k =>
    match matchRe a base st s caps k with
    | some r => some r
    | none => matchRe b (base + numCap a) st s caps k
  | .star a, base => fun st s caps k => iterate (matchRe a base) s.length st s caps k
  | .plus a, base => fun st s caps k =>
    matchRe a base st s caps (fun st' s' caps' =>
      iterate (matchRe a base) s'.length st' s' caps' k)
  | .quest a, base => fun st s caps k =>
    match matchRe a base st s caps k with
    | some r => some r
    | none => k st s caps
  | .cap _ a, base => fun st s caps k =>
    matchRe a (base + 1) st s caps (fun st' s' caps' =>
      k st' s' ((base + 1, s.take (s.length - s'.length)) :: caps'))

/-- Match attempt anchored at the current position. -/
def matchAt (re : Regex) (st : Bool) (s : List Char) : Option Found :=
  matchRe re 0 st s [] (fun _ s' caps => some (caps, s'))

/-- Leftmost match: the first position at which `matchAt` succeeds. Returns the
captures and the matched text. -/
def findFrom (re : Regex) : Bool → List Char → Option (Caps × List Char)
  | st, [] =>
    match matchAt re st [] with
    | some (caps, _) => some (caps, [])
    | none => none
  | st, c :: cs =>
    match matchAt re st (c :: cs) with
    | some (caps, rest) => some (caps, (c :: cs).take ((c :: cs).length - rest.length))
    | none => findFrom re false cs

/-- Text of group `i`, empty when the group did not take part in the match. -/
def capture (caps : Caps) (i : Nat) : List Char :=
  match caps with
  | [] => []
  | (j, text) :: rest => if j = i then text else capture rest i

/-- Go `re.FindStringSubmatch(s)`: `none` for Go's `nil`; otherwise the matched
text followed by the text of every group. -/
def FindStringSubmatch (re : Regex) (s : String) : Option (List (List Char)) :=
  match findFrom re true s.data with
  | none => none
  | some (caps, whole) => some (whole :: (List.range (numCap re)).map (fun i => capture caps (i + 1)))

/-- The body of `re.ReplaceAllString`: scan positions left to right; a
non-empty match is replaced and the scan resumes behind it; an empty match is
replaced unless it directly follows the previous match, and the scan moves on
by one rune. `jm` records that the previous match ended at this position. -/
def replaceLoop (re : Regex) (repl : Caps → List Char) : Nat → Bool → Bool → List Char → List Char
  | 0, _, _, s => s
  | fuel + 1, st, jm, s =>
    match matchAt re st s with
    | some (caps, rest) =>
      if rest.length < s.length then repl caps ++ replaceLoop re repl fuel false true rest
      else
        let out := if jm then [] else repl caps
        match s with
        | [] => out
        | c :: cs => out ++ c :: replaceLoop re repl fuel false false cs
    | none =>
      match s with
      | [] => []
      | c :: cs => c :: replaceLoop re repl fuel false false cs

/-- Go `re.ReplaceAllString(src, _)` with the expansion of the replacement
template given as a function of the captures. -/
def ReplaceAllString (re : Regex) (src : String) (repl : Caps → List Char) : String :=
  ⟨replaceLoop re repl (src.data.length + 1) true false src.data⟩

/-! ## Generation time: `GatewayModule.method` and `GatewayModule.pattern` -/

/-- The `pattern` oneof of `google.api.HttpRule`; `unset` is the nil interface
of a rule without a pattern. -/
inductive HttpRulePattern where
  | get (path : String)
  | put (path : String)
  | post (path : String)
  | delete (path : String)
  | patch (path : String)
  | custom (kind path : String)
  | unset
  deriving DecidableEq, Repr

/-- Embedding of `GatewayModule.method`: the type switch over `rule.Pattern`. -/
def method (rule : HttpRulePattern) : Except GoPanic String :=
  match rule with
  | .get _ => .ok "GET"
  | .put _ => .ok "PUT"
  | .post _ => .ok "POST"
  | .delete _ => .ok "DELETE"
  | .patch _ => .ok "PATCH"
  | .custom kind _ => .ok kind
  | .unset => .error .unexpectedType

/-- Runes matched by `[a-z]` under the flag `(?i)`: both ASCII cases and the
two runes that simple case folding joins to them, U+017F (with `s`) and U+212A
(with `k`). -/
def foldLetter : List (Char × Char) :=
  [('A', 'Z'), ('a', 'z'), (Char.ofNat 0x17F, Char.ofNat 0x17F), (Char.ofNat 0x212A, Char.ofNat 0x212A)]

/-- Runes matched by `[a-z0-9_]` under the flag `(?i)`. -/
def foldWord : List (Char × Char) :=
  ('0', '9') :: ('_', '_') :: foldLetter

/-- The regular expression `(?i)\{([a-z][a-z0-9_]+)\}`. -/
def patternRE : Regex :=
  .cat (.lit '{')
    (.cat (.cap "" (.cat (.cls false foldLetter) (.plus (.cls false foldWord))))
      (.lit '}'))

/-- Expansion of the replacement template `(?P<$1>[^/#?]+)`: `$1` is the text
of group 1. -/
def expandGroup (caps : Caps) : List Char :=
  "(?P<".data ++ capture caps 1 ++ ">[^/#?]+)".data

/-- The path template selected by the type switch in `GatewayModule.pattern`. -/
def templateOf (rule : HttpRulePattern) : Except GoPanic String :=
  match rule with
  | .get p => .ok p
  | .put p => .ok p
  | .post p => .ok p
  | .delete p => .ok p
  | .patch p => .ok p
  | .custom _ p => .ok p
  | .unset => .error .unexpectedType

/-- The final expression of `GatewayModule.pattern`:
`"^" + patternRE.ReplaceAllString(pattern, "(?P<$1>[^/#?]+)") + "[/#?]?$"`. -/
def compilePattern (template : String) : String :=
  "^" ++ ReplaceAllString patternRE template expandGroup ++ "[/#?]?$"

/-- Embedding of `GatewayModule.pattern`. -/
def pattern (rule : HttpRulePattern) : Except GoPanic String :=
  match templateOf rule with
  | .ok template => .ok (compilePattern template)
  | .error e => .error e

/-! ## `regexp.MustCompile` for the syntax the pattern compiler emits -/

/-- Metacharacters of the regexp syntax. -/
def isMeta (c : Char) : Bool :=
  c ∈ ['\\', '.', '+', '*', '?', '(', ')', '|', '[', ']', '{', '}', '^', '$']

/-- Characters allowed in a capture group name. -/
def isWordChar (c : Char) : Bool :=
  ('a'.toNat ≤ c.toNat && c.toNat ≤ 'z'.toNat) || ('A'.toNat ≤ c.toNat && c.toNat ≤ 'Z'.toNat)
    || ('0'.toNat ≤ c.toNat && c.toNat ≤ '9'.toNat) || c = '_'

/-- Items of a bracket expression up to the closing bracket; escapes, ranges
and nested classes are not covered. -/
def parseClassItems : List Char → Option (List (Char × Char) × List Char)
  | [] => none
  | c :: rest =>
    if c = ']' then some ([], rest)
    else if c = '\\' || c = '[' || c = '-' then none
    else
      match parseClassItems rest with
      | some (items, rest') => some ((c, c) :: items, rest')
      | none => none

/-- A bracket expression, read behind its opening bracket. -/
def parseClass (s : List Char) : Option (Regex × List Char) :=
  match s with
  | '^' :: rest =>
    match parseClassItems rest with
    | some (i :: items, rest') => some (.cls true (i :: items), rest')
    | _ => none
  | _ =>
    match parseClassItems s with
    | some (i :: items, rest') => some (.cls false (i :: items), rest')
    | _ => none

/-- A group name up to the closing `>`. -/
def parseName : List Char → Option (List Char × List Char)
  | [] => none
  | c :: rest =>
    if c = '>' then some ([], rest)
    else if isWordChar c then
      match parseName rest with
      | some (name, rest') => some (c :: name, rest')
      | none => none
    else none

/-- An optional greedy repetition operator behind an atom; a second operator
(non-greedy or nested repetition) is not covered. -/
def applyPostfix (a : Regex) (s : List Char) : Option (Regex × List Char) :=
  let stacked (rest : List Char) : Bool :=
    match rest with
    | c :: _ => c = '+' || c = '*' || c = '?'
    | [] => false
  match s with
  | '+' :: rest => if stacked rest then none else some (.plus a, rest)
  | '*' :: rest => if stacked rest then none else some (.star a, rest)
  | '?' :: rest => if stacked rest then none else some (.quest a, rest)
  | _ => some (a, s)

/-- Concatenation of a sequence of nodes. -/
def seqOf : List Regex → Regex
  | [] => .empty
  | [a] => a
  | a :: rest => .cat a (seqOf rest)

/-- A sequence of atoms with repetition operators, up to the end of the
pattern or an unconsumed closing parenthesis. -/
def parseSeq : Nat → List Char → Option (List Regex × List Char)
  | 0, _ => none
  | fuel + 1, s =>
    let continueWith (a : Regex) (rest : List Char) : Option (List Regex × List Char) :=
      match applyPostfix a rest with
      | none => none
      | some (a', rest') =>
        match parseSeq fuel rest' with
        | some (items, rest'') => some (a' :: items, rest'')
        | none => none
    match s with
    | [] => some ([], [])
    | ')' :: _ => some ([], s)
    | '^' :: rest => continueWith .bot rest
    | '$' :: rest => continueWith .eot rest
    | '[' :: rest =>
      match parseClass rest with
      | some (a, rest') => continueWith a rest'
      | none => none
    | '(' :: '?' :: 'P' :: '<' :: rest =>
      match parseName rest with
      | some (c :: name, rest1) =>
        match parseSeq fuel rest1 with
        | some (items, ')' :: rest2) => continueWith (.cap ⟨c :: name⟩ (seqOf items)) rest2
        | _ => none
      | _ => none
    | c :: rest => if isMeta c then none else continueWith (.lit c) rest

/-- Go `regexp.MustCompile(pattern)` on the syntax fragment made of literal
runes, `^`, `$`, bracket expressions of single runes, named groups and the
greedy operators `+ * ?`. The result is `none` when Go would panic and also
when the pattern uses syntax outside this fragment. -/
def regexp_MustCompile (pat : String) : Option Regex :=
  match parseSeq (pat.data.length + 1) pat.data with
  | some (items, []) => some (seqOf items)
  | _ => none

/-! ## `net/url`: query values -/

/-- Go `url.Values`, a `map[string][]string`. -/
abbrev Values := List (GoBytes × List GoBytes)

/-- Go `v.Add(key, value)`: append `value` to the values of `key`. -/
def valuesAdd (v : Values) (key value : GoBytes) : Values :=
  match v with
  | [] => [(key, [value])]
  | (k, vs) :: rest =>
    if k = key then (k, vs ++ [value]) :: rest else (k, vs) :: valuesAdd rest key value

/-- Go `v.Get(key)`: the first value of `key`, the empty string when there is none. -/
def valuesGet (v : Values) (key : GoBytes) : GoBytes :=
  match v with
  | [] => []
  | (k, vs) :: rest => if k = key then vs.headD [] else valuesGet rest key

/-- The keys of a map. -/
def valuesKeys (v : Values) : List GoBytes := v.map Prod.fst

/-- Byte-wise lexicographic order of Go strings. -/
def bytesLt : GoBytes → GoBytes → Bool
  | [], [] => false
  | [], _ :: _ => true
  | _ :: _, [] => false
  | a :: as, b :: bs => a.toNat < b.toNat || (a = b && bytesLt as bs)

/-- Insertion into a list sorted by key. -/
def insertSorted (e : GoBytes × List GoBytes) : Values → Values
  | [] => [e]
  | x :: rest => if bytesLt e.1 x.1 then e :: x :: rest else x :: insertSorted e rest

/-- The entries of a map in the order of `sort.Strings` on the keys. -/
def sortByKey : Values → Values
  | [] => []
  | e :: rest => insertSorted e (sortByKey rest)

/-- Upper-case hexadecimal digit. -/
def hexDigit (n : Nat) : UInt8 :=
  if n < 10 then UInt8.ofNat (48 + n) else UInt8.ofNat (55 + n)

/-- Bytes that `url.QueryEscape` leaves as they are: letters, digits and `-_.~`. -/
def unreserved (c : UInt8) : Bool :=
  (97 ≤ c.toNat && c.toNat ≤ 122) || (65 ≤ c.toNat && c.toNat ≤ 90)
    || (48 ≤ c.toNat && c.toNat ≤ 57) || c = 45 || c = 95 || c = 46 || c = 126

/-- Go `url.QueryEscape`. -/
def url_QueryEscape : GoBytes → GoBytes
  | [] => []
  | c :: cs =>
    if c = 32 then 43 :: url_QueryEscape cs
    else if unreserved c then c :: url_QueryEscape cs
    else 37 :: hexDigit (c.toNat / 16) :: hexDigit (c.toNat % 16) :: url_QueryEscape cs

/-- Value of a hexadecimal digit. -/
def unhex (c : UInt8) : Option Nat :=
  if 48 ≤ c.toNat && c.toNat ≤ 57 then some (c.toNat - 48)
  else if 97 ≤ c.toNat && c.toNat ≤ 102 then some (c.toNat - 97 + 10)
  else if 65 ≤ c.toNat && c.toNat ≤ 70 then some (c.toNat - 65 + 10)
  else none

/-- Go `url.QueryUnescape`: `none` for Go's `EscapeError`. -/
def url_QueryUnescape : GoBytes → Option GoBytes
  | [] => some []
  | c :: rest =>
    if c = 37 then
      match rest with
      | h :: l :: rest' =>
        match unhex h, unhex l, url_QueryUnescape rest' with
        | some hi, some lo, some out => some (UInt8.ofNat (hi * 16 + lo) :: out)
        | _, _, _ => none
      | _ => none
    else
      match url_QueryUnescape rest with
      | some out => some ((if c = 43 then 32 else c) :: out)
      | none => none

/-- Go `strings.Cut(s, sep)` for a one-byte separator: the text before and after
the first separator (all of `s` and nothing when there is none). -/
def strings_Cut (s : GoBytes) (sep : UInt8) : GoBytes × GoBytes :=
  match s with
  | [] => ([], [])
  | b :: rest =>
    if b = sep then ([], rest)
    else ((b :: (strings_Cut rest sep).1), (strings_Cut rest sep).2)

/-- One iteration of the loop of `url.ParseQuery` on the segment `seg`
between two `&`: segments with a semicolon, empty segments and segments with a
malformed escape add nothing. -/
def parsePair (m : Values) (seg : GoBytes) : Values :=
  if seg.contains 59 then m
  else if seg = [] then m
  else
    match url_QueryUnescape (strings_Cut seg 61).1, url_QueryUnescape (strings_Cut seg 61).2 with
    | some key, some value => valuesAdd m key value
    | _, _ => m

/-- Go `u.Query()`, that is `url.ParseQuery(u.RawQuery)` with the error dropped. -/
def url_Query (rawQuery : GoBytes) : Values :=
  (strings_Split rawQuery 38).foldl parsePair []

/-- One `key=value` item for every value of an entry. -/
def encodeEntry (e : GoBytes × List GoBytes) : List GoBytes :=
  e.2.map (fun v => url_QueryEscape e.1 ++ 61 :: url_QueryEscape v)

/-- Join with a one-byte separator. -/
def joinBytes (sep : UInt8) : List GoBytes → GoBytes
  | [] => []
  | [x] => x
  | x :: rest => x ++ sep :: joinBytes sep rest

/-- Go `v.Encode()`: the escaped pairs, sorted by key, joined by `&`. -/
def valuesEncode (v : Values) : GoBytes :=
  joinBytes 38 ((sortByKey v).map encodeEntry).flatten

/-! ## Run time: routes and the generated handler -/

/-- The struct `gatewayRoute`; the field `match` holds the compiled regexp. -/
structure gatewayRoute where
  re : Regex
  endpoint : String
  deriving DecidableEq, Repr

/-- The loop of `try` over `SubexpNames()`: every named group adds its text
under its name. -/
def addNamed : List String → List (List Char) → Values → Values
  | name :: names, m :: ms, p =>
    addNamed names ms (if name ≠ "" then valuesAdd p (bytes name) (utf8 m) else p)
  | _, _, p => p

/-- Embedding of `gatewayRoute.try`: `none` is the result `(nil, false)`. -/
def gatewayRoute.try (g : gatewayRoute) (path : String) : Option Values :=
  match FindStringSubmatch g.re path with
  | some subs => some (addNamed (SubexpNames g.re) subs [])
  | none => none

/-- The map `routes` of type `map[string][]*gatewayRoute`. -/
abbrev RouteTable := List (String × List gatewayRoute)

/-- The read `routes[verb]`, `nil` for an absent verb. -/
def routesGet (routes : RouteTable) (verb : String) : List gatewayRoute :=
  match routes with
  | [] => []
  | (v, grs) :: rest => if v = verb then grs else routesGet rest verb

/-- The statement `routes[verb] = append(routes[verb], gr)`. -/
def routesAppend (routes : RouteTable) (verb : String) (gr : gatewayRoute) : RouteTable :=
  match routes with
  | [] => [(verb, [gr])]
  | (v, grs) :: rest =>
    if v = verb then (v, grs ++ [gr]) :: rest else (v, grs) :: routesAppend rest verb gr

/-- The route table built by the generated constructor from the methods with
an HTTP rule, in declaration order: one `append` per method. -/
def buildRoutes (declared : List (String × gatewayRoute)) : RouteTable :=
  declared.foldl (fun routes d => routesAppend routes d.1 d.2) []

/-- The parts of `*http.Request` the handler reads or writes: `r.Method`,
`r.URL.Path`, `r.URL.RawQuery`, `r.Header` (canonical key, values), the bytes
of `r.Body` and `r.ContentLength`. -/
structure Request where
  method : String
  path : String
  rawQuery : GoBytes
  header : List (String × List String)
  body : GoBytes
  contentLength : Int
  deriving DecidableEq, Repr

/-- Go `r.Header.Get(key)` for a canonical key: the first value, `""` when the
header is absent. -/
def headerGet (header : List (String × List String)) (key : String) : String :=
  match header with
  | [] => ""
  | (k, vs) :: rest => if k = key then vs.headD "" else headerGet rest key

/-- What `json.NewDecoder(r.Body).Decode(&request)` leaves behind for
`request := map[string]interface{}{}`: an error, the nil map (body `null`), or
a map. -/
inductive Decoded where
  | failed : Decoded
  | nilMap : Decoded
  | map (m : List (GoBytes × Value)) : Decoded

/-- The decoded request as a dynamic value. -/
def Decoded.toValue : Decoded → Option Value
  | .failed => none
  | .nilMap => some .nilMap
  | .map m => some (.obj m)

/-- Library behaviour the handler depends on but which is not fixed here: the
Unicode lower-casing table for runes from U+0080 on, the JSON codec, and the
order in which `range` visits the keys of a map (any permutation). -/
structure Runtime where
  unicodeToLower : Char → Char
  jsonDecode : GoBytes → Decoded
  jsonMarshal : Value → GoBytes
  rangeVerbs : List String → List String
  rangeVerbs_perm : ∀ l, (rangeVerbs l).Perm l
  rangeKeys : List GoBytes → List GoBytes
  rangeKeys_perm : ∀ l, (rangeKeys l).Perm l

/-- Go `strings.ToLower`: ASCII letters by arithmetic, other runes by the Unicode
table. -/
def strings_ToLower (rt : Runtime) (s : List Char) : List Char :=
  s.map (fun c =>
    if c.toNat < 128 then (if 'A'.toNat ≤ c.toNat ∧ c.toNat ≤ 'Z'.toNat then Char.ofNat (c.toNat + 32) else c)
    else rt.unicodeToLower c)

/-- Go `unicode.IsSpace`. -/
def isSpace (c : Char) : Bool :=
  let n := c.toNat
  (9 ≤ n && n ≤ 13) || n = 32 || n = 0x85 || n = 0xA0 || n = 0x1680
    || (0x2000 ≤ n && n ≤ 0x200A) || n = 0x2028 || n = 0x2029 || n = 0x202F
    || n = 0x205F || n = 0x3000

/-- Go `strings.TrimSpace`. -/
def strings_TrimSpace (s : List Char) : List Char :=
  ((s.dropWhile isSpace).reverse.dropWhile isSpace).reverse

/-- The text `content[:i]` where `i` is the index of the first `;`, or the
length of `content` when there is none. -/
def beforeSemicolon (content : List Char) : List Char :=
  content.takeWhile (fun c => c ≠ ';')

/-- The media type the handler compares with `"application/json"`:
`strings.TrimSpace(strings.ToLower(content[:i]))`. -/
def mediaType (rt : Runtime) (content : String) : List Char :=
  strings_TrimSpace (strings_ToLower rt (beforeSemicolon content.data))

/-- What handling one request ends in: `respond`, the gateway writes the
response itself (status, `Allow` header if set) and the wrapped handler is not
called; `forward`, the call `h.ServeHTTP(w, r)` with the request as rewritten;
`panic`, a panic before `h.ServeHTTP` is reached. -/
inductive Outcome where
  | respond (status : Nat) (allow : Option String) : Outcome
  | forward (r : Request) : Outcome
  | panic (p : GoPanic) : Outcome

/-- The loop `for path := range query { gatewaySetJSON(request, path, query.Get(path)) }`
over the keys in the order `keys`; the returned error is dropped, a panic ends
the loop. -/
def setAll (query : Values) (request : Value) (keys : List GoBytes) : Except GoPanic Value :=
  match keys with
  | [] => .ok request
  | path :: rest =>
    match (gatewaySetJSON request path (.str (valuesGet query path))).ret with
    | .error p => .error p
    | .ok _ => setAll query (gatewaySetJSON request path (.str (valuesGet query path))).root rest

/-- The value of `r.URL.RawQuery` after
`if len(params) > 0 { r.URL.RawQuery = url.Values(params).Encode() + "&" + r.URL.RawQuery }`. -/
def mergedRawQuery (params : Values) (r : Request) : GoBytes :=
  if params.length > 0 then valuesEncode params ++ 38 :: r.rawQuery else r.rawQuery

/-- The body of `if params, ok := gr.try(r.URL.Path); ok { ... }`. -/
def onMatch (rt : Runtime) (gr : gatewayRoute) (params : Values) (r : Request) : Outcome :=
  let r1 : Request := { r with rawQuery := mergedRawQuery params r }
  let query := url_Query r1.rawQuery
  if query.length > 0 then
    match (rt.jsonDecode r1.body).toValue with
    | none => .respond 400 none
    | some request =>
      match setAll query request (rt.rangeKeys (valuesKeys query)) with
      | .error p => .panic p
      | .ok request' =>
        .forward { r1 with
          body := rt.jsonMarshal request'
          contentLength := (rt.jsonMarshal request').length
          method := "POST"
          path := gr.endpoint }
  else
    .forward { r1 with method := "POST", path := gr.endpoint }

/-- The loop `for _, gr := range routes[r.Method]`: the first route whose
`try` succeeds handles the request; `none` when the loop runs to its end. -/
def routeLoop (rt : Runtime) (r : Request) : List gatewayRoute → Option Outcome
  | [] => none
  | gr :: rest =>
    match gr.try r.path with
    | some params => some (onMatch rt gr params r)
    | none => routeLoop rt r rest

/-- The inner loop of the fallback scan: `method` is appended once for every
route in `handlers` that matches. -/
def scanHandlers (path : String) (method : String) : List gatewayRoute → List String
  | [] => []
  | gr :: rest =>
    match gr.try path with
    | some _ => method :: scanHandlers path method rest
    | none => scanHandlers path method rest

/-- The loop `for method, handlers := range routes` of the fallback scan over
the verbs in the order `verbs`; the request's own verb is skipped. -/
def scanVerbs (routes : RouteTable) (r : Request) : List String → List String
  | [] => []
  | method :: rest =>
    if method = r.method then scanVerbs routes r rest
    else scanHandlers r.path method (routesGet routes method) ++ scanVerbs routes r rest

/-- The slice `allowed` after the fallback scan. -/
def allowedVerbs (rt : Runtime) (routes : RouteTable) (r : Request) : List String :=
  scanVerbs routes r (rt.rangeVerbs (routes.map Prod.fst))

/-- Go `strings.Join(xs, ", ")`. -/
def strings_Join : List String → String
  | [] => ""
  | [x] => x
  | x :: rest => x ++ ", " ++ strings_Join rest

/-- The handler returned by the generated `<Service>Gateway()` for the table
`routes`, applied to one request. -/
def serve (rt : Runtime) (routes : RouteTable) (r : Request) : Outcome :=
  if mediaType rt (headerGet r.header "Content-Type") ≠ "application/json".data then
    .respond 415 none
  else
    match routeLoop rt r (routesGet routes r.method) with
    | some out => out
    | none =>
      if (allowedVerbs rt routes r).length = 0 then .respond 404 none
      else .respond 405 (some (strings_Join (allowedVerbs rt routes r)))

/-- A runtime in which `range` visits keys in stored order, the Unicode table
is the identity, every body decodes to `d` and every value is marshalled to the
empty text. -/
def Runtime.fixed (d : Decoded) : Runtime where
  unicodeToLower := id
  jsonDecode := fun _ => d
  jsonMarshal := fun _ => []
  rangeVerbs := id
  rangeVerbs_perm := fun _ => List.Perm.refl _
  rangeKeys := id
  rangeKeys_perm := fun _ => List.Perm.refl _

/-! ## Placeholder replacement, stated directly on the text -/

/-- A placeholder token at the head of `s`: `{`, one rune accepted by `first`,
a maximal run of runes accepted by `more` that has at least `minMore` runes,
and `}`. The result is the name and the text behind the token. -/
def placeholderAt (first more : Char → Bool) (minMore : Nat) (s : List Char) :
    Option (List Char × List Char) :=
  match s with
  | b :: c :: cs =>
    if b = '{' ∧ first c = true ∧ minMore ≤ (cs.takeWhile more).length then
      match cs.dropWhile more with
      | e :: rest => if e = '}' then some (c :: cs.takeWhile more, rest) else none
      | [] => none
    else none
  | _ => none

/-- The named capturing group `(?P<name>[^/#?]+)`. -/
def namedGroup (name : List Char) : List Char :=
  "(?P<".data ++ name ++ ">[^/#?]+)".data

/-- The text with every placeholder token, found from left to right, replaced
by its named capturing group and every other rune kept. `skip` counts the
runes that still belong to the token replaced last. -/
def replacePlaceholders (first more : Char → Bool) (minMore : Nat) :
    List Char → Nat → List Char
  | [], _ => []
  | _ :: cs, skip + 1 => replacePlaceholders first more minMore cs skip
  | c :: cs, 0 =>
    match placeholderAt first more minMore (c :: cs) with
    | some (name, _) =>
      namedGroup name ++ replacePlaceholders first more minMore cs (name.length + 1)
    | none => c :: replacePlaceholders first more minMore cs 0

/-- The letters `[A-Za-z]`. -/
def asciiLetter (c : Char) : Bool :=
  ('a'.toNat ≤ c.toNat && c.toNat ≤ 'z'.toNat) || ('A'.toNat ≤ c.toNat && c.toNat ≤ 'Z'.toNat)

/-- The compiled pattern as the specification words it: tokens `{name}` with a
name in `[A-Za-z][A-Za-z0-9_]*` become named groups; the result is anchored
and allows one trailing `/`, `#` or `?`. -/
def specPattern (template : String) : String :=
  "^" ++ ⟨replacePlaceholders asciiLetter isWordChar 0 template.data 0⟩ ++ "[/#?]?$"

/-- The compiled pattern with the names of `patternRE`: a letter followed by
one or more letters, digits or underscores, where the letters are those of
`(?i)[a-z]`. -/
def foldedPattern (template : String) : String :=
  "^" ++ ⟨replacePlaceholders (inClass false foldLetter) (inClass false foldWord) 1
      template.data 0⟩
    ++ "[/#?]?$"

/-! ## The binding of the worked example -/

/-- The stop set `/ # ?` of the emitted bracket expressions. -/
def stops : List (Char × Char) := [('/', '/'), ('#', '#'), ('?', '?')]

/-- The syntax tree of `^/v1/items/(?P<id>[^/#?]+)[/#?]?$`. -/
def itemRe : Regex :=
  seqOf (.bot :: ("/v1/items/".data.map Regex.lit
    ++ [.cap "id" (.plus (.cls true stops)), .quest (.cls false stops), .eot]))

/-- The route of the binding `GET /v1/items/{id} -> /twirp/Service/GetItem`. -/
def itemRoute : gatewayRoute := ⟨itemRe, "/twirp/Service/GetItem"⟩

/-- The request `GET /v1/items/42?active=true` with a JSON content type and
the body `{"name":"x"}`. -/
def itemRequest : Request where
  method := "GET"
  path := "/v1/items/42"
  rawQuery := bytes "active=true"
  header := [("Content-Type", ["application/json"])]
  body := bytes "\x7b\"name\":\"x\"\x7d"
  contentLength := 12

/-- The syntax tree of `^/v1/(?P<kind>[^/#?]+)/(?P<id>[^/#?]+)[/#?]?$`. -/
def kindRe : Regex :=
  seqOf (.bot :: ("/v1/".data.map Regex.lit
    ++ [.cap "kind" (.plus (.cls true stops)), .lit '/', .cap "id" (.plus (.cls true stops)),
        .quest (.cls false stops), .eot]))

/-- The route of a binding `GET /v1/{kind}/{id} -> /twirp/Service/GetThing`. -/
def kindRoute : gatewayRoute := ⟨kindRe, "/twirp/Service/GetThing"⟩

/-- The request `DELETE /v1/items/42` with a JSON content type and an empty body. -/
def deleteRequest : Request where
  method := "DELETE"
  path := "/v1/items/42"
  rawQuery := []
  header := [("Content-Type", ["application/json"])]
  body := []
  contentLength := 0

/-- The declared routes of verb `v` that match `path`, in declaration order. -/
def matchingRoutes (declared : List (String × gatewayRoute)) (path : String) (v : String) :
    List (String × gatewayRoute) :=
  declared.filter (fun d => decide (d.1 = v) && (d.2.try path).isSome)

/-- The request `GET /v2` with a JSON content type and an empty body. -/
def otherRequest : Request where
  method := "GET"
  path := "/v2"
  rawQuery := []
  header := [("Content-Type", ["application/json"])]
  body := []
  contentLength := 0

/-- The request `GET /v2` without any header. -/
def bareRequest : Request where
  method := "GET"
  path := "/v2"
  rawQuery := []
  header := []
  body := []
  contentLength := 0

/-- The syntax tree of `^/v1/items[/#?]?$`. -/
def listRe : Regex :=
  seqOf (.bot :: ("/v1/items".data.map Regex.lit ++ [.quest (.cls false stops), .eot]))

/-- The route of a binding `GET /v1/items -> /twirp/Service/ListItems`, a
template without placeholders. -/
def listRoute : gatewayRoute := ⟨listRe, "/twirp/Service/ListItems"⟩

/-- The request `GET /v1/items` with a JSON content type, no query and the
body `{"name":"x"}`. -/
def listRequest : Request where
  method := "GET"
  path := "/v1/items"
  rawQuery := []
  header := [("Content-Type", ["application/json"])]
  body := bytes "\x7b\"name\":\"x\"\x7d"
  contentLength := 12

/-- The number of bytes of a path other than the dot. -/
def nonDotCount (path : GoBytes) : Nat :=
  (path.filter (fun b => b != dot)).length

/-- The pair a segment of the raw query contributes in `url.ParseQuery`, if any. -/
def decodePair (seg : GoBytes) : Option (GoBytes × GoBytes) :=
  if seg.contains 59 then none
  else if seg = [] then none
  else
    match url_QueryUnescape (strings_Cut seg 61).1, url_QueryUnescape (strings_Cut seg 61).2 with
    | some key, some value => some (key, value)
    | _, _ => none

/-- The decoded `key=value` pairs of a raw query in the order they occur. -/
def queryPairs (rawQuery : GoBytes) : List (GoBytes × GoBytes) :=
  (strings_Split rawQuery 38).filterMap decodePair

/-- Adding a list of pairs to a map, one `Add` per pair. -/
def addPairs (m : Values) (pairs : List (GoBytes × GoBytes)) : Values :=
  pairs.foldl (fun m p => valuesAdd m p.1 p.2) m

/-- The value of the first pair with the given key, the empty string when
there is none. -/
def firstValue (pairs : List (GoBytes × GoBytes)) (key : GoBytes) : GoBytes :=
  match pairs with
  | [] => []
  | (k, v) :: rest => if k = key then v else firstValue rest key

/-- The value of the last pair with the given key, the empty string when there
is none. -/
def lastValue (pairs : List (GoBytes × GoBytes)) (key : GoBytes) : GoBytes :=
  firstValue pairs.reverse key

/-- The pairs of a map, entry by entry. -/
def pairsOf (m : Values) : List (GoBytes × GoBytes) :=
  match m with
  | [] => []
  | (k, vs) :: rest => vs.map (fun v => (k, v)) ++ pairsOf rest

/-- Every key of the map has at least one value, as in every `url.Values`
built by `Add`. -/
def NonEmptyValues (m : Values) : Prop := ∀ e ∈ m, e.2 ≠ []

/-- One escaped `key=value` item. -/
def encodePair (p : GoBytes × GoBytes) : GoBytes :=
  url_QueryEscape p.1 ++ 61 :: url_QueryEscape p.2

/-- A decoder that agrees with `json.Decoder.Decode` into an empty
`map[string]interface{}` on the two bodies it is applied to: `null` leaves the
nil map without an error, `{}` leaves the empty map. -/
def sampleDecode (body : GoBytes) : Decoded :=
  if body = bytes "null" then .nilMap
  else if body = bytes "\x7b\x7d" then .map []
  else .failed

/-- One member `"key":"value"` of a marshalled object with string values. -/
def marshalMember (e : GoBytes × Value) : GoBytes :=
  match e.2 with
  | .str s => 34 :: e.1 ++ 34 :: 58 :: 34 :: s ++ [34]
  | _ => 34 :: e.1 ++ 34 :: 58 :: bytes "null"

/-- A marshaller that agrees with `json.Marshal` on the objects it is applied
to: objects with at most one member whose key and string value need no escape. -/
def sampleMarshal (v : Value) : GoBytes :=
  match v with
  | .obj m => 123 :: joinBytes 44 (m.map marshalMember) ++ [125]
  | _ => bytes "null"

/-- A runtime with the sample codec in which `range` visits keys in stored
order and the Unicode table is the identity. -/
def Runtime.sample : Runtime where
  unicodeToLower := id
  jsonDecode := sampleDecode
  jsonMarshal := sampleMarshal
  rangeVerbs := id
  rangeVerbs_perm := fun _ => List.Perm.refl _
  rangeKeys := id
  rangeKeys_perm := fun _ => List.Perm.refl _

/-- The request `GET /v1/items?x=1` with a JSON content type and the body `null`. -/
def nullRequest : Request where
  method := "GET"
  path := "/v1/items"
  rawQuery := bytes "x=1"
  header := [("Content-Type", ["application/json"])]
  body := bytes "null"
  contentLength := 4

/-- The request `GET /v1/items?a.b=1` with a JSON content type and the body `{}`. -/
def dottedRequest : Request where
  method := "GET"
  path := "/v1/items"
  rawQuery := bytes "a.b=1"
  header := [("Content-Type", ["application/json"])]
  body := bytes "\x7b\x7d"
  contentLength := 2

/-- The request `GET /v1/items?x=1&x=2` with a JSON content type and the body `{}`. -/
def repeatedRequest : Request where
  method := "GET"
  path := "/v1/items"
  rawQuery := bytes "x=1&x=2"
  header := [("Content-Type", ["application/json"])]
  body := bytes "\x7b\x7d"
  contentLength := 2

/-- A piece of a path template whose literal text is free of regexp
metacharacters: a literal rune or a placeholder `{name}`. -/
inductive Piece where
  | lit (c : Char) : Piece
  | hole (name : List Char) : Piece
  deriving DecidableEq, Repr

/-- The text of a piece in the template. -/
def Piece.source : Piece → List Char
  | .lit c => [c]
  | .hole name => '{' :: (name ++ ['}'])

/-- The text of a piece in the compiled pattern. -/
def Piece.compiled : Piece → List Char
  | .lit c => [c]
  | .hole name => namedGroup name

/-- The syntax tree of a piece of the compiled pattern. -/
def Piece.node : Piece → Regex
  | .lit c => .lit c
  | .hole name => .cap ⟨name⟩ (.plus (.cls true stops))

/-- A literal rune is no metacharacter; the name of a placeholder is one that
`patternRE` recognises: a letter followed by one or more word runes. -/
def Piece.wellFormed : Piece → Bool
  | .lit c => !isMeta c
  | .hole (c :: d :: ds) => inClass false foldLetter c && (d :: ds).all (inClass false foldWord)
  | .hole _ => false

/-- The name of a placeholder is a valid group name for `regexp`. -/
def Piece.asciiName : Piece → Bool
  | .lit _ => true
  | .hole name => name.all isWordChar

/-- The template made of a list of pieces. -/
def templateOfPieces (ps : List Piece) : String :=
  ⟨(ps.map Piece.source).flatten⟩

/-- The pieces of the template `/v1/items/{id}`. -/
def itemPieces : List Piece :=
  "/v1/items/".data.map Piece.lit ++ [.hole "id".data]

/-- The text does not begin with a repetition operator. -/
def postfixFree (s : List Char) : Bool :=
  match s with
  | c :: _ => !(c = '+' || c = '*' || c = '?')
  | [] => true

/-- The closing part `[/#?]?$` of every compiled pattern. -/
def patternTail : List Char := "[/#?]?$".data



/-- The syntax tree of `^/v1/items/(?P<x>[^/#?]+)[/#?]?$`. -/
def shortRe : Regex :=
  seqOf (.bot :: ("/v1/items/".data.map Regex.lit
    ++ [.cap "x" (.plus (.cls true stops)), .quest (.cls false stops), .eot]))

/-- The route of a binding `GET /v1/items/(?P<x>[^/#?]+) -> /twirp/Service/GetItem`:
the template has no placeholder and its literal text, carried into the pattern
unescaped, declares the capture group `x`. -/
def shortRoute : gatewayRoute := ⟨shortRe, "/twirp/Service/GetItem"⟩

/-- The request `GET /v1/items/42?x=7` with a JSON content type and the body `{}`. -/
def shortRequest : Request where
  method := "GET"
  path := "/v1/items/42"
  rawQuery := bytes "x=7"
  header := [("Content-Type", ["application/json"])]
  body := bytes "\x7b\x7d"
  contentLength := 2

/-- The request `GET /v1/items/42?id=7` with a JSON content type and the body `{}`. -/
def conflictRequest : Request where
  method := "GET"
  path := "/v1/items/42"
  rawQuery := bytes "id=7"
  header := [("Content-Type", ["application/json"])]
  body := bytes "\x7b\x7d"
  contentLength := 2

/-! ## Theorems -/

/-! ### Helper lemmas -/

/-- A path with more bytes than segments makes `gatewaySetJSON` panic and
leaves the document alone. -/
theorem gatewaySetJSON_long_path (root value : Value) (path : GoBytes)
    (h : (strings_Split path dot).length < path.length) :
    ∃ p, gatewaySetJSON root path value = ⟨root, .error p⟩ := by
  unfold gatewaySetJSON
  split
  · rename_i h0
    rw [h0] at h
    omega
  · rename_i n hn
    rw [hn] at h
    simp only []
    split
    · exact ⟨_, rfl⟩
    · have hget : (strings_Split path dot).get? n = none := by
        apply List.get?_eq_none.mpr
        omega
      split
      · exact ⟨_, rfl⟩
      · split
        · rw [hget]; exact ⟨_, rfl⟩
        · rw [hget]; exact ⟨_, rfl⟩
        · exact ⟨_, rfl⟩

/-- The loop over the query keys panics at its first key when that key has
more bytes than segments. -/
theorem setAll_long_head (query : Values) (request : Value) (k : GoBytes) (ks : List GoBytes)
    (h : (strings_Split k dot).length < k.length) :
    ∃ p, setAll query request (k :: ks) = .error p := by
  obtain ⟨p, hp⟩ := gatewaySetJSON_long_path request (.str (valuesGet query k)) k h
  refine ⟨p, ?_⟩
  simp [setAll, hp]

/-- A matched request whose merged query is non-empty and has only keys with
more bytes than segments ends in 400 (body not decodable) or in a panic. -/
theorem onMatch_long_keys (rt : Runtime) (gr : gatewayRoute) (params : Values) (r : Request)
    (hne : url_Query (mergedRawQuery params r) ≠ [])
    (hlong : ∀ k ∈ valuesKeys (url_Query (mergedRawQuery params r)),
      (strings_Split k dot).length < k.length) :
    ((rt.jsonDecode r.body).toValue = none → onMatch rt gr params r = .respond 400 none)
      ∧ ((rt.jsonDecode r.body).toValue ≠ none → ∃ p, onMatch rt gr params r = .panic p) := by
  have hlen : (url_Query (mergedRawQuery params r)).length > 0 :=
    List.length_pos.mpr hne
  constructor
  · intro hd
    simp only [onMatch, hlen, if_true, hd]
  · intro hd
    obtain ⟨request, hreq⟩ := Option.ne_none_iff_exists'.mp hd
    have hperm := rt.rangeKeys_perm (valuesKeys (url_Query (mergedRawQuery params r)))
    cases hks : rt.rangeKeys (valuesKeys (url_Query (mergedRawQuery params r))) with
    | nil =>
      rw [hks] at hperm
      have := hperm.length_eq
      simp [valuesKeys] at this
      omega
    | cons k ks =>
      have hk : k ∈ valuesKeys (url_Query (mergedRawQuery params r)) := by
        apply hperm.subset
        rw [hks]
        exact List.mem_cons_self _ _
      obtain ⟨p, hp⟩ := setAll_long_head (url_Query (mergedRawQuery params r)) request k ks
        (hlong k hk)
      refine ⟨p, ?_⟩
      simp only [onMatch, hlen, if_true, hreq, hks, hp]

/-- A matched request ends in 400, in a forward to the route's endpoint with
method POST, or in a panic. -/
theorem onMatch_cases (rt : Runtime) (gr : gatewayRoute) (params : Values) (r : Request) :
    onMatch rt gr params r = .respond 400 none
      ∨ (∃ r', onMatch rt gr params r = .forward r' ∧ r'.path = gr.endpoint ∧ r'.method = "POST")
      ∨ (∃ p, onMatch rt gr params r = .panic p) := by
  unfold onMatch
  simp only []
  split
  · split
    · exact Or.inl rfl
    · split
      · exact Or.inr (Or.inr ⟨_, rfl⟩)
      · exact Or.inr (Or.inl ⟨_, rfl, rfl, rfl⟩)
  · exact Or.inr (Or.inl ⟨_, rfl, rfl, rfl⟩)

/-- The route loop runs to its end exactly when no route of the list matches. -/
theorem routeLoop_eq_none (rt : Runtime) (r : Request) (grs : List gatewayRoute) :
    routeLoop rt r grs = none ↔ ∀ gr ∈ grs, gr.try r.path = none := by
  induction grs with
  | nil => simp [routeLoop]
  | cons g rest ih =>
    cases hg : g.try r.path with
    | none => simp [routeLoop, hg, ih]
    | some params => simp [routeLoop, hg]

/-- The route loop stops at the first route that matches. -/
theorem routeLoop_first (rt : Runtime) (r : Request) (pre post : List gatewayRoute)
    (gr : gatewayRoute) (params : Values)
    (hpre : ∀ g ∈ pre, g.try r.path = none) (hgr : gr.try r.path = some params) :
    routeLoop rt r (pre ++ gr :: post) = some (onMatch rt gr params r) := by
  induction pre with
  | nil => simp [routeLoop, hgr]
  | cons g rest ih =>
    have hg : g.try r.path = none := hpre g (List.mem_cons_self _ _)
    have hrest : ∀ g' ∈ rest, g'.try r.path = none :=
      fun g' hg' => hpre g' (List.mem_cons_of_mem _ hg')
    simp [routeLoop, hg, ih hrest]

/-- Reading a verb after one `append`. -/
theorem routesGet_routesAppend (routes : RouteTable) (v verb : String) (gr : gatewayRoute) :
    routesGet (routesAppend routes v gr) verb
      = if v = verb then routesGet routes verb ++ [gr] else routesGet routes verb := by
  induction routes with
  | nil =>
    by_cases h : v = verb <;> simp [routesAppend, routesGet, h]
  | cons e rest ih =>
    obtain ⟨w, grs⟩ := e
    by_cases hw : w = v
    · subst hw
      by_cases h : w = verb <;> simp [routesAppend, routesGet, h]
    · by_cases h : w = verb
      · subst h
        have hv : ¬ v = w := fun hc => hw hc.symm
        simp [routesAppend, routesGet, hw, hv]
      · simp [routesAppend, routesGet, hw, h, ih]

/-- The routes of a verb after appending the declarations `declared` to a table. -/
theorem routesGet_foldl (declared : List (String × gatewayRoute)) (init : RouteTable)
    (verb : String) :
    routesGet (declared.foldl (fun routes d => routesAppend routes d.1 d.2) init) verb
      = routesGet init verb
        ++ (declared.filter (fun d => decide (d.1 = verb))).map Prod.snd := by
  induction declared generalizing init with
  | nil => simp
  | cons d rest ih =>
    rw [List.foldl_cons, ih, routesGet_routesAppend]
    by_cases h : d.1 = verb <;> simp [h, List.filter_cons]

/-- The routes of a verb in the built table are the declared routes of that
verb, in declaration order. -/
theorem routesGet_buildRoutes (declared : List (String × gatewayRoute)) (verb : String) :
    routesGet (buildRoutes declared) verb
      = (declared.filter (fun d => decide (d.1 = verb))).map Prod.snd := by
  unfold buildRoutes
  rw [routesGet_foldl]
  simp [routesGet]

/-- The verbs of a table after one `append`. -/
theorem mem_keys_routesAppend (routes : RouteTable) (v w : String) (gr : gatewayRoute) :
    w ∈ (routesAppend routes v gr).map Prod.fst ↔ w = v ∨ w ∈ routes.map Prod.fst := by
  induction routes with
  | nil => simp [routesAppend]
  | cons e rest ih =>
    obtain ⟨u, grs⟩ := e
    by_cases hu : u = v
    · subst hu
      simp [routesAppend]
    · simp only [routesAppend, hu, if_false, List.map_cons, List.mem_cons, ih]
      tauto

/-- The verbs of the built table are the verbs that occur in a declaration. -/
theorem mem_keys_foldl (declared : List (String × gatewayRoute)) (init : RouteTable) (w : String) :
    w ∈ (declared.foldl (fun routes d => routesAppend routes d.1 d.2) init).map Prod.fst
      ↔ w ∈ init.map Prod.fst ∨ ∃ d ∈ declared, d.1 = w := by
  induction declared generalizing init with
  | nil => simp
  | cons d rest ih =>
    rw [List.foldl_cons, ih, mem_keys_routesAppend]
    simp only [List.mem_cons, exists_eq_or_imp]
    constructor
    · rintro ((h | h) | h)
      · exact Or.inr (Or.inl h.symm)
      · exact Or.inl h
      · exact Or.inr (Or.inr h)
    · rintro (h | h | h)
      · exact Or.inl (Or.inr h)
      · exact Or.inl (Or.inl h.symm)
      · exact Or.inr h

/-- Membership in the inner scan: the verb itself, when some route matches. -/
theorem mem_scanHandlers (path method v : String) (grs : List gatewayRoute) :
    v ∈ scanHandlers path method grs ↔ v = method ∧ ∃ gr ∈ grs, gr.try path ≠ none := by
  induction grs with
  | nil => simp [scanHandlers]
  | cons g rest ih =>
    cases hg : g.try path with
    | none => simp [scanHandlers, hg, ih]
    | some params =>
      simp only [scanHandlers, hg, List.mem_cons, ih]
      constructor
      · rintro (h | h)
        · exact ⟨h, g, Or.inl rfl, by simp [hg]⟩
        · exact ⟨h.1, g, Or.inl rfl, by simp [hg]⟩
      · rintro ⟨h, _⟩
        exact Or.inl h

/-- Membership in the fallback scan: a visited verb other than the request's
own with a matching route. -/
theorem mem_scanVerbs (routes : RouteTable) (r : Request) (v : String) (verbs : List String) :
    v ∈ scanVerbs routes r verbs
      ↔ v ∈ verbs ∧ v ≠ r.method ∧ ∃ gr ∈ routesGet routes v, gr.try r.path ≠ none := by
  induction verbs with
  | nil => simp [scanVerbs]
  | cons m rest ih =>
    by_cases hm : m = r.method
    · simp only [scanVerbs, hm, if_true, ih, List.mem_cons]
      constructor
      · rintro ⟨h1, h2, h3⟩
        exact ⟨Or.inr h1, h2, h3⟩
      · rintro ⟨h1 | h1, h2, h3⟩
        · exact absurd h1 h2
        · exact ⟨h1, h2, h3⟩
    · simp only [scanVerbs, hm, if_false, List.mem_append, mem_scanHandlers, ih, List.mem_cons]
      constructor
      · rintro (⟨h1, h2⟩ | ⟨h1, h2, h3⟩)
        · subst h1
          exact ⟨Or.inl rfl, hm, h2⟩
        · exact ⟨Or.inr h1, h2, h3⟩
      · rintro ⟨h1 | h1, h2, h3⟩
        · subst h1
          exact Or.inl ⟨rfl, h3⟩
        · exact Or.inr ⟨h1, h2, h3⟩

/-- Membership in `allowed`: the verbs other than the request's own that have
a declared route matching the path. -/
theorem mem_allowedVerbs (rt : Runtime) (declared : List (String × gatewayRoute)) (r : Request)
    (v : String) :
    v ∈ allowedVerbs rt (buildRoutes declared) r
      ↔ v ≠ r.method ∧ ∃ d ∈ declared, d.1 = v ∧ d.2.try r.path ≠ none := by
  unfold allowedVerbs
  rw [mem_scanVerbs, (rt.rangeVerbs_perm _).mem_iff, routesGet_buildRoutes]
  unfold buildRoutes
  rw [mem_keys_foldl]
  simp only [List.map_nil, List.not_mem_nil, false_or, List.mem_map, List.mem_filter,
    decide_eq_true_eq]
  constructor
  · rintro ⟨_, h2, gr, ⟨d, ⟨hd, hdv⟩, rfl⟩, h3⟩
    exact ⟨h2, d, hd, hdv, h3⟩
  · rintro ⟨h2, d, hd, hdv, h3⟩
    exact ⟨⟨d, hd, hdv⟩, h2, d.2, ⟨d, ⟨hd, hdv⟩, rfl⟩, h3⟩

/-- A finished route loop handled the request with one of the routes that match. -/
theorem routeLoop_some (rt : Runtime) (r : Request) (grs : List gatewayRoute) (out : Outcome)
    (h : routeLoop rt r grs = some out) :
    ∃ gr ∈ grs, ∃ params, gr.try r.path = some params ∧ out = onMatch rt gr params r := by
  induction grs with
  | nil => simp [routeLoop] at h
  | cons g rest ih =>
    cases hg : g.try r.path with
    | none =>
      simp only [routeLoop, hg] at h
      obtain ⟨gr, hmem, params, h1, h2⟩ := ih h
      exact ⟨gr, List.mem_cons_of_mem _ hmem, params, h1, h2⟩
    | some params =>
      simp only [routeLoop, hg, Option.some.injEq] at h
      exact ⟨g, List.mem_cons_self _ _, params, hg, h.symm⟩

/-- A list with an element satisfying `P` splits at the first such element. -/
theorem exists_first_split {α : Type} (P : α → Prop) (l : List α) (h : ∃ x ∈ l, P x) :
    ∃ pre x post, l = pre ++ x :: post ∧ P x ∧ ∀ y ∈ pre, ¬ P y := by
  classical
  induction l with
  | nil => simp at h
  | cons a rest ih =>
    by_cases ha : P a
    · exact ⟨[], a, rest, rfl, ha, by simp⟩
    · obtain ⟨x, hx, hPx⟩ := h
      have hrest : ∃ x ∈ rest, P x := by
        rcases List.mem_cons.mp hx with rfl | hx'
        · exact absurd hPx ha
        · exact ⟨x, hx', hPx⟩
      obtain ⟨pre, y, post, hsplit, hy, hpre⟩ := ih hrest
      refine ⟨a :: pre, y, post, by rw [hsplit]; rfl, hy, ?_⟩
      intro z hz
      rcases List.mem_cons.mp hz with rfl | hz'
      · exact ha
      · exact hpre z hz'

/-- A header that is absent reads as the empty string. -/
theorem headerGet_absent (header : List (String × List String)) (key : String)
    (h : ∀ e ∈ header, e.1 ≠ key) : headerGet header key = "" := by
  induction header with
  | nil => rfl
  | cons e rest ih =>
    obtain ⟨k, vs⟩ := e
    have hk : k ≠ key := h (k, vs) (List.mem_cons_self _ _)
    simp only [headerGet, hk, if_false]
    exact ih (fun e' he' => h e' (List.mem_cons_of_mem _ he'))

/-- Behind the content-type gate the handler is the route loop followed by the
fallback scan. -/
theorem serve_of_gate (rt : Runtime) (routes : RouteTable) (r : Request)
    (hgate : mediaType rt (headerGet r.header "Content-Type") = "application/json".data) :
    serve rt routes r =
      match routeLoop rt r (routesGet routes r.method) with
      | some out => out
      | none =>
        if (allowedVerbs rt routes r).length = 0 then .respond 404 none
        else .respond 405 (some (strings_Join (allowedVerbs rt routes r))) := by
  simp only [serve, hgate, ne_eq, not_true_eq_false, if_false]

/-- Two GET routes that both match `/v1/items/42` and the request
`DELETE /v1/items/42`: the answer is 405 and `allowed` holds the verb twice,
whatever the runtime. -/
theorem serve_two_get_routes (rt : Runtime) :
    allowedVerbs rt (buildRoutes [("GET", itemRoute), ("GET", kindRoute)]) deleteRequest
        = ["GET", "GET"]
      ∧ serve rt (buildRoutes [("GET", itemRoute), ("GET", kindRoute)]) deleteRequest
          = .respond 405 (some "GET, GET") := by
  have hgate : mediaType rt (headerGet deleteRequest.header "Content-Type")
      = "application/json".data := rfl
  have hown : routesGet (buildRoutes [("GET", itemRoute), ("GET", kindRoute)]) deleteRequest.method
      = [] := by decide
  have hkeys : (buildRoutes [("GET", itemRoute), ("GET", kindRoute)]).map Prod.fst = ["GET"] := by
    decide
  have horder : rt.rangeVerbs ["GET"] = ["GET"] :=
    List.perm_singleton.mp (rt.rangeVerbs_perm ["GET"])
  have hallowed : allowedVerbs rt (buildRoutes [("GET", itemRoute), ("GET", kindRoute)])
      deleteRequest = ["GET", "GET"] := by
    unfold allowedVerbs
    rw [hkeys, horder]
    decide
  refine ⟨hallowed, ?_⟩
  rw [serve_of_gate rt _ _ hgate, hown, hallowed]
  rfl

/-- A character class on a non-empty input. -/
theorem matchRe_cls_cons (neg : Bool) (ranges : List (Char × Char)) (base : Nat) (st : Bool)
    (x : Char) (xs : List Char) (caps : Caps) (k : Cont) :
    matchRe (.cls neg ranges) base st (x :: xs) caps k
      = if inClass neg ranges x then k false xs caps else none := rfl

/-- A character class on the empty input. -/
theorem matchRe_cls_nil (neg : Bool) (ranges : List (Char × Char)) (base : Nat) (st : Bool)
    (caps : Caps) (k : Cont) :
    matchRe (.cls neg ranges) base st [] caps k = none := rfl

/-- One round of greedy iteration. -/
theorem iterate_succ (step : Matcher) (n : Nat) (st : Bool) (s : List Char) (caps : Caps)
    (k : Cont) :
    iterate step (n + 1) st s caps k
      = match step st s caps (fun st' s' caps' =>
            if s'.length < s.length then iterate step n st' s' caps' k else none) with
        | some r => some r
        | none => k st s caps := rfl

/-- Greedy iteration of a character class runs to the end of the maximal run
of class members when the continuation cannot start on a class member. -/
theorem iterate_cls (neg : Bool) (ranges : List (Char × Char)) (base : Nat) (k : Cont)
    (hk : ∀ st x xs caps, inClass neg ranges x = true → k st (x :: xs) caps = none) :
    ∀ (n : Nat) (s : List Char) (st : Bool) (caps : Caps), s.length ≤ n →
      ∃ st', iterate (matchRe (.cls neg ranges) base) n st s caps k
        = k st' (s.dropWhile (inClass neg ranges)) caps := by
  intro n
  induction n with
  | zero =>
    intro s st caps hlen
    have hs : s = [] := List.length_eq_zero.mp (Nat.le_zero.mp hlen)
    subst hs
    exact ⟨st, rfl⟩
  | succ n ih =>
    intro s st caps hlen
    cases s with
    | nil =>
      refine ⟨st, ?_⟩
      rw [iterate_succ, matchRe_cls_nil]
      rfl
    | cons x xs =>
      by_cases hx : inClass neg ranges x = true
      · have hlen' : xs.length ≤ n := by simp at hlen; omega
        obtain ⟨st', hst'⟩ := ih xs false caps hlen'
        refine ⟨st', ?_⟩
        rw [iterate_succ, matchRe_cls_cons]
        simp only [hx, if_true, List.length_cons, Nat.lt_succ_self, List.dropWhile_cons]
        rw [hst']
        cases hr : k st' (List.dropWhile (inClass neg ranges) xs) caps with
        | some r => rfl
        | none => simp [hk st x xs caps hx]
      · refine ⟨st, ?_⟩
        rw [iterate_succ, matchRe_cls_cons]
        simp [hx, List.dropWhile_cons]

/-- The prefix of a list in front of its `dropWhile` remainder is its `takeWhile`. -/
theorem take_length_sub_dropWhile (p : Char → Bool) (l : List Char) :
    l.take (l.length - (l.dropWhile p).length) = l.takeWhile p := by
  induction l with
  | nil => rfl
  | cons x xs ih =>
    by_cases hx : p x = true
    · have hle : (xs.dropWhile p).length ≤ xs.length := (List.dropWhile_sublist p).length_le
      have hsub : (x :: xs).length - (xs.dropWhile p).length
          = (xs.length - (xs.dropWhile p).length) + 1 := by
        simp only [List.length_cons]; omega
      simp only [List.dropWhile_cons, hx, if_true, List.takeWhile_cons]
      rw [hsub, List.take_succ_cons, ih]
    · simp [List.dropWhile_cons, List.takeWhile_cons, hx]

/-- Concatenation. -/
theorem matchRe_cat (a b : Regex) (base : Nat) (st : Bool) (s : List Char) (caps : Caps)
    (k : Cont) :
    matchRe (.cat a b) base st s caps k
      = matchRe a base st s caps (fun st' s' caps' =>
          matchRe b (base + numCap a) st' s' caps' k) := rfl

/-- A literal on a non-empty input. -/
theorem matchRe_lit_cons (c : Char) (base : Nat) (st : Bool) (x : Char) (xs : List Char)
    (caps : Caps) (k : Cont) :
    matchRe (.lit c) base st (x :: xs) caps k = if x = c then k false xs caps else none := rfl

/-- A literal on the empty input. -/
theorem matchRe_lit_nil (c : Char) (base : Nat) (st : Bool) (caps : Caps) (k : Cont) :
    matchRe (.lit c) base st [] caps k = none := rfl

/-- A capture group records the text its body consumed. -/
theorem matchRe_cap (name : String) (a : Regex) (base : Nat) (st : Bool) (s : List Char)
    (caps : Caps) (k : Cont) :
    matchRe (.cap name a) base st s caps k
      = matchRe a (base + 1) st s caps (fun st' s' caps' =>
          k st' s' ((base + 1, s.take (s.length - s'.length)) :: caps')) := rfl

/-- One or more repetitions: one match, then greedy iteration. -/
theorem matchRe_plus (a : Regex) (base : Nat) (st : Bool) (s : List Char) (caps : Caps)
    (k : Cont) :
    matchRe (.plus a) base st s caps k
      = matchRe a base st s caps (fun st' s' caps' =>
          iterate (matchRe a base) s'.length st' s' caps' k) := rfl

/-- The class `[a-z0-9_]` under `(?i)` does not contain the closing brace. -/
theorem foldWord_not_brace (x : Char) (hx : inClass false foldWord x = true) : x ≠ '}' := by
  rintro rfl
  revert hx
  decide

/-- The text a group took when it started two runes before `ds` and stopped at
the end of the run of `p` in `ds`. -/
theorem take_two_run (p : Char → Bool) (c d : Char) (ds : List Char) :
    (c :: d :: ds).take ((c :: d :: ds).length - (ds.dropWhile p).length)
      = c :: d :: ds.takeWhile p := by
  have hle : (ds.dropWhile p).length ≤ ds.length := (List.dropWhile_sublist p).length_le
  have hsub : (c :: d :: ds).length - (ds.dropWhile p).length
      = (ds.length - (ds.dropWhile p).length) + 1 + 1 := by
    simp only [List.length_cons]; omega
  rw [hsub, List.take_succ_cons, List.take_succ_cons, take_length_sub_dropWhile]

/-- What `patternRE` matches at a position: exactly a placeholder token whose
name is a letter followed by one or more word runes; group 1 is the name. -/
theorem matchAt_patternRE (st : Bool) (s : List Char) :
    matchAt patternRE st s
      = match placeholderAt (inClass false foldLetter) (inClass false foldWord) 1 s with
        | some (name, rest) => some ([(1, name)], rest)
        | none => none := by
  unfold matchAt patternRE
  rw [matchRe_cat]
  cases s with
  | nil => rfl
  | cons b tl =>
    rw [matchRe_lit_cons]
    cases tl with
    | nil =>
      by_cases hb : b = '{'
      · simp only [hb, if_true, placeholderAt]
        rfl
      · simp only [hb, if_false, placeholderAt]
    | cons c cs =>
      by_cases hb : b = '{'
      swap
      · simp only [hb, if_false, placeholderAt, false_and]
      simp only [hb, if_true]
      rw [matchRe_cat, matchRe_cap, matchRe_cat, matchRe_cls_cons]
      by_cases hc : inClass false foldLetter c = true
      swap
      · simp only [hc, placeholderAt, false_and, and_false, if_false]
        simp
      simp only [hc, if_true]
      rw [matchRe_plus]
      cases cs with
      | nil =>
        rw [matchRe_cls_nil]
        simp [placeholderAt]
      | cons d ds =>
        rw [matchRe_cls_cons]
        by_cases hd : inClass false foldWord d = true
        swap
        · simp [hd, placeholderAt, List.takeWhile_cons]
        simp only [hd, if_true]
        show iterate (matchRe (.cls false foldWord) 1) ds.length false ds []
            (fun st' s' caps' => matchRe (.lit '}') 1 st' s'
              ((1, (c :: d :: ds).take ((c :: d :: ds).length - s'.length)) :: caps')
              (fun _ s' caps => some (caps, s'))) = _
        obtain ⟨st', hst'⟩ := iterate_cls false foldWord 1
          (fun st' s' caps' => matchRe (.lit '}') 1 st' s'
              ((1, (c :: d :: ds).take ((c :: d :: ds).length - s'.length)) :: caps')
              (fun _ s' caps => some (caps, s')))
          (by
            intro st x xs caps hx
            simp only [matchRe_lit_cons, foldWord_not_brace x hx, if_false])
          ds.length ds false [] (Nat.le_refl _)
        rw [hst']
        simp only [placeholderAt, hc, List.takeWhile_cons, hd, if_true, List.length_cons,
          List.dropWhile_cons, true_and]
        have h1 : 1 ≤ (List.takeWhile (inClass false foldWord) ds).length + 1 := by omega
        simp only [h1, if_true]
        cases hdw : List.dropWhile (inClass false foldWord) ds with
        | nil => rfl
        | cons e rest =>
          simp only [matchRe_lit_cons]
          by_cases he : e = '}'
          · have hcap := take_two_run (inClass false foldWord) c d ds
            rw [hdw] at hcap
            simp only [List.length_cons] at hcap
            simp only [he, if_true, List.length_cons, hcap]
          · simp only [he, if_false]

/-- A recognised placeholder token is the text `{name}` at the head of the input. -/
theorem placeholderAt_some (first more : Char → Bool) (minMore : Nat) (s name rest : List Char)
    (h : placeholderAt first more minMore s = some (name, rest)) :
    s = '{' :: (name ++ '}' :: rest) := by
  unfold placeholderAt at h
  split at h
  · rename_i b c cs
    split at h
    · rename_i hcond
      split at h
      · rename_i e rest' hdw
        split at h
        · rename_i he
          simp only [Option.some.injEq, Prod.mk.injEq] at h
          obtain ⟨hname, hrest⟩ := h
          subst hname hrest he
          rw [hcond.1]
          have hcs := List.takeWhile_append_dropWhile more cs
          rw [hdw] at hcs
          simp only [List.cons_append, hcs]
        · cases h
      · cases h
    · cases h
  · cases h

/-- Skipping the runes of a replaced token. -/
theorem replacePlaceholders_skip (first more : Char → Bool) (minMore : Nat)
    (pre rest : List Char) :
    replacePlaceholders first more minMore (pre ++ rest) pre.length
      = replacePlaceholders first more minMore rest 0 := by
  induction pre with
  | nil => rfl
  | cons a pre ih =>
    simp only [List.cons_append, List.length_cons, replacePlaceholders]
    exact ih

/-- One step of the replacement loop. -/
theorem replaceLoop_succ (re : Regex) (repl : Caps → List Char) (fuel : Nat) (st jm : Bool)
    (s : List Char) :
    replaceLoop re repl (fuel + 1) st jm s
      = match matchAt re st s with
        | some (caps, rest) =>
          if rest.length < s.length then repl caps ++ replaceLoop re repl fuel false true rest
          else
            match s with
            | [] => (if jm then [] else repl caps)
            | c :: cs => (if jm then [] else repl caps) ++ c :: replaceLoop re repl fuel false false cs
        | none =>
          match s with
          | [] => []
          | c :: cs => c :: replaceLoop re repl fuel false false cs := by
  cases s <;> rfl

/-- With fuel beyond the length of the text, the replacement loop of
`patternRE` computes the direct placeholder replacement. -/
theorem replaceLoop_patternRE :
    ∀ (fuel : Nat) (s : List Char) (st jm : Bool), s.length < fuel →
      replaceLoop patternRE expandGroup fuel st jm s
        = replacePlaceholders (inClass false foldLetter) (inClass false foldWord) 1 s 0 := by
  intro fuel
  induction fuel with
  | zero => intro s st jm h; omega
  | succ fuel ih =>
    intro s st jm hlen
    rw [replaceLoop_succ, matchAt_patternRE]
    cases hp : placeholderAt (inClass false foldLetter) (inClass false foldWord) 1 s with
    | none =>
      cases s with
      | nil => rfl
      | cons c cs =>
        have hcs : cs.length < fuel := by simp at hlen; omega
        simp only [replacePlaceholders, hp, ih cs false false hcs]
    | some res =>
      obtain ⟨name, rest⟩ := res
      have hs := placeholderAt_some _ _ _ s name rest hp
      have hrest : rest.length < s.length := by
        rw [hs]; simp; omega
      have hfuel : rest.length < fuel := by omega
      simp only [hrest, if_true, ih rest false true hfuel]
      subst hs
      have hskip := replacePlaceholders_skip (inClass false foldLetter) (inClass false foldWord) 1
        (name ++ ['}']) rest
      simp only [List.append_assoc, List.singleton_append, List.length_append,
        List.length_singleton] at hskip
      simp only [replacePlaceholders, hp, hskip]
      rfl

/-- Go `ReplaceAllString` with `patternRE` is the direct placeholder replacement. -/
theorem replaceAll_patternRE (template : String) :
    ReplaceAllString patternRE template expandGroup
      = ⟨replacePlaceholders (inClass false foldLetter) (inClass false foldWord) 1
          template.data 0⟩ := by
  unfold ReplaceAllString
  rw [replaceLoop_patternRE _ _ _ _ (Nat.lt_succ_self _)]

/-- The letters of `patternRE`: the ASCII letters and the runes U+017F and U+212A. -/
theorem foldLetter_spec (c : Char) :
    inClass false foldLetter c
      = (asciiLetter c || decide (c.toNat = 0x17F) || decide (c.toNat = 0x212A)) := by
  have h1 : (Char.ofNat 0x17F).toNat = 0x17F := by decide
  have h2 : (Char.ofNat 0x212A).toNat = 0x212A := by decide
  have hA : 'A'.toNat = 65 := by decide
  have hZ : 'Z'.toNat = 90 := by decide
  have ha : 'a'.toNat = 97 := by decide
  have hz : 'z'.toNat = 122 := by decide
  rw [Bool.eq_iff_iff]
  simp only [inClass, inRanges, foldLetter, asciiLetter, List.any_cons, List.any_nil, h1, h2, hA,
    hZ, ha, hz, Bool.or_false, Bool.or_eq_true, Bool.and_eq_true, decide_eq_true_eq,
    Bool.false_eq_true, if_false]
  omega

/-- The word runes of `patternRE`: `[A-Za-z0-9_]` and the runes U+017F and U+212A. -/
theorem foldWord_spec (c : Char) :
    inClass false foldWord c
      = (isWordChar c || decide (c.toNat = 0x17F) || decide (c.toNat = 0x212A)) := by
  have h1 : (Char.ofNat 0x17F).toNat = 0x17F := by decide
  have h2 : (Char.ofNat 0x212A).toNat = 0x212A := by decide
  have hA : 'A'.toNat = 65 := by decide
  have hZ : 'Z'.toNat = 90 := by decide
  have ha : 'a'.toNat = 97 := by decide
  have hz : 'z'.toNat = 122 := by decide
  have h0 : '0'.toNat = 48 := by decide
  have h9 : '9'.toNat = 57 := by decide
  have hu : '_'.toNat = 95 := by decide
  have hcu : c = '_' ↔ c.toNat = 95 := by
    constructor
    · rintro rfl; exact hu
    · intro h
      rw [← Char.ofNat_toNat c, h]
  rw [Bool.eq_iff_iff]
  simp only [inClass, inRanges, foldWord, foldLetter, isWordChar, List.any_cons, List.any_nil, h1,
    h2, hA, hZ, ha, hz, h0, h9, hu, hcu, Bool.or_false, Bool.or_eq_true, Bool.and_eq_true,
    decide_eq_true_eq, Bool.false_eq_true, if_false]
  omega

/-- Beginning of text. -/
theorem matchRe_bot (base : Nat) (st : Bool) (s : List Char) (caps : Caps) (k : Cont) :
    matchRe .bot base st s caps k = if st then k st s caps else none := rfl

/-- End of text on the empty input. -/
theorem matchRe_eot_nil (base : Nat) (st : Bool) (caps : Caps) (k : Cont) :
    matchRe .eot base st [] caps k = k st [] caps := rfl

/-- End of text on a non-empty input. -/
theorem matchRe_eot_cons (base : Nat) (st : Bool) (x : Char) (xs : List Char) (caps : Caps)
    (k : Cont) :
    matchRe .eot base st (x :: xs) caps k = none := rfl

/-- Zero or one occurrence, the occurrence preferred. -/
theorem matchRe_quest (a : Regex) (base : Nat) (st : Bool) (s : List Char) (caps : Caps)
    (k : Cont) :
    matchRe (.quest a) base st s caps k
      = match matchRe a base st s caps k with
        | some r => some r
        | none => k st s caps := rfl

/-- The prefix of `x :: xs` in front of the `dropWhile` remainder of `xs`. -/
theorem take_one_run (p : Char → Bool) (x : Char) (xs : List Char) :
    (x :: xs).take ((x :: xs).length - (xs.dropWhile p).length) = x :: xs.takeWhile p := by
  have hle : (xs.dropWhile p).length ≤ xs.length := (List.dropWhile_sublist p).length_le
  have hsub : (x :: xs).length - (xs.dropWhile p).length
      = (xs.length - (xs.dropWhile p).length) + 1 := by
    simp only [List.length_cons]; omega
  rw [hsub, List.take_succ_cons, take_length_sub_dropWhile]

/-- A group around `[...]+` on an input that starts with a class member takes
the maximal run of class members, provided the rest of the pattern cannot
start on a class member. -/
theorem matchRe_cap_plus_cls (name : String) (neg : Bool) (ranges : List (Char × Char))
    (base : Nat) (st : Bool) (x : Char) (xs : List Char) (caps : Caps) (k : Cont)
    (hx : inClass neg ranges x = true)
    (hk : ∀ st y ys caps, inClass neg ranges y = true → k st (y :: ys) caps = none)
    (hst : ∀ st st' s caps, k st s caps = k st' s caps) :
    matchRe (.cap name (.plus (.cls neg ranges))) base st (x :: xs) caps k
      = k false (xs.dropWhile (inClass neg ranges))
          ((base + 1, x :: xs.takeWhile (inClass neg ranges)) :: caps) := by
  rw [matchRe_cap, matchRe_plus, matchRe_cls_cons]
  simp only [hx, if_true]
  obtain ⟨st', hst'⟩ := iterate_cls neg ranges (base + 1)
    (fun st' s' caps' =>
      k st' s' ((base + 1, (x :: xs).take ((x :: xs).length - s'.length)) :: caps'))
    (fun st y ys caps' hy => hk st y ys _ hy) xs.length xs false caps (Nat.le_refl _)
  rw [hst']
  simp only [take_one_run]
  exact hst _ _ _ _

/-- The leftmost search on a non-empty input. -/
theorem findFrom_cons (re : Regex) (st : Bool) (c : Char) (cs : List Char) :
    findFrom re st (c :: cs)
      = match matchAt re st (c :: cs) with
        | some (caps, rest) => some (caps, (c :: cs).take ((c :: cs).length - rest.length))
        | none => findFrom re false cs := rfl

/-- The stop set contains exactly `/`, `#` and `?`. -/
theorem stops_spec (c : Char) : inRanges stops c = true ↔ c = '/' ∨ c = '#' ∨ c = '?' := by
  have h1 : '/'.toNat = 47 := by decide
  have h2 : '#'.toNat = 35 := by decide
  have h3 : '?'.toNat = 63 := by decide
  have hc : ∀ (d : Char) (n : Nat), d.toNat = n → (c = d ↔ c.toNat = n) := by
    intro d n hd
    constructor
    · rintro rfl; exact hd
    · intro h
      rw [← Char.ofNat_toNat c, ← Char.ofNat_toNat d, h, hd]
  rw [hc '/' 47 h1, hc '#' 35 h2, hc '?' 63 h3]
  simp only [inRanges, stops, List.any_cons, List.any_nil, h1, h2, h3, Bool.or_false,
    Bool.or_eq_true, Bool.and_eq_true, decide_eq_true_eq]
  omega

/-- The unfolded syntax tree of `itemRe`. -/
theorem itemRe_eq :
    itemRe = .cat .bot (.cat (.lit '/') (.cat (.lit 'v') (.cat (.lit '1') (.cat (.lit '/')
      (.cat (.lit 'i') (.cat (.lit 't') (.cat (.lit 'e') (.cat (.lit 'm') (.cat (.lit 's')
      (.cat (.lit '/') (.cat (.cap "id" (.plus (.cls true stops)))
        (.cat (.quest (.cls false stops)) .eot)))))))))))) := by
  decide

/-- The route of `/v1/items/{id}` accepts `/v1/items/` followed by a non-empty
text free of stop runes and an optional single stop rune, capturing the text. -/
theorem itemRoute_try_accepts (x : Char) (xs tail : List Char)
    (hx : inRanges stops x = false) (hxs : ∀ c ∈ xs, inRanges stops c = false)
    (htail : tail = [] ∨ ∃ t, tail = [t] ∧ inRanges stops t = true) :
    itemRoute.try ⟨"/v1/items/".data ++ (x :: xs) ++ tail⟩
      = some [(bytes "id", [utf8 (x :: xs)])] := by
  have hpre : "/v1/items/".data = ['/', 'v', '1', '/', 'i', 't', 'e', 'm', 's', '/'] := rfl
  have hnames : SubexpNames itemRe = ["", "id"] := by decide
  have hnum : numCap itemRe = 1 := by decide
  have hx' : inClass true stops x = true := by simp [inClass, hx]
  have hxs' : ∀ c ∈ xs, inClass true stops c = true := by
    intro c hc; simp [inClass, hxs c hc]
  have hdrop : (xs ++ tail).dropWhile (inClass true stops) = tail := by
    rw [List.dropWhile_append_of_pos hxs']
    rcases htail with rfl | ⟨t, rfl, ht⟩
    · rfl
    · simp [List.dropWhile_cons, inClass, ht]
  have htake : (xs ++ tail).takeWhile (inClass true stops) = xs := by
    rw [List.takeWhile_append_of_pos hxs']
    rcases htail with rfl | ⟨t, rfl, ht⟩
    · simp
    · simp [List.takeWhile_cons, inClass, ht]
  have hmatch : matchAt itemRe true ('/' :: 'v' :: '1' :: '/' :: 'i' :: 't' :: 'e' :: 'm' :: 's'
      :: '/' :: (x :: (xs ++ tail))) = some ([(1, x :: xs)], []) := by
    rw [itemRe_eq]
    unfold matchAt
    simp only [matchRe_cat, matchRe_bot, matchRe_lit_cons, if_true]
    rw [matchRe_cap_plus_cls _ _ _ _ _ _ _ _ _ hx']
    · rw [hdrop, htake]
      rcases htail with rfl | ⟨t, rfl, ht⟩
      · rfl
      · simp only [matchRe_quest, matchRe_cls_cons, inClass, ht, matchRe_eot_nil]
        rfl
    · intro st y ys caps hy
      have hy' : inRanges stops y = false := by simpa [inClass] using hy
      simp only [matchRe_quest, matchRe_cls_cons, inClass, hy', matchRe_eot_cons]
      rfl
    · intro st st' s caps
      cases s with
      | nil => rfl
      | cons y ys => rfl
  have hinput : "/v1/items/".data ++ (x :: xs) ++ tail
      = '/' :: 'v' :: '1' :: '/' :: 'i' :: 't' :: 'e' :: 'm' :: 's' :: '/' :: (x :: (xs ++ tail)) := by
    rw [hpre]; simp
  have hfind : findFrom itemRe true ("/v1/items/".data ++ (x :: xs) ++ tail)
      = some ([(1, x :: xs)], "/v1/items/".data ++ (x :: xs) ++ tail) := by
    rw [hinput, findFrom_cons, hmatch]
    simp
  simp only [gatewayRoute.try, FindStringSubmatch, itemRoute, hfind, hnames, hnum]
  rfl

/-- The verbs of a table after one `append`. -/
theorem keys_routesAppend (routes : RouteTable) (v : String) (gr : gatewayRoute) :
    (routesAppend routes v gr).map Prod.fst
      = if v ∈ routes.map Prod.fst then routes.map Prod.fst else routes.map Prod.fst ++ [v] := by
  induction routes with
  | nil => simp [routesAppend]
  | cons e rest ih =>
    obtain ⟨u, grs⟩ := e
    by_cases hu : u = v
    · subst hu
      simp [routesAppend]
    · have hvu : ¬ v = u := fun h => hu h.symm
      simp only [routesAppend, hu, if_false, List.map_cons, ih, List.mem_cons, hvu, false_or]
      by_cases hmem : v ∈ rest.map Prod.fst <;> simp [hmem]

/-- The verbs of a built table are pairwise different. -/
theorem keys_foldl_nodup (declared : List (String × gatewayRoute)) (init : RouteTable)
    (h : (init.map Prod.fst).Nodup) :
    ((declared.foldl (fun routes d => routesAppend routes d.1 d.2) init).map Prod.fst).Nodup := by
  induction declared generalizing init with
  | nil => exact h
  | cons d rest ih =>
    rw [List.foldl_cons]
    apply ih
    rw [keys_routesAppend]
    by_cases hmem : d.1 ∈ init.map Prod.fst
    · simp only [hmem, if_true]; exact h
    · simp only [hmem, if_false]
      rw [List.nodup_append]
      refine ⟨h, List.nodup_singleton _, ?_⟩
      intro a ha hb
      rw [List.mem_singleton] at hb
      subst hb
      exact hmem ha

/-- How often the inner scan lists a verb. -/
theorem count_scanHandlers (path method v : String) (grs : List gatewayRoute) :
    (scanHandlers path method grs).count v
      = if method = v then (grs.filter (fun g => (g.try path).isSome)).length else 0 := by
  induction grs with
  | nil => simp [scanHandlers]
  | cons g rest ih =>
    cases hg : g.try path with
    | none => simp [scanHandlers, hg, ih, List.filter_cons]
    | some params =>
      by_cases hm : method = v
      · subst hm
        simp only [if_true] at ih
        simp [scanHandlers, hg, ih, List.filter_cons]
      · simp [scanHandlers, hg, ih, List.filter_cons, hm, List.count_cons]

/-- How often the fallback scan lists a verb, for a visiting order without
repetition. -/
theorem count_scanVerbs (routes : RouteTable) (r : Request) (v : String) (verbs : List String)
    (hnodup : verbs.Nodup) :
    (scanVerbs routes r verbs).count v
      = if v ∈ verbs ∧ v ≠ r.method
        then ((routesGet routes v).filter (fun g => (g.try r.path).isSome)).length else 0 := by
  induction verbs with
  | nil => simp [scanVerbs]
  | cons m rest ih =>
    have hm_notin : m ∉ rest := (List.nodup_cons.mp hnodup).1
    have ih' := ih (List.nodup_cons.mp hnodup).2
    by_cases hm : m = r.method
    · simp only [scanVerbs, hm, if_true, ih', List.mem_cons]
      by_cases hv : v = r.method
      · simp [hv]
      · simp [hv]
    · simp only [scanVerbs, hm, if_false, List.count_append, count_scanHandlers, ih',
        List.mem_cons]
      by_cases hmv : m = v
      · subst hmv
        simp [hm_notin, hm]
      · have hvm : ¬ v = m := fun h => hmv h.symm
        simp [hmv, hvm]

/-- The matching routes of a verb in the built table, counted on the declarations. -/
theorem length_matching_routesGet (declared : List (String × gatewayRoute)) (path v : String) :
    ((routesGet (buildRoutes declared) v).filter (fun g => (g.try path).isSome)).length
      = (matchingRoutes declared path v).length := by
  rw [routesGet_buildRoutes]
  unfold matchingRoutes
  induction declared with
  | nil => rfl
  | cons d rest ih =>
    by_cases hd : d.1 = v
    · cases hg : d.2.try path with
      | none => simp [List.filter_cons, hd, hg, ih]
      | some params => simp [List.filter_cons, hd, hg, ih]
    · simp [List.filter_cons, hd, ih]

/-- How often `allowed` lists a verb: once for every declared route of that
verb that matches the path, unless it is the request's own verb. -/
theorem count_allowedVerbs (rt : Runtime) (declared : List (String × gatewayRoute)) (r : Request)
    (v : String) :
    (allowedVerbs rt (buildRoutes declared) r).count v
      = if v = r.method then 0 else (matchingRoutes declared r.path v).length := by
  have hnodup : ((buildRoutes declared).map Prod.fst).Nodup :=
    keys_foldl_nodup declared [] List.nodup_nil
  have hperm := rt.rangeVerbs_perm ((buildRoutes declared).map Prod.fst)
  unfold allowedVerbs
  rw [count_scanVerbs _ _ _ _ (hperm.nodup_iff.mpr hnodup), length_matching_routesGet]
  by_cases hv : v = r.method
  · simp [hv]
  · by_cases hmem : v ∈ (buildRoutes declared).map Prod.fst
    · have hvis : v ∈ rt.rangeVerbs ((buildRoutes declared).map Prod.fst) := hperm.mem_iff.mpr hmem
      simp [hvis, hv]
    · have hvis : v ∉ rt.rangeVerbs ((buildRoutes declared).map Prod.fst) :=
        fun h => hmem (hperm.mem_iff.mp h)
      simp only [hvis, false_and, if_false, hv]
      symm
      apply List.length_eq_zero.mpr
      unfold matchingRoutes
      apply List.filter_eq_nil_iff.mpr
      intro d hd
      have hne : d.1 ≠ v := by
        intro hdv
        apply hmem
        unfold buildRoutes
        rw [mem_keys_foldl]
        exact Or.inr ⟨d, hd, hdv⟩
      simp [hne]

/-! ### The claims -/

/-- C1, evaluated on the claim's own binding and request: the template compiles
to the route `itemRoute`, the route matches with the capture `id = 42`, and yet
the wrapped handler is never called. The merged query has the keys `id` and
`active`; whichever comes first in the loop, `gatewaySetJSON` panics on it
(`pp[:len(path)-1]` with one segment). When the body decodes to `{"name":"x"}`
handling ends in that panic. -/
theorem c1_item_request_not_forwarded (rt : Runtime) :
    regexp_MustCompile (compilePattern "/v1/items/{id}") = some itemRe
      ∧ itemRoute.try itemRequest.path = some [(bytes "id", [bytes "42"])]
      ∧ (∀ r', serve rt (buildRoutes [("GET", itemRoute)]) itemRequest ≠ .forward r')
      ∧ (rt.jsonDecode itemRequest.body = .map [(bytes "name", .str (bytes "x"))] →
          ∃ p, serve rt (buildRoutes [("GET", itemRoute)]) itemRequest = .panic p) := by
  have htry : itemRoute.try itemRequest.path = some [(bytes "id", [bytes "42"])] := by decide
  have hgate : mediaType rt (headerGet itemRequest.header "Content-Type")
      = "application/json".data := rfl
  have hroutes : routesGet (buildRoutes [("GET", itemRoute)]) itemRequest.method = [itemRoute] := by
    decide
  have hserve : serve rt (buildRoutes [("GET", itemRoute)]) itemRequest
      = onMatch rt itemRoute [(bytes "id", [bytes "42"])] itemRequest := by
    simp only [serve, hgate, ne_eq, not_true_eq_false, if_false, hroutes, routeLoop, htry]
  have hq : url_Query (mergedRawQuery [(bytes "id", [bytes "42"])] itemRequest)
      = [(bytes "id", [bytes "42"]), (bytes "active", [bytes "true"])] := by decide
  have hne : url_Query (mergedRawQuery [(bytes "id", [bytes "42"])] itemRequest) ≠ [] := by
    rw [hq]; exact List.cons_ne_nil _ _
  have hlong : ∀ k ∈ valuesKeys (url_Query (mergedRawQuery [(bytes "id", [bytes "42"])] itemRequest)),
      (strings_Split k dot).length < k.length := by
    rw [hq]
    decide
  have hm := onMatch_long_keys rt itemRoute [(bytes "id", [bytes "42"])] itemRequest hne hlong
  refine ⟨by decide, htry, ?_, ?_⟩
  · intro r' hf
    rw [hserve] at hf
    cases hd : (rt.jsonDecode itemRequest.body).toValue with
    | none => rw [hm.1 hd] at hf; cases hf
    | some v =>
      obtain ⟨p, hp⟩ := hm.2 (by rw [hd]; exact Option.some_ne_none v)
      rw [hp] at hf; cases hf
  · intro hd
    rw [hserve]
    apply hm.2
    rw [hd]
    exact Option.some_ne_none _

/-- C2: behind the content-type gate, when some declared route of the request's
verb matches the path, the declarations split at the earliest such route
`gr`: no declaration of that verb before it matches, the request is handled by
`gr` alone, and a forwarded request carries the endpoint of `gr` as its path
(with method POST). No later route is tried. -/
theorem c2_first_declared_match_wins (rt : Runtime) (declared : List (String × gatewayRoute))
    (r : Request)
    (hgate : mediaType rt (headerGet r.header "Content-Type") = "application/json".data)
    (hmatch : ∃ d ∈ declared, d.1 = r.method ∧ d.2.try r.path ≠ none) :
    ∃ pre gr post params,
      declared = pre ++ (r.method, gr) :: post
        ∧ (∀ d ∈ pre, d.1 = r.method → d.2.try r.path = none)
        ∧ gr.try r.path = some params
        ∧ serve rt (buildRoutes declared) r = onMatch rt gr params r
        ∧ (∀ r', serve rt (buildRoutes declared) r = .forward r' →
            r'.path = gr.endpoint ∧ r'.method = "POST") := by
  obtain ⟨pre, d, post, hsplit, ⟨hverb, hd⟩, hpre⟩ :=
    exists_first_split (fun d : String × gatewayRoute => d.1 = r.method ∧ d.2.try r.path ≠ none)
      declared hmatch
  obtain ⟨v, gr⟩ := d
  simp only at hverb hd
  subst hverb
  obtain ⟨params, hparams⟩ := Option.ne_none_iff_exists'.mp hd
  have hpre' : ∀ d ∈ pre, d.1 = r.method → d.2.try r.path = none := by
    intro d hdm hv
    by_contra hc
    exact hpre d hdm ⟨hv, hc⟩
  have hserve : serve rt (buildRoutes declared) r = onMatch rt gr params r := by
    rw [serve_of_gate rt _ r hgate, routesGet_buildRoutes, hsplit]
    simp only [List.filter_append, List.filter_cons, decide_True, if_true, List.map_append,
      List.map_cons]
    rw [routeLoop_first rt r _ _ gr params _ hparams]
    intro g hg
    obtain ⟨d, hdf, rfl⟩ := List.mem_map.mp hg
    obtain ⟨hdm, hdv⟩ := List.mem_filter.mp hdf
    exact hpre' d hdm (of_decide_eq_true hdv)
  refine ⟨pre, gr, post, params, hsplit, hpre', hparams, hserve, ?_⟩
  intro r' hf
  rw [hserve] at hf
  rcases onMatch_cases rt gr params r with h | ⟨r'', h, h1, h2⟩ | ⟨p, h⟩
  · rw [h] at hf; cases hf
  · rw [h] at hf
    cases hf
    exact ⟨h1, h2⟩
  · rw [h] at hf; cases hf

/-- C3: the handler answers 415 without calling the wrapped handler exactly
when the Content-Type header, cut at its first `;`, lower-cased and trimmed of
surrounding white space, differs from `application/json`. A missing header and
`text/plain` give 415 for every route table, path and verb, and
`Application/JSON ; charset=utf-8` passes the gate. -/
theorem c3_unsupported_media_type (rt : Runtime) :
    (∀ (routes : RouteTable) (r : Request),
        serve rt routes r = .respond 415 none
          ↔ mediaType rt (headerGet r.header "Content-Type") ≠ "application/json".data)
      ∧ (∀ (routes : RouteTable) (r : Request),
          (∀ e ∈ r.header, e.1 ≠ "Content-Type") → serve rt routes r = .respond 415 none)
      ∧ (∀ (routes : RouteTable) (r : Request),
          headerGet r.header "Content-Type" = "text/plain" → serve rt routes r = .respond 415 none)
      ∧ mediaType rt "Application/JSON ; charset=utf-8" = "application/json".data := by
  have hiff : ∀ (routes : RouteTable) (r : Request),
      serve rt routes r = .respond 415 none
        ↔ mediaType rt (headerGet r.header "Content-Type") ≠ "application/json".data := by
    intro routes r
    constructor
    · intro hs hgate
      rw [serve_of_gate rt routes r hgate] at hs
      cases hl : routeLoop rt r (routesGet routes r.method) with
      | some out =>
        rw [hl] at hs
        simp only at hs
        obtain ⟨gr, _, params, _, hout⟩ := routeLoop_some rt r _ out hl
        rw [hs] at hout
        rcases onMatch_cases rt gr params r with h | ⟨r', h, _⟩ | ⟨p, h⟩
        · rw [h] at hout; cases hout
        · rw [h] at hout; cases hout
        · rw [h] at hout; cases hout
      | none =>
        rw [hl] at hs
        simp only at hs
        split at hs <;> cases hs
    · intro hgate
      simp only [serve, hgate, ne_eq, not_false_eq_true, if_true]
  refine ⟨hiff, ?_, ?_, rfl⟩
  · intro routes r habsent
    rw [hiff, headerGet_absent r.header "Content-Type" habsent]
    have hm : mediaType rt "" = [] := rfl
    rw [hm]
    decide
  · intro routes r hplain
    rw [hiff, hplain]
    have hm : mediaType rt "text/plain" = "text/plain".data := rfl
    rw [hm]
    decide

/-- C4 as stated fails when a verb has two matching routes: with the GET
routes of `/v1/items/{id}` and `/v1/{kind}/{id}` the request
`DELETE /v1/items/42` is answered 405 with the header `Allow: GET, GET`; the
verb is listed twice, not once. -/
theorem c4_allow_repeats_verb :
    regexp_MustCompile (compilePattern "/v1/{kind}/{id}") = some kindRe
      ∧ itemRoute.try deleteRequest.path ≠ none
      ∧ kindRoute.try deleteRequest.path ≠ none
      ∧ allowedVerbs (Runtime.fixed .failed)
          (buildRoutes [("GET", itemRoute), ("GET", kindRoute)]) deleteRequest = ["GET", "GET"]
      ∧ ¬ (allowedVerbs (Runtime.fixed .failed)
          (buildRoutes [("GET", itemRoute), ("GET", kindRoute)]) deleteRequest).Nodup
      ∧ serve (Runtime.fixed .failed)
          (buildRoutes [("GET", itemRoute), ("GET", kindRoute)]) deleteRequest
          = .respond 405 (some "GET, GET") := by
  have h := serve_two_get_routes (Runtime.fixed .failed)
  refine ⟨by decide, by decide, by decide, h.1, ?_, h.2⟩
  rw [h.1]
  decide

/-- C4, amended: behind the content-type gate, when no declared route of the
request's verb matches the path and some declared route of another verb does,
the answer is 405 and the `Allow` header is the `", "`-joined list `allowed`;
a verb is in that list exactly when it has a declared route matching the path,
and it is listed once for each such route. -/
theorem c4_allow_lists_matching_verbs (rt : Runtime) (declared : List (String × gatewayRoute))
    (r : Request)
    (hgate : mediaType rt (headerGet r.header "Content-Type") = "application/json".data)
    (hown : ∀ d ∈ declared, d.1 = r.method → d.2.try r.path = none)
    (hother : ∃ d ∈ declared, d.1 ≠ r.method ∧ d.2.try r.path ≠ none) :
    serve rt (buildRoutes declared) r
        = .respond 405 (some (strings_Join (allowedVerbs rt (buildRoutes declared) r)))
      ∧ (∀ v, v ∈ allowedVerbs rt (buildRoutes declared) r
          ↔ ∃ d ∈ declared, d.1 = v ∧ d.2.try r.path ≠ none)
      ∧ (∀ v, (allowedVerbs rt (buildRoutes declared) r).count v
          = (matchingRoutes declared r.path v).length) := by
  have hl : routeLoop rt r (routesGet (buildRoutes declared) r.method) = none := by
    rw [routeLoop_eq_none, routesGet_buildRoutes]
    intro gr hgr
    obtain ⟨d, hdf, rfl⟩ := List.mem_map.mp hgr
    obtain ⟨hdm, hdv⟩ := List.mem_filter.mp hdf
    exact hown d hdm (of_decide_eq_true hdv)
  refine ⟨?_, ?_, ?_⟩
  · obtain ⟨d, hd, hdv, hdm⟩ := hother
    have hmem : d.1 ∈ allowedVerbs rt (buildRoutes declared) r :=
      (mem_allowedVerbs rt declared r d.1).mpr ⟨hdv, d, hd, rfl, hdm⟩
    have hlen : (allowedVerbs rt (buildRoutes declared) r).length ≠ 0 := by
      intro hc
      rw [List.length_eq_zero.mp hc] at hmem
      cases hmem
    rw [serve_of_gate rt _ r hgate, hl]
    simp only [hlen, if_false]
  · intro v
    rw [mem_allowedVerbs]
    constructor
    · rintro ⟨_, h⟩
      exact h
    · rintro ⟨d, hd, hdv, hdm⟩
      refine ⟨?_, d, hd, hdv, hdm⟩
      intro hv
      exact hdm (hown d hd (hdv.trans hv))
  · intro v
    rw [count_allowedVerbs]
    by_cases hv : v = r.method
    · simp only [hv, if_true]
      symm
      apply List.length_eq_zero.mpr
      unfold matchingRoutes
      apply List.filter_eq_nil_iff.mpr
      intro d hd
      by_cases hdv : d.1 = r.method
      · simp [hdv, hown d hd hdv]
      · simp [hdv]
    · simp only [hv, if_false]

/-- C5: behind the content-type gate the handler answers 404, without an
`Allow` header and without calling the wrapped handler, exactly when no declared
route of any verb matches the request path. -/
theorem c5_not_found_iff_no_route (rt : Runtime) (declared : List (String × gatewayRoute))
    (r : Request)
    (hgate : mediaType rt (headerGet r.header "Content-Type") = "application/json".data) :
    serve rt (buildRoutes declared) r = .respond 404 none
      ↔ ∀ d ∈ declared, d.2.try r.path = none := by
  rw [serve_of_gate rt _ r hgate]
  constructor
  · intro hs d hd
    cases hl : routeLoop rt r (routesGet (buildRoutes declared) r.method) with
    | some out =>
      rw [hl] at hs
      simp only at hs
      obtain ⟨gr, _, params, _, hout⟩ := routeLoop_some rt r _ out hl
      rw [hs] at hout
      rcases onMatch_cases rt gr params r with h | ⟨r', h, _⟩ | ⟨p, h⟩
      · rw [h] at hout; cases hout
      · rw [h] at hout; cases hout
      · rw [h] at hout; cases hout
    | none =>
      rw [hl] at hs
      simp only at hs
      by_cases hv : d.1 = r.method
      · have hnone := (routeLoop_eq_none rt r _).mp hl
        apply hnone
        rw [routesGet_buildRoutes]
        exact List.mem_map.mpr ⟨d, List.mem_filter.mpr ⟨hd, decide_eq_true hv⟩, rfl⟩
      · by_contra hc
        have hmem : d.1 ∈ allowedVerbs rt (buildRoutes declared) r :=
          (mem_allowedVerbs rt declared r d.1).mpr ⟨hv, d, hd, rfl, hc⟩
        split at hs
        · rename_i hlen
          rw [List.length_eq_zero.mp hlen] at hmem
          cases hmem
        · cases hs
  · intro hnone
    have hl : routeLoop rt r (routesGet (buildRoutes declared) r.method) = none := by
      rw [routeLoop_eq_none, routesGet_buildRoutes]
      intro gr hgr
      obtain ⟨d, hdf, rfl⟩ := List.mem_map.mp hgr
      exact hnone d (List.mem_filter.mp hdf).1
    have hallowed : allowedVerbs rt (buildRoutes declared) r = [] := by
      apply List.eq_nil_iff_forall_not_mem.mpr
      intro v hv
      obtain ⟨_, d, hd, _, hmatch⟩ := (mem_allowedVerbs rt declared r v).mp hv
      exact hmatch (hnone d hd)
    rw [hl, hallowed]
    rfl

/-- C6 as stated fails on a placeholder with a one-letter name: the template
`/v1/items/{a}` comes out with the token `{a}` unreplaced, whereas replacing
every name in `[A-Za-z][A-Za-z0-9_]*` would give a group named `a`. -/
theorem c6_one_letter_name_not_replaced :
    pattern (.get "/v1/items/{a}") = .ok "^/v1/items/{a}[/#?]?$"
      ∧ specPattern "/v1/items/{a}" = "^/v1/items/(?P<a>[^/#?]+)[/#?]?$"
      ∧ pattern (.get "/v1/items/{a}") ≠ .ok (specPattern "/v1/items/{a}") := by
  have h1 : compilePattern "/v1/items/{a}" = "^/v1/items/{a}[/#?]?$" := by decide
  have h2 : specPattern "/v1/items/{a}" = "^/v1/items/(?P<a>[^/#?]+)[/#?]?$" := by decide
  have h3 : pattern (.get "/v1/items/{a}") = .ok (compilePattern "/v1/items/{a}") := rfl
  refine ⟨by rw [h3, h1], h2, ?_⟩
  intro hc
  rw [h3] at hc
  have hne : compilePattern "/v1/items/{a}" = specPattern "/v1/items/{a}" := Except.ok.inj hc
  rw [h1, h2] at hne
  revert hne
  decide

/-- C6, amended: for every template the compiled pattern is `^`, the template
with every token `{name}` replaced by `(?P<name>[^/#?]+)` where the name is a
letter followed by one or more letters, digits or underscores (two or more
runes), and `[/#?]?$`; all other text, tokens with a one-letter name included,
is kept. Letters are those of `(?i)[a-z]`: `A-Z`, `a-z` and the runes U+017F
and U+212A. -/
theorem c6_pattern_replaces_long_names (template : String) :
    compilePattern template = foldedPattern template
      ∧ pattern (.get template) = .ok (foldedPattern template)
      ∧ (∀ c, inClass false foldLetter c
          = (asciiLetter c || decide (c.toNat = 0x17F) || decide (c.toNat = 0x212A)))
      ∧ (∀ c, inClass false foldWord c
          = (isWordChar c || decide (c.toNat = 0x17F) || decide (c.toNat = 0x212A))) := by
  have h : compilePattern template = foldedPattern template := by
    unfold compilePattern foldedPattern
    rw [replaceAll_patternRE]
  refine ⟨h, ?_, foldLetter_spec, foldWord_spec⟩
  simp only [pattern, templateOf, h]

/-- C7: the template `/v1/items/{id}` compiles to
`^/v1/items/(?P<id>[^/#?]+)[/#?]?$`; the matcher of that pattern accepts
`/v1/items/S` for every non-empty `S` without `/`, `#`, `?` and returns the
single parameter `id = S`, also when one of `/`, `#`, `?` follows; it rejects
`/v1/items/42/extra` and `/v1/items/`. -/
theorem c7_item_template_matcher :
    pattern (.get "/v1/items/{id}") = .ok "^/v1/items/(?P<id>[^/#?]+)[/#?]?$"
      ∧ regexp_MustCompile "^/v1/items/(?P<id>[^/#?]+)[/#?]?$" = some itemRe
      ∧ (∀ S : String, S ≠ "" → (∀ c ∈ S.data, c ≠ '/' ∧ c ≠ '#' ∧ c ≠ '?') →
          itemRoute.try ("/v1/items/" ++ S) = some [(bytes "id", [bytes S])]
            ∧ ∀ t : Char, (t = '/' ∨ t = '#' ∨ t = '?') →
                itemRoute.try ("/v1/items/" ++ S ++ String.singleton t)
                  = some [(bytes "id", [bytes S])])
      ∧ itemRoute.try "/v1/items/42" = some [(bytes "id", [bytes "42"])]
      ∧ itemRoute.try "/v1/items/42/extra" = none
      ∧ itemRoute.try "/v1/items/" = none := by
  have hpat : compilePattern "/v1/items/{id}" = "^/v1/items/(?P<id>[^/#?]+)[/#?]?$" := by decide
  refine ⟨?_, by decide, ?_, by decide, by decide, by decide⟩
  · show Except.ok (compilePattern "/v1/items/{id}") = _
    rw [hpat]
  · intro S hS hfree
    obtain ⟨l⟩ := S
    cases l with
    | nil => exact absurd rfl hS
    | cons x xs =>
      have hnot : ∀ c ∈ x :: xs, inRanges stops c = false := by
        intro c hc
        have h := hfree c hc
        cases hr : inRanges stops c with
        | false => rfl
        | true =>
          rcases (stops_spec c).mp hr with h1 | h1 | h1
          · exact absurd h1 h.1
          · exact absurd h1 h.2.1
          · exact absurd h1 h.2.2
      have hx := hnot x (List.mem_cons_self _ _)
      have hxs : ∀ c ∈ xs, inRanges stops c = false :=
        fun c hc => hnot c (List.mem_cons_of_mem _ hc)
      constructor
      · have h := itemRoute_try_accepts x xs [] hx hxs (Or.inl rfl)
        simp only [List.append_nil] at h
        exact h
      · intro t ht
        exact itemRoute_try_accepts x xs [t] hx hxs (Or.inr ⟨t, rfl, (stops_spec t).mpr ht⟩)

/-- C8, evaluated on the claim's own example: on the document `{"a":{}}` with
path `"a.b"` the call does not produce `{"a":{"b": value}}`. The loop runs over
`pp[:len(path)-1] = pp[:2]`, both segments, reads the missing member `b` as the
nil interface, and the type assertion behind the loop panics; the document is
left as it was. -/
theorem c8_setJSON_nested_path_panics (value : Value) :
    gatewaySetJSON (.obj [(bytes "a", .obj [])]) (bytes "a.b") value
      = ⟨.obj [(bytes "a", .obj [])], .error .typeAssertion⟩ := by
  rfl

/-- C9, evaluated on the path `"."` (segments `""` and `""`) and the empty
document, where the first segment is missing: the call returns normally and
stores the value under the key `""` of the root, because `pp[:len(path)-1]` is
the empty slice `pp[:0]` and `pp[len(path)-1]` is the first segment. -/
theorem c9_setJSON_dot_path_succeeds (value : Value) :
    strings_Split (bytes ".") dot = [[], []]
      ∧ mapGet [] ([] : GoBytes) = none
      ∧ gatewaySetJSON (.obj []) (bytes ".") value = ⟨.obj [([], value)], .ok ()⟩ := by
  refine ⟨by decide, rfl, rfl⟩

/-- C10: with the empty path the call never returns success: the slice
expression `pp[:len(path)-1]` is `pp[:-1]`, a run-time panic raised before any
map is touched, so the root is left unchanged. -/
theorem c10_setJSON_empty_path_fails (root value : Value) :
    gatewaySetJSON root (bytes "") value = ⟨root, .error .sliceBounds⟩
      ∧ (gatewaySetJSON root (bytes "") value).ret ≠ .ok ()
      ∧ (gatewaySetJSON root (bytes "") value).root = root := by
  have h : gatewaySetJSON root (bytes "") value = ⟨root, .error .sliceBounds⟩ := rfl
  refine ⟨h, ?_, ?_⟩
  · rw [h]; intro hc; cases hc
  · rw [h]

/-! ### Instances of the theorems with hypotheses -/

/-- C1 instance: with a runtime whose decoder yields `{"name":"x"}` for the
body, the request of the worked example ends in a panic. -/
theorem c1_item_request_not_forwarded_witness :
    ∃ p, serve (Runtime.fixed (.map [(bytes "name", .str (bytes "x"))]))
      (buildRoutes [("GET", itemRoute)]) itemRequest = .panic p :=
  (c1_item_request_not_forwarded (Runtime.fixed (.map [(bytes "name", .str (bytes "x"))]))).2.2.2
    rfl

/-- C2 instance: with the GET routes of `/v1/items/{id}` and `/v1/{kind}/{id}`
declared in this order, `GET /v1/items/42?active=true` passes the gate, has a
matching route, and is handled by the earliest one. -/
theorem c2_first_declared_match_wins_witness :
    mediaType (Runtime.fixed .failed) (headerGet itemRequest.header "Content-Type")
        = "application/json".data
      ∧ (∃ d ∈ [("GET", itemRoute), ("GET", kindRoute)],
          d.1 = itemRequest.method ∧ d.2.try itemRequest.path ≠ none)
      ∧ ∃ pre gr post params,
          [("GET", itemRoute), ("GET", kindRoute)] = pre ++ (itemRequest.method, gr) :: post
            ∧ (∀ d ∈ pre, d.1 = itemRequest.method → d.2.try itemRequest.path = none)
            ∧ gr.try itemRequest.path = some params
            ∧ serve (Runtime.fixed .failed)
                (buildRoutes [("GET", itemRoute), ("GET", kindRoute)]) itemRequest
                = onMatch (Runtime.fixed .failed) gr params itemRequest
            ∧ (∀ r', serve (Runtime.fixed .failed)
                (buildRoutes [("GET", itemRoute), ("GET", kindRoute)]) itemRequest = .forward r' →
                r'.path = gr.endpoint ∧ r'.method = "POST") :=
  ⟨rfl, ⟨("GET", itemRoute), by simp, rfl, by decide⟩,
    c2_first_declared_match_wins (Runtime.fixed .failed) [("GET", itemRoute), ("GET", kindRoute)]
      itemRequest rfl ⟨("GET", itemRoute), by simp, rfl, by decide⟩⟩

/-- C3 instance: a request without any header is answered 415 on the empty
route table. -/
theorem c3_unsupported_media_type_witness :
    (∀ e ∈ bareRequest.header, e.1 ≠ "Content-Type")
      ∧ serve (Runtime.fixed .failed) [] bareRequest = .respond 415 none :=
  ⟨(fun _ he => nomatch he),
    (c3_unsupported_media_type (Runtime.fixed .failed)).2.1 [] bareRequest
      (fun _ he => nomatch he)⟩

/-- C4 instance: the request `DELETE /v1/items/42` against two matching GET
routes satisfies the hypotheses of the amended statement. -/
theorem c4_allow_lists_matching_verbs_witness :
    serve (Runtime.fixed .failed) (buildRoutes [("GET", itemRoute), ("GET", kindRoute)])
          deleteRequest
        = .respond 405 (some (strings_Join (allowedVerbs (Runtime.fixed .failed)
            (buildRoutes [("GET", itemRoute), ("GET", kindRoute)]) deleteRequest)))
      ∧ (∀ v, v ∈ allowedVerbs (Runtime.fixed .failed)
            (buildRoutes [("GET", itemRoute), ("GET", kindRoute)]) deleteRequest
          ↔ ∃ d ∈ [("GET", itemRoute), ("GET", kindRoute)],
              d.1 = v ∧ d.2.try deleteRequest.path ≠ none)
      ∧ (∀ v, (allowedVerbs (Runtime.fixed .failed)
            (buildRoutes [("GET", itemRoute), ("GET", kindRoute)]) deleteRequest).count v
          = (matchingRoutes [("GET", itemRoute), ("GET", kindRoute)] deleteRequest.path v).length) :=
  c4_allow_lists_matching_verbs (Runtime.fixed .failed) [("GET", itemRoute), ("GET", kindRoute)]
    deleteRequest rfl (by decide) ⟨("GET", itemRoute), by simp, by decide, by decide⟩

/-- C5 instance: `GET /v2` against the single route of `/v1/items/{id}` passes
the gate, matches nothing and is answered 404. -/
theorem c5_not_found_iff_no_route_witness :
    mediaType (Runtime.fixed .failed) (headerGet otherRequest.header "Content-Type")
        = "application/json".data
      ∧ serve (Runtime.fixed .failed) (buildRoutes [("GET", itemRoute)]) otherRequest
          = .respond 404 none :=
  ⟨rfl, (c5_not_found_iff_no_route (Runtime.fixed .failed) [("GET", itemRoute)] otherRequest
    rfl).mpr (by decide)⟩

/-- C7 instance: the path `/v1/items/abc` is accepted with `id = abc`. -/
theorem c7_item_template_matcher_witness :
    itemRoute.try ("/v1/items/" ++ "abc") = some [(bytes "id", [bytes "abc"])] :=
  (c7_item_template_matcher.2.2.1 "abc" (by decide) (by decide)).1

/-! ### Query merging, body decoding and keys of more than one byte

Lemmas on `net/url` and on the pattern parser, followed by the claims C11 to
C20 and the instances of those with hypotheses. -/

/-- Behind the gate a request is handled by the earliest declared route of its
verb that matches. -/
theorem serve_of_first_match (rt : Runtime) (declared pre post : List (String × gatewayRoute))
    (r : Request) (gr : gatewayRoute) (params : Values)
    (hgate : mediaType rt (headerGet r.header "Content-Type") = "application/json".data)
    (hsplit : declared = pre ++ (r.method, gr) :: post)
    (hpre : ∀ d ∈ pre, d.1 = r.method → d.2.try r.path = none)
    (hgr : gr.try r.path = some params) :
    serve rt (buildRoutes declared) r = onMatch rt gr params r := by
  rw [serve_of_gate rt _ r hgate, routesGet_buildRoutes, hsplit]
  simp only [List.filter_append, List.filter_cons, decide_True, if_true, List.map_append,
    List.map_cons]
  rw [routeLoop_first rt r _ _ gr params _ hgr]
  intro g hg
  obtain ⟨d, hdf, rfl⟩ := List.mem_map.mp hg
  obtain ⟨hdm, hdv⟩ := List.mem_filter.mp hdf
  exact hpre d hdm (of_decide_eq_true hdv)

/-- The empty raw query has no parameters. -/
theorem url_Query_nil : url_Query [] = [] := by decide

/-- C12: behind the gate, when the earliest matching route of the request's
verb has no captures and the raw query is empty, the wrapped handler is called
with the original request in which only the method, now POST, and the path,
now the route's endpoint, are changed: body, content length, raw query and
headers are those of the original request. -/
theorem c12_no_params_forwards_unchanged (rt : Runtime)
    (declared pre post : List (String × gatewayRoute)) (r : Request) (gr : gatewayRoute)
    (hgate : mediaType rt (headerGet r.header "Content-Type") = "application/json".data)
    (hsplit : declared = pre ++ (r.method, gr) :: post)
    (hpre : ∀ d ∈ pre, d.1 = r.method → d.2.try r.path = none)
    (hgr : gr.try r.path = some [])
    (hquery : r.rawQuery = []) :
    ∃ r', serve rt (buildRoutes declared) r = .forward r'
      ∧ r'.method = "POST" ∧ r'.path = gr.endpoint
      ∧ r'.body = r.body ∧ r'.contentLength = r.contentLength
      ∧ r'.rawQuery = r.rawQuery ∧ r'.header = r.header := by
  rw [serve_of_first_match rt declared pre post r gr [] hgate hsplit hpre hgr]
  have hm : mergedRawQuery [] r = [] := by simp [mergedRawQuery, hquery]
  refine ⟨{ r with method := "POST", path := gr.endpoint }, ?_, rfl, rfl, rfl, rfl, rfl, rfl⟩
  simp only [onMatch, hm, url_Query_nil, List.length_nil, Nat.lt_irrefl, if_false, gt_iff_lt]
  rw [← hquery]

/-- C17: `GatewayModule.method` returns the verb of the five standard kinds and
the `Kind` of a custom pattern, `GatewayModule.pattern` compiles the path of the
same kind; a rule without a pattern makes both panic, and the two panic on
exactly the same rules. -/
theorem c17_method_and_pattern_by_kind :
    (∀ p, method (.get p) = .ok "GET" ∧ pattern (.get p) = .ok (compilePattern p))
      ∧ (∀ p, method (.put p) = .ok "PUT" ∧ pattern (.put p) = .ok (compilePattern p))
      ∧ (∀ p, method (.post p) = .ok "POST" ∧ pattern (.post p) = .ok (compilePattern p))
      ∧ (∀ p, method (.delete p) = .ok "DELETE" ∧ pattern (.delete p) = .ok (compilePattern p))
      ∧ (∀ p, method (.patch p) = .ok "PATCH" ∧ pattern (.patch p) = .ok (compilePattern p))
      ∧ (∀ kind p, method (.custom kind p) = .ok kind
          ∧ pattern (.custom kind p) = .ok (compilePattern p))
      ∧ method .unset = .error .unexpectedType
      ∧ pattern .unset = .error .unexpectedType
      ∧ (∀ rule, (∃ e, method rule = .error e) ↔ (∃ e, pattern rule = .error e)) := by
  refine ⟨fun _ => ⟨rfl, rfl⟩, fun _ => ⟨rfl, rfl⟩, fun _ => ⟨rfl, rfl⟩, fun _ => ⟨rfl, rfl⟩,
    fun _ => ⟨rfl, rfl⟩, fun _ _ => ⟨rfl, rfl⟩, rfl, rfl, ?_⟩
  intro rule
  cases rule <;> simp [method, pattern, templateOf]

/-- Splitting never yields the empty list. -/
theorem strings_Split_ne_nil (s : GoBytes) (sep : UInt8) : strings_Split s sep ≠ [] := by
  cases s with
  | nil => simp [strings_Split]
  | cons b rest =>
    unfold strings_Split
    split
    · simp
    · split <;> simp

/-- The number of segments is the number of separators plus one. -/
theorem strings_Split_length (s : GoBytes) (sep : UInt8) :
    (strings_Split s sep).length = s.count sep + 1 := by
  induction s with
  | nil => simp [strings_Split]
  | cons b rest ih =>
    unfold strings_Split
    by_cases hb : b = sep
    · subst hb
      simp [ih]
    · have hne : (b == sep) = false := by simpa using hb
      simp only [hb, if_false, List.count_cons, hne, Bool.false_eq_true, Nat.add_zero]
      rw [← ih]
      split
      · rename_i h; exact absurd h (strings_Split_ne_nil rest sep)
      · rename_i seg segs h; simp [h]

/-- The bytes of a path are its dots and its other bytes. -/
theorem length_eq_dots_add_nonDot (path : GoBytes) :
    path.length = path.count dot + nonDotCount path := by
  induction path with
  | nil => rfl
  | cons b rest ih =>
    by_cases hb : b = dot
    · subst hb
      simp [nonDotCount, List.filter_cons] at ih ⊢
      omega
    · have hne : (b == dot) = false := by simpa using hb
      simp [nonDotCount, List.filter_cons, List.count_cons, hne, hb] at ih ⊢
      omega

/-- A path has more bytes than segments exactly when it has two or more bytes
other than the dot. -/
theorem long_path_iff (path : GoBytes) :
    (strings_Split path dot).length < path.length ↔ 2 ≤ nonDotCount path := by
  rw [strings_Split_length, length_eq_dots_add_nonDot path]
  omega

/-- The walk over segments panics only by a failed type assertion. -/
theorem walk_error (data : Value) (segs : List GoBytes) (e : GoPanic)
    (h : walk data segs = .error e) : e = .typeAssertion := by
  induction segs generalizing data with
  | nil => simp [walk] at h
  | cons p ps ih =>
    unfold walk at h
    cases hd : indexAsMap data p with
    | ok next =>
      rw [hd] at h
      exact ih next h
    | error e' =>
      rw [hd] at h
      simp only [Except.error.injEq] at h
      subst h
      cases data <;> simp [indexAsMap] at hd <;> exact hd.symm

/-- C18: a path with more bytes than dot-separated segments, that is with two
or more bytes other than the dot, makes `gatewaySetJSON` panic (slice bounds,
index out of range or failed type assertion) and leaves the document alone,
because the slice and the index use `len(path)-1`; hence the call returns
normally only for paths with at most one byte other than the dot. -/
theorem c18_long_path_panics (root value : Value) (path : GoBytes) :
    ((strings_Split path dot).length < path.length ↔ 2 ≤ nonDotCount path)
      ∧ (2 ≤ nonDotCount path →
          ∃ p, gatewaySetJSON root path value = ⟨root, .error p⟩
            ∧ (p = .sliceBounds ∨ p = .indexRange ∨ p = .typeAssertion))
      ∧ ((gatewaySetJSON root path value).ret = .ok () → nonDotCount path ≤ 1) := by
  have hpanic : (strings_Split path dot).length < path.length →
      ∃ p, gatewaySetJSON root path value = ⟨root, .error p⟩
        ∧ (p = .sliceBounds ∨ p = .indexRange ∨ p = .typeAssertion) := by
    intro h
    unfold gatewaySetJSON
    split
    · rename_i h0
      rw [h0] at h
      omega
    · rename_i n hn
      rw [hn] at h
      simp only []
      split
      · exact ⟨_, rfl, Or.inl rfl⟩
      · have hget : (strings_Split path dot).get? n = none := by
          apply List.get?_eq_none.mpr
          omega
        split
        · rename_i e he
          exact ⟨e, rfl, Or.inr (Or.inr (walk_error _ _ e he))⟩
        · split
          · rw [hget]; exact ⟨_, rfl, Or.inr (Or.inl rfl)⟩
          · rw [hget]; exact ⟨_, rfl, Or.inr (Or.inl rfl)⟩
          · exact ⟨_, rfl, Or.inr (Or.inr rfl)⟩
  refine ⟨long_path_iff path, fun h => hpanic ((long_path_iff path).mpr h), ?_⟩
  intro hok
  by_contra hc
  have h2 : 2 ≤ nonDotCount path := by omega
  obtain ⟨p, hp, _⟩ := hpanic ((long_path_iff path).mpr h2)
  rw [hp] at hok
  cases hok

/-- C20: when a request is answered 405, the `Allow` header is the
`", "`-joined list `allowed`, in which every verb other than the request's own
is listed once for each declared route of that verb that matches the path, and
the request's own verb is not listed. -/
theorem c20_allow_lists_verb_per_route (rt : Runtime) (declared : List (String × gatewayRoute))
    (r : Request) (allow : Option String)
    (h : serve rt (buildRoutes declared) r = .respond 405 allow) :
    allow = some (strings_Join (allowedVerbs rt (buildRoutes declared) r))
      ∧ (∀ v, v ≠ r.method → (allowedVerbs rt (buildRoutes declared) r).count v
          = (matchingRoutes declared r.path v).length)
      ∧ r.method ∉ allowedVerbs rt (buildRoutes declared) r := by
  refine ⟨?_, ?_, ?_⟩
  · by_cases hgate : mediaType rt (headerGet r.header "Content-Type") = "application/json".data
    · rw [serve_of_gate rt _ r hgate] at h
      cases hl : routeLoop rt r (routesGet (buildRoutes declared) r.method) with
      | some out =>
        rw [hl] at h
        simp only at h
        obtain ⟨gr, _, params, _, hout⟩ := routeLoop_some rt r _ out hl
        rw [h] at hout
        rcases onMatch_cases rt gr params r with h1 | ⟨r', h1, _⟩ | ⟨p, h1⟩
        · rw [h1] at hout; cases hout
        · rw [h1] at hout; cases hout
        · rw [h1] at hout; cases hout
      | none =>
        rw [hl] at h
        simp only at h
        split at h
        · cases h
        · simp only [Outcome.respond.injEq, true_and] at h
          exact h.symm
    · simp only [serve, hgate, ne_eq, not_false_eq_true, if_true] at h
      cases h
  · intro v hv
    rw [count_allowedVerbs]
    simp only [hv, if_false]
  · intro hmem
    have hc := count_allowedVerbs rt declared r r.method
    simp only [if_true] at hc
    exact (List.count_pos_iff.mpr hmem).ne' hc

/-- Equality of bytes is equality of their numbers. -/
theorem byte_eq_iff (a b : UInt8) : a = b ↔ a.toNat = b.toNat :=
  ⟨fun h => by rw [h], UInt8.toNat.inj⟩

/-- The digit value of a hexadecimal digit. -/
theorem unhex_hexDigit (n : Nat) (h : n < 16) : unhex (hexDigit n) = some n := by
  interval_cases n <;> decide

/-- A hexadecimal digit is none of `%`, `&`, `+`, `;`, `=`. -/
theorem hexDigit_plain (n : Nat) (h : n < 16) :
    hexDigit n ≠ 37 ∧ hexDigit n ≠ 38 ∧ hexDigit n ≠ 43 ∧ hexDigit n ≠ 59 ∧ hexDigit n ≠ 61 := by
  interval_cases n <;> decide

/-- An unreserved byte is none of space, `%`, `&`, `+`, `;`, `=`. -/
theorem unreserved_plain (c : UInt8) (h : unreserved c = true) :
    c ≠ 37 ∧ c ≠ 38 ∧ c ≠ 43 ∧ c ≠ 59 ∧ c ≠ 61 := by
  have h45 : (45 : UInt8).toNat = 45 := rfl
  have h95 : (95 : UInt8).toNat = 95 := rfl
  have h46 : (46 : UInt8).toNat = 46 := rfl
  have h126 : (126 : UInt8).toNat = 126 := rfl
  have h37 : (37 : UInt8).toNat = 37 := rfl
  have h38 : (38 : UInt8).toNat = 38 := rfl
  have h43 : (43 : UInt8).toNat = 43 := rfl
  have h59 : (59 : UInt8).toNat = 59 := rfl
  have h61 : (61 : UInt8).toNat = 61 := rfl
  simp only [unreserved, Bool.or_eq_true, Bool.and_eq_true, decide_eq_true_eq, byte_eq_iff, h45,
    h95, h46, h126] at h
  simp only [ne_eq, byte_eq_iff, h37, h38, h43, h59, h61]
  omega

/-- A byte is rebuilt from its number. -/
theorem byte_ofNat_toNat (c : UInt8) : UInt8.ofNat c.toNat = c := by
  apply UInt8.toNat.inj
  exact UInt8.toNat_ofNat_of_lt (UInt8.toNat_lt_size c)

/-- Unescaping undoes escaping. -/
theorem unescape_escape (bs : GoBytes) : url_QueryUnescape (url_QueryEscape bs) = some bs := by
  induction bs with
  | nil => rfl
  | cons c cs ih =>
    unfold url_QueryEscape
    by_cases h32 : c = 32
    · subst h32
      simp only [if_true]
      unfold url_QueryUnescape
      rw [ih]
      rfl
    · simp only [h32, if_false]
      by_cases hu : unreserved c = true
      · obtain ⟨h37, _, h43, _, _⟩ := unreserved_plain c hu
        simp only [hu, if_true]
        unfold url_QueryUnescape
        simp only [h37, if_false, ih, h43]
      · simp only [hu, Bool.false_eq_true, if_false]
        have hlt := UInt8.toNat_lt_size c
        have hsz : UInt8.size = 256 := rfl
        have hhi : c.toNat / 16 < 16 := by omega
        have hlo : c.toNat % 16 < 16 := by omega
        unfold url_QueryUnescape
        simp only [if_true, unhex_hexDigit _ hhi, unhex_hexDigit _ hlo, ih]
        have hc : c.toNat / 16 * 16 + c.toNat % 16 = c.toNat := by omega
        rw [hc, byte_ofNat_toNat]

/-- The escaped text contains none of `&`, `;`, `=`. -/
theorem escape_plain (bs : GoBytes) :
    ∀ b ∈ url_QueryEscape bs, b ≠ 38 ∧ b ≠ 59 ∧ b ≠ 61 := by
  induction bs with
  | nil => intro b hb; cases hb
  | cons c cs ih =>
    intro b hb
    unfold url_QueryEscape at hb
    by_cases h32 : c = 32
    · simp only [h32, if_true, List.mem_cons] at hb
      rcases hb with rfl | hb
      · decide
      · exact ih b hb
    · simp only [h32, if_false] at hb
      by_cases hu : unreserved c = true
      · simp only [hu, if_true, List.mem_cons] at hb
        rcases hb with rfl | hb
        · obtain ⟨_, h38, _, h59, h61⟩ := unreserved_plain b hu
          exact ⟨h38, h59, h61⟩
        · exact ih b hb
      · have hlt := UInt8.toNat_lt_size c
        have hsz : UInt8.size = 256 := rfl
        have hhi : c.toNat / 16 < 16 := by omega
        have hlo : c.toNat % 16 < 16 := by omega
        simp only [hu, Bool.false_eq_true, if_false, List.mem_cons] at hb
        rcases hb with rfl | rfl | rfl | hb
        · decide
        · obtain ⟨_, h38, _, h59, h61⟩ := hexDigit_plain _ hhi
          exact ⟨h38, h59, h61⟩
        · obtain ⟨_, h38, _, h59, h61⟩ := hexDigit_plain _ hlo
          exact ⟨h38, h59, h61⟩
        · exact ih b hb

/-- Cutting at the first separator when the text in front of it is free of it. -/
theorem strings_Cut_append (a b : GoBytes) (sep : UInt8) (ha : sep ∉ a) :
    strings_Cut (a ++ sep :: b) sep = (a, b) := by
  induction a with
  | nil => simp [strings_Cut]
  | cons c cs ih =>
    have hc : c ≠ sep := fun h => ha (by simp [h])
    have hcs : sep ∉ cs := fun h => ha (List.mem_cons_of_mem _ h)
    simp only [List.cons_append, strings_Cut, hc, if_false, List.append_eq, ih hcs]

/-- Splitting a text at a separator in its middle. -/
theorem strings_Split_append (a b : GoBytes) (sep : UInt8) :
    strings_Split (a ++ sep :: b) sep = strings_Split a sep ++ strings_Split b sep := by
  induction a with
  | nil => simp [strings_Split]
  | cons c cs ih =>
    by_cases hc : c = sep
    · simp [strings_Split, hc, ih]
    · simp only [List.cons_append, strings_Split, hc, if_false, List.append_eq, ih]
      cases hs : strings_Split cs sep with
      | nil => exact absurd hs (strings_Split_ne_nil cs sep)
      | cons seg segs => rfl

/-- A text free of the separator is its own single segment. -/
theorem strings_Split_single (a : GoBytes) (sep : UInt8) (ha : sep ∉ a) :
    strings_Split a sep = [a] := by
  induction a with
  | nil => rfl
  | cons c cs ih =>
    have hc : c ≠ sep := fun h => ha (by simp [h])
    have hcs : sep ∉ cs := fun h => ha (List.mem_cons_of_mem _ h)
    simp only [strings_Split, hc, if_false, ih hcs]

/-- Splitting undoes joining when no item contains the separator. -/
theorem strings_Split_joinBytes (sep : UInt8) (x : GoBytes) (items : List GoBytes)
    (h : ∀ i ∈ x :: items, sep ∉ i) :
    strings_Split (joinBytes sep (x :: items)) sep = x :: items := by
  induction items generalizing x with
  | nil =>
    simp only [joinBytes]
    exact strings_Split_single x sep (h x (List.mem_cons_self _ _))
  | cons y rest ih =>
    simp only [joinBytes]
    rw [strings_Split_append, strings_Split_single x sep (h x (List.mem_cons_self _ _)),
      ih y (fun i hi => h i (List.mem_cons_of_mem _ hi))]
    rfl

/-- An escaped item contains no `&`. -/
theorem encodePair_no_amp (p : GoBytes × GoBytes) : (38 : UInt8) ∉ encodePair p := by
  intro h
  unfold encodePair at h
  rcases List.mem_append.mp h with h | h
  · exact (escape_plain p.1 38 h).1 rfl
  · rcases List.mem_cons.mp h with h | h
    · revert h; decide
    · exact (escape_plain p.2 38 h).1 rfl

/-- An escaped item is read back as its pair. -/
theorem decodePair_encodePair (p : GoBytes × GoBytes) : decodePair (encodePair p) = some p := by
  obtain ⟨k, v⟩ := p
  have hsemi : (encodePair (k, v)).contains 59 = false := by
    rw [Bool.eq_false_iff]
    intro h
    have h' : (59 : UInt8) ∈ encodePair (k, v) := by simpa using h
    unfold encodePair at h'
    rcases List.mem_append.mp h' with h1 | h1
    · exact (escape_plain k 59 h1).2.1 rfl
    · rcases List.mem_cons.mp h1 with h1 | h1
      · revert h1; decide
      · exact (escape_plain v 59 h1).2.1 rfl
  have hne : encodePair (k, v) ≠ [] := by
    unfold encodePair
    simp
  have hcut : strings_Cut (encodePair (k, v)) 61 = (url_QueryEscape k, url_QueryEscape v) := by
    unfold encodePair
    exact strings_Cut_append _ _ 61 (fun h => (escape_plain k 61 h).2.2 rfl)
  unfold decodePair
  simp only [hsemi, Bool.false_eq_true, if_false, hne, hcut, unescape_escape]

/-- The items of the encoding are the escaped pairs of the entries. -/
theorem encodeEntry_flatten (m : Values) :
    (m.map encodeEntry).flatten = (pairsOf m).map encodePair := by
  induction m with
  | nil => rfl
  | cons e rest ih =>
    obtain ⟨k, vs⟩ := e
    simp only [List.map_cons, List.flatten_cons, ih, pairsOf, List.map_append, List.map_map]
    rfl

/-- Reading back an encoded map gives its pairs in key order. -/
theorem queryPairs_valuesEncode (v : Values) :
    queryPairs (valuesEncode v) = pairsOf (sortByKey v) := by
  unfold queryPairs valuesEncode
  rw [encodeEntry_flatten]
  cases hp : pairsOf (sortByKey v) with
  | nil => simp [joinBytes, strings_Split, decodePair]
  | cons p ps =>
    rw [List.map_cons, strings_Split_joinBytes]
    · rw [← List.map_cons, List.filterMap_map]
      have hid : (decodePair ∘ encodePair) = some := by
        funext q
        exact decodePair_encodePair q
      rw [hid, List.filterMap_some]
    · intro i hi
      rw [← List.map_cons] at hi
      obtain ⟨q, _, rfl⟩ := List.mem_map.mp hi
      exact encodePair_no_amp q

/-- The pairs of a raw query made of two parts joined by `&`. -/
theorem queryPairs_append (a b : GoBytes) :
    queryPairs (a ++ 38 :: b) = queryPairs a ++ queryPairs b := by
  unfold queryPairs
  rw [strings_Split_append, List.filterMap_append]

/-- One step of the parse loop adds the pair of the segment. -/
theorem parsePair_eq (m : Values) (seg : GoBytes) :
    parsePair m seg = match decodePair seg with
      | some p => valuesAdd m p.1 p.2
      | none => m := by
  unfold parsePair decodePair
  split
  · rfl
  · split
    · rfl
    · split <;> simp_all

/-- The parse loop adds the decoded pairs in order. -/
theorem foldl_parsePair (segs : List GoBytes) (m : Values) :
    segs.foldl parsePair m = addPairs m (segs.filterMap decodePair) := by
  induction segs generalizing m with
  | nil => rfl
  | cons seg rest ih =>
    rw [List.foldl_cons, ih, parsePair_eq]
    cases hd : decodePair seg with
    | none => simp [List.filterMap_cons, hd]
    | some p => simp [List.filterMap_cons, hd, addPairs]

/-- The parsed query is the map of its decoded pairs. -/
theorem url_Query_eq (raw : GoBytes) : url_Query raw = addPairs [] (queryPairs raw) := by
  unfold url_Query queryPairs
  exact foldl_parsePair _ _

/-- The empty map satisfies the invariant. -/
theorem nonEmpty_nil : NonEmptyValues [] := by
  intro e he
  cases he

/-- The keys after one `Add`. -/
theorem valuesKeys_valuesAdd (m : Values) (k v : GoBytes) :
    valuesKeys (valuesAdd m k v)
      = if k ∈ valuesKeys m then valuesKeys m else valuesKeys m ++ [k] := by
  induction m with
  | nil => simp [valuesAdd, valuesKeys]
  | cons e rest ih =>
    obtain ⟨u, vs⟩ := e
    by_cases hu : u = k
    · subst hu
      simp [valuesAdd, valuesKeys]
    · have hku : ¬ k = u := fun h => hu h.symm
      simp only [valuesKeys] at ih
      simp only [valuesAdd, hu, if_false, valuesKeys, List.map_cons, ih, List.mem_cons, hku,
        false_or]
      by_cases hmem : k ∈ rest.map Prod.fst <;> simp [hmem]

/-- Adding keeps every key with a value. -/
theorem nonEmpty_valuesAdd (m : Values) (k v : GoBytes) (h : NonEmptyValues m) :
    NonEmptyValues (valuesAdd m k v) := by
  induction m with
  | nil =>
    intro e he
    simp only [valuesAdd, List.mem_singleton] at he
    subst he
    simp
  | cons e rest ih =>
    obtain ⟨u, vs⟩ := e
    have hrest : NonEmptyValues rest := fun e he => h e (List.mem_cons_of_mem _ he)
    by_cases hu : u = k
    · intro e he
      simp only [valuesAdd, hu, if_true, List.mem_cons] at he
      rcases he with rfl | he
      · simp
      · exact hrest e he
    · intro e he
      simp only [valuesAdd, hu, if_false, List.mem_cons] at he
      rcases he with rfl | he
      · exact h (u, vs) (List.mem_cons_self _ _)
      · exact ih hrest e he

/-- An absent key reads as the empty string. -/
theorem valuesGet_not_mem (m : Values) (key : GoBytes) (h : key ∉ valuesKeys m) :
    valuesGet m key = [] := by
  induction m with
  | nil => rfl
  | cons e rest ih =>
    obtain ⟨u, vs⟩ := e
    have hu : ¬ u = key := fun hc => h (by simp [valuesKeys, hc])
    have hrest : key ∉ valuesKeys rest := fun hc => h (by
      simp only [valuesKeys, List.map_cons, List.mem_cons]
      exact Or.inr hc)
    simp only [valuesGet, hu, if_false, ih hrest]

/-- Adding does not change the first value of a key that is present. -/
theorem valuesGet_valuesAdd_mem (m : Values) (k v key : GoBytes) (h : NonEmptyValues m)
    (hmem : key ∈ valuesKeys m) :
    valuesGet (valuesAdd m k v) key = valuesGet m key := by
  induction m with
  | nil => simp [valuesKeys] at hmem
  | cons e rest ih =>
    obtain ⟨u, vs⟩ := e
    have hvs : vs ≠ [] := h (u, vs) (List.mem_cons_self _ _)
    have hrest : NonEmptyValues rest := fun e he => h e (List.mem_cons_of_mem _ he)
    by_cases hu : u = k
    · subst hu
      by_cases huk : u = key
      · simp only [valuesAdd, if_true, valuesGet, huk]
        cases vs with
        | nil => exact absurd rfl hvs
        | cons x xs => rfl
      · simp only [valuesAdd, if_true, valuesGet, huk, if_false]
    · by_cases huk : u = key
      · subst huk
        simp only [valuesAdd, hu, if_false, valuesGet, if_true]
      · simp only [valuesAdd, hu, if_false, valuesGet, huk]
        apply ih hrest
        simp only [valuesKeys, List.map_cons, List.mem_cons] at hmem
        rcases hmem with hm | hm
        · exact absurd hm.symm huk
        · exact hm

/-- Adding under a key that is absent makes the added value its first value. -/
theorem valuesGet_valuesAdd_not_mem (m : Values) (k v key : GoBytes)
    (hmem : key ∉ valuesKeys m) :
    valuesGet (valuesAdd m k v) key = if k = key then v else [] := by
  induction m with
  | nil =>
    by_cases hk : k = key <;> simp [valuesAdd, valuesGet, hk]
  | cons e rest ih =>
    obtain ⟨u, vs⟩ := e
    have huk : ¬ u = key := fun hc => hmem (by simp [valuesKeys, hc])
    have hrest : key ∉ valuesKeys rest := fun hc => hmem (by
      simp only [valuesKeys, List.map_cons, List.mem_cons]
      exact Or.inr hc)
    by_cases hu : u = k
    · subst hu
      simp only [valuesAdd, if_true, valuesGet, huk, if_false]
      exact valuesGet_not_mem rest key hrest
    · simp only [valuesAdd, hu, if_false, valuesGet, huk, ih hrest]

/-- The first value of a key after adding a list of pairs. -/
theorem valuesGet_addPairs (pairs : List (GoBytes × GoBytes)) (m : Values) (key : GoBytes)
    (h : NonEmptyValues m) :
    valuesGet (addPairs m pairs) key
      = if key ∈ valuesKeys m then valuesGet m key else firstValue pairs key := by
  induction pairs generalizing m with
  | nil =>
    by_cases hmem : key ∈ valuesKeys m
    · simp [addPairs, hmem]
    · simp [addPairs, hmem, firstValue, valuesGet_not_mem m key hmem]
  | cons p rest ih =>
    obtain ⟨k, v⟩ := p
    have hstep : addPairs m ((k, v) :: rest) = addPairs (valuesAdd m k v) rest := rfl
    rw [hstep, ih _ (nonEmpty_valuesAdd m k v h), valuesKeys_valuesAdd]
    by_cases hmem : key ∈ valuesKeys m
    · have hmem' : key ∈ (if k ∈ valuesKeys m then valuesKeys m else valuesKeys m ++ [k]) := by
        split
        · exact hmem
        · exact List.mem_append_left _ hmem
      simp only [hmem', if_true, hmem, valuesGet_valuesAdd_mem m k v key h hmem]
    · by_cases hk : k = key
      · subst hk
        simp only [hmem, if_false, List.mem_append, List.mem_singleton, or_true, if_true,
          valuesGet_valuesAdd_not_mem m k v k hmem, firstValue]
      · have hkey : ¬ key = k := fun hc => hk hc.symm
        have hmem' : key ∉ (if k ∈ valuesKeys m then valuesKeys m else valuesKeys m ++ [k]) := by
          split
          · exact hmem
          · simp [hmem, hkey]
        simp only [hmem', if_false, hmem, firstValue, hk]

/-- The keys after adding a list of pairs. -/
theorem mem_keys_addPairs (pairs : List (GoBytes × GoBytes)) (m : Values) (key : GoBytes) :
    key ∈ valuesKeys (addPairs m pairs) ↔ key ∈ valuesKeys m ∨ key ∈ pairs.map Prod.fst := by
  induction pairs generalizing m with
  | nil => simp [addPairs]
  | cons p rest ih =>
    obtain ⟨k, v⟩ := p
    have hstep : addPairs m ((k, v) :: rest) = addPairs (valuesAdd m k v) rest := rfl
    rw [hstep, ih, valuesKeys_valuesAdd]
    by_cases hk : k ∈ valuesKeys m
    · simp only [hk, if_true, List.map_cons, List.mem_cons]
      constructor
      · rintro (h | h)
        · exact Or.inl h
        · exact Or.inr (Or.inr h)
      · rintro (h | h | h)
        · exact Or.inl h
        · exact Or.inl (h ▸ hk)
        · exact Or.inr h
    · simp only [hk, if_false, List.mem_append, List.mem_singleton, List.map_cons, List.mem_cons]
      tauto

/-- Adding pairs keeps the keys pairwise different. -/
theorem keys_addPairs_nodup (pairs : List (GoBytes × GoBytes)) (m : Values)
    (h : (valuesKeys m).Nodup) : (valuesKeys (addPairs m pairs)).Nodup := by
  induction pairs generalizing m with
  | nil => exact h
  | cons p rest ih =>
    obtain ⟨k, v⟩ := p
    have hstep : addPairs m ((k, v) :: rest) = addPairs (valuesAdd m k v) rest := rfl
    rw [hstep]
    apply ih
    rw [valuesKeys_valuesAdd]
    by_cases hk : k ∈ valuesKeys m
    · simp only [hk, if_true]; exact h
    · simp only [hk, if_false]
      rw [List.nodup_append]
      refine ⟨h, List.nodup_singleton _, ?_⟩
      intro a ha hb
      rw [List.mem_singleton] at hb
      subst hb
      exact hk ha

/-- The first pair with a key lies in the front part when the key occurs there. -/
theorem firstValue_append (a b : List (GoBytes × GoBytes)) (key : GoBytes)
    (h : key ∈ a.map Prod.fst) : firstValue (a ++ b) key = firstValue a key := by
  induction a with
  | nil => simp at h
  | cons p rest ih =>
    obtain ⟨k, v⟩ := p
    by_cases hk : k = key
    · simp [firstValue, hk]
    · simp only [List.cons_append, firstValue, hk, if_false]
      apply ih
      simp only [List.map_cons, List.mem_cons] at h
      rcases h with h | h
      · exact absurd h.symm hk
      · exact h

/-- The first pair of a key among the pairs of a map is the first value of the key. -/
theorem firstValue_pairsOf (m : Values) (key : GoBytes) (h : NonEmptyValues m) :
    firstValue (pairsOf m) key = valuesGet m key := by
  induction m with
  | nil => rfl
  | cons e rest ih =>
    obtain ⟨u, vs⟩ := e
    have hvs : vs ≠ [] := h (u, vs) (List.mem_cons_self _ _)
    have hrest : NonEmptyValues rest := fun e he => h e (List.mem_cons_of_mem _ he)
    by_cases hu : u = key
    · cases vs with
      | nil => exact absurd rfl hvs
      | cons x xs => simp [pairsOf, firstValue, valuesGet, hu]
    · simp only [pairsOf, valuesGet, hu, if_false, ← ih hrest]
      clear hvs h
      induction vs with
      | nil => rfl
      | cons x xs ihx =>
        simp only [List.map_cons, List.cons_append, firstValue, hu, if_false, List.append_eq, ihx]

/-- The keys of the pairs of a map are the keys of the map. -/
theorem mem_keys_pairsOf (m : Values) (key : GoBytes) (h : NonEmptyValues m) :
    key ∈ (pairsOf m).map Prod.fst ↔ key ∈ valuesKeys m := by
  induction m with
  | nil => simp [pairsOf, valuesKeys]
  | cons e rest ih =>
    obtain ⟨u, vs⟩ := e
    have hvs : vs ≠ [] := h (u, vs) (List.mem_cons_self _ _)
    have hrest : NonEmptyValues rest := fun e he => h e (List.mem_cons_of_mem _ he)
    have ih' := ih hrest
    simp only [valuesKeys] at ih'
    simp only [pairsOf, List.map_append, List.map_map, List.mem_append, ih', valuesKeys,
      List.map_cons, List.mem_cons]
    constructor
    · rintro (hm | hm)
      · obtain ⟨x, _, rfl⟩ := List.mem_map.mp hm
        exact Or.inl rfl
      · exact Or.inr hm
    · rintro (hm | hm)
      · left
        cases vs with
        | nil => exact absurd rfl hvs
        | cons x xs => simp [hm]
      · exact Or.inr hm

/-- Sorted insertion keeps the entries. -/
theorem insertSorted_perm (e : GoBytes × List GoBytes) (l : Values) :
    (insertSorted e l).Perm (e :: l) := by
  induction l with
  | nil => exact List.Perm.refl _
  | cons x rest ih =>
    unfold insertSorted
    split
    · exact List.Perm.refl _
    · exact (List.Perm.cons x ih).trans (List.Perm.swap e x rest)

/-- Sorting by key keeps the entries. -/
theorem sortByKey_perm (m : Values) : (sortByKey m).Perm m := by
  induction m with
  | nil => exact List.Perm.refl _
  | cons e rest ih =>
    unfold sortByKey
    exact (insertSorted_perm e _).trans (List.Perm.cons e ih)

/-- With pairwise different keys, the first value of a key is the head of the
values of its entry. -/
theorem valuesGet_of_mem (m : Values) (key : GoBytes) (vs : List GoBytes)
    (hnodup : (valuesKeys m).Nodup) (hmem : (key, vs) ∈ m) :
    valuesGet m key = vs.headD [] := by
  induction m with
  | nil => cases hmem
  | cons e rest ih =>
    obtain ⟨u, ws⟩ := e
    simp only [valuesKeys, List.map_cons, List.nodup_cons] at hnodup
    rcases List.mem_cons.mp hmem with h | h
    · simp only [Prod.mk.injEq] at h
      obtain ⟨rfl, rfl⟩ := h
      simp [valuesGet]
    · have hu : ¬ u = key := by
        intro hc
        apply hnodup.1
        rw [hc]
        exact List.mem_map.mpr ⟨(key, vs), h, rfl⟩
      simp only [valuesGet, hu, if_false]
      exact ih hnodup.2 h

/-- With pairwise different keys, the order of the entries does not matter for
the first value of a key. -/
theorem valuesGet_perm (m m' : Values) (key : GoBytes) (hperm : m.Perm m')
    (hnodup : (valuesKeys m).Nodup) : valuesGet m key = valuesGet m' key := by
  have hkeys : (valuesKeys m).Perm (valuesKeys m') := hperm.map Prod.fst
  have hnodup' : (valuesKeys m').Nodup := hkeys.nodup_iff.mp hnodup
  by_cases hmem : key ∈ valuesKeys m
  · obtain ⟨e, he, hek⟩ := List.mem_map.mp hmem
    obtain ⟨k, vs⟩ := e
    simp only at hek
    subst hek
    rw [valuesGet_of_mem m k vs hnodup he, valuesGet_of_mem m' k vs hnodup' (hperm.subset he)]
  · have hmem' : key ∉ valuesKeys m' := fun h => hmem (hkeys.mem_iff.mpr h)
    rw [valuesGet_not_mem m key hmem, valuesGet_not_mem m' key hmem']

/-- The captures collected by `try` form a map in which every key has a value
and the keys are pairwise different. -/
theorem addNamed_invariant (names : List String) (subs : List (List Char)) (p : Values)
    (h1 : NonEmptyValues p) (h2 : (valuesKeys p).Nodup) :
    NonEmptyValues (addNamed names subs p) ∧ (valuesKeys (addNamed names subs p)).Nodup := by
  induction names generalizing subs p with
  | nil => exact ⟨h1, h2⟩
  | cons name names ih =>
    cases subs with
    | nil => exact ⟨h1, h2⟩
    | cons m ms =>
      unfold addNamed
      apply ih
      · split
        · exact nonEmpty_valuesAdd _ _ _ h1
        · exact h1
      · split
        · exact keys_addPairs_nodup [(bytes name, utf8 m)] p h2
        · exact h2

/-- The parameters returned by `try` satisfy the invariants of `url.Values`. -/
theorem try_invariant (gr : gatewayRoute) (path : String) (params : Values)
    (h : gr.try path = some params) :
    NonEmptyValues params ∧ (valuesKeys params).Nodup := by
  unfold gatewayRoute.try at h
  split at h
  · simp only [Option.some.injEq] at h
    subst h
    exact addNamed_invariant _ _ [] nonEmpty_nil List.nodup_nil
  · cases h

/-- A map with a key present, encoded and put in front of a raw query: the
first value of the key in the parsed result is its first value in the map. -/
theorem valuesGet_merged (params : Values) (raw key : GoBytes)
    (h1 : NonEmptyValues params) (h2 : (valuesKeys params).Nodup)
    (hkey : key ∈ valuesKeys params) :
    key ∈ valuesKeys (url_Query (valuesEncode params ++ 38 :: raw))
      ∧ valuesGet (url_Query (valuesEncode params ++ 38 :: raw)) key = valuesGet params key := by
  have hsorted : NonEmptyValues (sortByKey params) :=
    fun e he => h1 e ((sortByKey_perm params).subset he)
  have hkeySorted : key ∈ valuesKeys (sortByKey params) :=
    (((sortByKey_perm params).map Prod.fst).mem_iff).mpr hkey
  have hkeyPairs : key ∈ (pairsOf (sortByKey params)).map Prod.fst :=
    (mem_keys_pairsOf _ key hsorted).mpr hkeySorted
  have hnodupSorted : (valuesKeys (sortByKey params)).Nodup :=
    (((sortByKey_perm params).map Prod.fst).nodup_iff).mpr h2
  rw [url_Query_eq, queryPairs_append, queryPairs_valuesEncode]
  constructor
  · rw [mem_keys_addPairs]
    right
    rw [List.map_append]
    exact List.mem_append_left _ hkeyPairs
  · rw [valuesGet_addPairs _ _ _ nonEmpty_nil]
    simp only [valuesKeys, List.map_nil, List.not_mem_nil, if_false]
    rw [firstValue_append _ _ _ hkeyPairs, firstValue_pairsOf _ _ hsorted]
    exact valuesGet_perm _ _ key (sortByKey_perm params) hnodupSorted

/-- Where `patternRE` finds no match, it matches at no position. -/
theorem findFrom_none_cons (re : Regex) (st : Bool) (c : Char) (cs : List Char)
    (h : findFrom re st (c :: cs) = none) :
    matchAt re st (c :: cs) = none ∧ findFrom re false cs = none := by
  rw [findFrom_cons] at h
  cases hm : matchAt re st (c :: cs) with
  | none =>
    rw [hm] at h
    exact ⟨rfl, h⟩
  | some res =>
    rw [hm] at h
    cases h

/-- Where the expression finds no match, replacing leaves the text as it is. -/
theorem replaceLoop_no_match (re : Regex) (repl : Caps → List Char) :
    ∀ (fuel : Nat) (s : List Char) (st jm : Bool), findFrom re st s = none →
      replaceLoop re repl fuel st jm s = s := by
  intro fuel
  induction fuel with
  | zero => intro s st jm _; rfl
  | succ fuel ih =>
    intro s st jm h
    rw [replaceLoop_succ]
    cases s with
    | nil =>
      have hm : matchAt re st [] = none := by
        unfold findFrom at h
        cases hm : matchAt re st [] with
        | none => rfl
        | some res => rw [hm] at h; cases h
      rw [hm]
    | cons c cs =>
      obtain ⟨hm, hrest⟩ := findFrom_none_cons re st c cs h
      rw [hm]
      simp only [ih cs false false hrest]

/-- C15: a template in which `patternRE` finds no placeholder compiles to
`^`, the template unchanged and unescaped, and `[/#?]?$`; this covers malformed
tokens such as `{1abc}` and literal text with regexp metacharacters. -/
theorem c15_template_without_placeholder :
    (∀ t : String, findFrom patternRE true t.data = none →
        compilePattern t = "^" ++ t ++ "[/#?]?$"
          ∧ pattern (.get t) = .ok ("^" ++ t ++ "[/#?]?$"))
      ∧ findFrom patternRE true "/v1/\x7b1abc\x7d/x.y+(z)".data = none
      ∧ compilePattern "/v1/\x7b1abc\x7d/x.y+(z)" = "^/v1/\x7b1abc\x7d/x.y+(z)[/#?]?$" := by
  refine ⟨?_, by decide, by decide⟩
  intro t h
  have hc : compilePattern t = "^" ++ t ++ "[/#?]?$" := by
    unfold compilePattern ReplaceAllString
    rw [replaceLoop_no_match patternRE expandGroup _ _ _ _ h]
  refine ⟨hc, ?_⟩
  simp only [pattern, templateOf, hc]

/-- Walking from the nil interface fails unless there is nothing to walk. -/
theorem walk_null (segs : List GoBytes) (d : Value) (h : walk .null segs = .ok d) :
    d = .null := by
  cases segs with
  | nil =>
    simp only [walk, Except.ok.injEq] at h
    exact h.symm
  | cons p ps => simp [walk, indexAsMap] at h

/-- Walking from the nil map never ends in a map that holds entries. -/
theorem walk_nilMap (segs : List GoBytes) (d : Value) (h : walk .nilMap segs = .ok d) :
    d = .nilMap ∨ d = .null := by
  cases segs with
  | nil =>
    simp only [walk, Except.ok.injEq] at h
    exact Or.inl h.symm
  | cons p ps =>
    simp only [walk, indexAsMap] at h
    exact Or.inr (walk_null ps d h)

/-- On the nil map `gatewaySetJSON` panics for every path. -/
theorem gatewaySetJSON_nilMap (path : GoBytes) (value : Value) :
    ∃ p, gatewaySetJSON .nilMap path value = ⟨.nilMap, .error p⟩ := by
  unfold gatewaySetJSON
  split
  · exact ⟨_, rfl⟩
  · simp only []
    split
    · exact ⟨_, rfl⟩
    · split
      · exact ⟨_, rfl⟩
      · rename_i n _ _ data hw
        rcases walk_nilMap _ data hw with rfl | rfl
        · simp only []
          split <;> exact ⟨_, rfl⟩
        · exact ⟨_, rfl⟩

/-- A matched request with a non-empty merged query whose body decodes to the
nil map ends in a panic. -/
theorem onMatch_nilMap (rt : Runtime) (gr : gatewayRoute) (params : Values) (r : Request)
    (hne : url_Query (mergedRawQuery params r) ≠ [])
    (hnull : rt.jsonDecode r.body = .nilMap) :
    ∃ p, onMatch rt gr params r = .panic p := by
  have hlen : (url_Query (mergedRawQuery params r)).length > 0 := List.length_pos.mpr hne
  have hperm := rt.rangeKeys_perm (valuesKeys (url_Query (mergedRawQuery params r)))
  cases hks : rt.rangeKeys (valuesKeys (url_Query (mergedRawQuery params r))) with
  | nil =>
    rw [hks] at hperm
    have := hperm.length_eq
    simp [valuesKeys] at this
    omega
  | cons k ks =>
    obtain ⟨p, hp⟩ := gatewaySetJSON_nilMap k
      (.str (valuesGet (url_Query (mergedRawQuery params r)) k))
    refine ⟨p, ?_⟩
    simp only [onMatch, hlen, if_true, hnull, Decoded.toValue, hks, setAll, hp]

/-- C13, on a body that decodes to the nil map (the body `null`): behind the
gate, a matched request with a non-empty merged query is not answered 400;
the decoder reports no error, the loop calls `gatewaySetJSON` on the nil map
and the handler panics. -/
theorem c13_null_body_panics (rt : Runtime) (declared pre post : List (String × gatewayRoute))
    (r : Request) (gr : gatewayRoute) (params : Values)
    (hgate : mediaType rt (headerGet r.header "Content-Type") = "application/json".data)
    (hsplit : declared = pre ++ (r.method, gr) :: post)
    (hpre : ∀ d ∈ pre, d.1 = r.method → d.2.try r.path = none)
    (hgr : gr.try r.path = some params)
    (hne : url_Query (mergedRawQuery params r) ≠ [])
    (hnull : rt.jsonDecode r.body = .nilMap) :
    (∃ p, serve rt (buildRoutes declared) r = .panic p)
      ∧ serve rt (buildRoutes declared) r ≠ .respond 400 none := by
  rw [serve_of_first_match rt declared pre post r gr params hgate hsplit hpre hgr]
  obtain ⟨p, hp⟩ := onMatch_nilMap rt gr params r hne hnull
  refine ⟨⟨p, hp⟩, ?_⟩
  rw [hp]
  intro hc
  cases hc

/-- C13 instance: `GET /v1/items?x=1` with the body `null` against the route
of `/v1/items` panics on the write into the nil map. -/
theorem c13_null_body_panics_witness :
    regexp_MustCompile (compilePattern "/v1/items") = some listRe
      ∧ serve Runtime.sample (buildRoutes [("GET", listRoute)]) nullRequest
          = .panic .nilMapWrite
      ∧ (∃ p, serve Runtime.sample (buildRoutes [("GET", listRoute)]) nullRequest = .panic p)
      ∧ serve Runtime.sample (buildRoutes [("GET", listRoute)]) nullRequest
          ≠ .respond 400 none :=
  ⟨by decide, rfl,
    c13_null_body_panics Runtime.sample [("GET", listRoute)] [] [] nullRequest listRoute []
      rfl rfl (fun _ h => nomatch h) (by decide) (by decide) rfl⟩

/-- C14, on `GET /v1/items?a.b=1` with a body that decodes to the empty
object: the key `a.b` names a member `a` that is missing, and handling ends in
a panic (failed type assertion inside `gatewaySetJSON`), not in a 400
response. -/
theorem c14_unresolved_segment_panics (rt : Runtime)
    (hdec : rt.jsonDecode dottedRequest.body = .map []) :
    url_Query dottedRequest.rawQuery = [(bytes "a.b", [bytes "1"])]
      ∧ mapGet [] (bytes "a") = none
      ∧ gatewaySetJSON (.obj []) (bytes "a.b") (.str (bytes "1"))
          = ⟨.obj [], .error .typeAssertion⟩
      ∧ serve rt (buildRoutes [("GET", listRoute)]) dottedRequest = .panic .typeAssertion := by
  have hq : url_Query dottedRequest.rawQuery = [(bytes "a.b", [bytes "1"])] := by decide
  refine ⟨hq, rfl, rfl, ?_⟩
  have hgate : mediaType rt (headerGet dottedRequest.header "Content-Type")
      = "application/json".data := rfl
  have htry : listRoute.try dottedRequest.path = some [] := by decide
  rw [serve_of_first_match rt [("GET", listRoute)] [] [] dottedRequest listRoute [] hgate rfl
    (fun _ h => nomatch h) htry]
  have hm : mergedRawQuery [] dottedRequest = dottedRequest.rawQuery := rfl
  have horder : rt.rangeKeys [bytes "a.b"] = [bytes "a.b"] :=
    List.perm_singleton.mp (rt.rangeKeys_perm _)
  have hset : setAll [(bytes "a.b", [bytes "1"])] (.obj []) [bytes "a.b"]
      = .error .typeAssertion := rfl
  simp only [onMatch, hm, hq, hdec, Decoded.toValue, valuesKeys, List.map_cons, List.map_nil,
    horder, hset, List.length_cons, List.length_nil, gt_iff_lt, Nat.zero_lt_succ, if_true]

/-- C14 instance: with the sample codec the body `{}` decodes to the empty
object and the request panics. -/
theorem c14_unresolved_segment_panics_witness :
    serve Runtime.sample (buildRoutes [("GET", listRoute)]) dottedRequest
      = .panic .typeAssertion :=
  (c14_unresolved_segment_panics Runtime.sample rfl).2.2.2

/-- Writing under a key of one byte other than the dot succeeds on an object. -/
theorem gatewaySetJSON_one_byte (m : List (GoBytes × Value)) (b : UInt8) (value : Value)
    (hb : b ≠ dot) :
    gatewaySetJSON (.obj m) [b] value = ⟨.obj (mapSet m [b] value), .ok ()⟩ := by
  have hsplit : strings_Split [b] dot = [[b]] := by
    simp [strings_Split, hb]
  simp [gatewaySetJSON, hsplit, walk, writeAt]

/-- C16 as stated fails on `GET /v1/items?x=1&x=2` with the body `{}`: the
key `x` occurs twice, its last value is `2`, and the value written into the
body is `1`, the first one. -/
theorem c16_first_value_is_written :
    queryPairs repeatedRequest.rawQuery = [(bytes "x", bytes "1"), (bytes "x", bytes "2")]
      ∧ lastValue (queryPairs repeatedRequest.rawQuery) (bytes "x") = bytes "2"
      ∧ url_Query repeatedRequest.rawQuery = [(bytes "x", [bytes "1", bytes "2"])]
      ∧ setAll (url_Query repeatedRequest.rawQuery) (.obj []) [bytes "x"]
          = .ok (.obj [(bytes "x", .str (bytes "1"))])
      ∧ bytes "1" ≠ lastValue (queryPairs repeatedRequest.rawQuery) (bytes "x")
      ∧ ∃ r', serve Runtime.sample (buildRoutes [("GET", listRoute)]) repeatedRequest
            = .forward r'
          ∧ r'.body = bytes "\x7b\"x\":\"1\"\x7d" := by
  refine ⟨by decide, by decide, by decide, rfl, by decide, ?_⟩
  exact ⟨_, rfl, by decide⟩

/-- The loop over the query keys panics when one of the keys has more bytes
than segments, wherever it stands in the order. -/
theorem setAll_long_key (query : Values) (k : GoBytes)
    (hlong : (strings_Split k dot).length < k.length) :
    ∀ (keys : List GoBytes) (request : Value), k ∈ keys →
      ∃ p, setAll query request keys = .error p := by
  intro keys
  induction keys with
  | nil => intro _ h; cases h
  | cons k' rest ih =>
    intro request hk
    cases hret : (gatewaySetJSON request k' (.str (valuesGet query k'))).ret with
    | error p => exact ⟨p, by simp only [setAll, hret]⟩
    | ok u =>
      have hrest : k ∈ rest := by
        rcases List.mem_cons.mp hk with h | h
        · subst h
          obtain ⟨p, hp⟩ := gatewaySetJSON_long_path request (.str (valuesGet query k)) k hlong
          rw [hp] at hret
          cases hret
        · exact h
      obtain ⟨p, hp⟩ := ih (gatewaySetJSON request k' (.str (valuesGet query k'))).root hrest
      exact ⟨p, by simp only [setAll, hret, hp]⟩

/-- A matched request whose merged query has a key with more bytes than
segments ends in 400 (body not decodable) or in a panic. -/
theorem onMatch_long_key (rt : Runtime) (gr : gatewayRoute) (params : Values) (r : Request)
    (k : GoBytes) (hk : k ∈ valuesKeys (url_Query (mergedRawQuery params r)))
    (hlong : (strings_Split k dot).length < k.length) :
    ((rt.jsonDecode r.body).toValue = none → onMatch rt gr params r = .respond 400 none)
      ∧ ((rt.jsonDecode r.body).toValue ≠ none → ∃ p, onMatch rt gr params r = .panic p)
      ∧ (∀ r', onMatch rt gr params r ≠ .forward r') := by
  have hlen : (url_Query (mergedRawQuery params r)).length > 0 := by
    cases hq : url_Query (mergedRawQuery params r) with
    | nil => rw [hq] at hk; simp [valuesKeys] at hk
    | cons e rest => simp
  have h400 : (rt.jsonDecode r.body).toValue = none → onMatch rt gr params r = .respond 400 none := by
    intro hd
    simp only [onMatch, hlen, if_true, hd]
  have hpanic : (rt.jsonDecode r.body).toValue ≠ none → ∃ p, onMatch rt gr params r = .panic p := by
    intro hd
    obtain ⟨request, hreq⟩ := Option.ne_none_iff_exists'.mp hd
    have hmem : k ∈ rt.rangeKeys (valuesKeys (url_Query (mergedRawQuery params r))) :=
      (rt.rangeKeys_perm _).mem_iff.mpr hk
    obtain ⟨p, hp⟩ := setAll_long_key (url_Query (mergedRawQuery params r)) k hlong _ request hmem
    exact ⟨p, by simp only [onMatch, hlen, if_true, hreq, hp]⟩
  refine ⟨h400, hpanic, ?_⟩
  intro r' hf
  cases hd : (rt.jsonDecode r.body).toValue with
  | none => rw [h400 hd] at hf; cases hf
  | some v =>
    obtain ⟨p, hp⟩ := hpanic (by rw [hd]; exact Option.some_ne_none v)
    rw [hp] at hf; cases hf

/-- A word rune of `patternRE` is not the closing brace. -/
theorem foldWord_all_takeWhile (ds rest : List Char)
    (h : ds.all (inClass false foldWord) = true) :
    (ds ++ '}' :: rest).takeWhile (inClass false foldWord) = ds
      ∧ (ds ++ '}' :: rest).dropWhile (inClass false foldWord) = '}' :: rest := by
  have hall : ∀ a ∈ ds, inClass false foldWord a = true := by
    simpa [List.all_eq_true] using h
  have hb : inClass false foldWord '}' = false := by decide
  constructor
  · rw [List.takeWhile_append_of_pos hall]
    simp [List.takeWhile_cons, hb]
  · rw [List.dropWhile_append_of_pos hall]
    simp [List.dropWhile_cons, hb]

/-- A metacharacter-free literal is not the opening brace. -/
theorem not_meta_ne_brace (c : Char) (h : isMeta c = false) : c ≠ '{' := by
  rintro rfl
  revert h
  decide

/-- The replacement at a position where no placeholder starts. -/
theorem replacePlaceholders_none (first more : Char → Bool) (minMore : Nat) (c : Char)
    (cs : List Char) (h : placeholderAt first more minMore (c :: cs) = none) :
    replacePlaceholders first more minMore (c :: cs) 0
      = c :: replacePlaceholders first more minMore cs 0 := by
  simp only [replacePlaceholders, h]

/-- The replacement at a position where a placeholder starts. -/
theorem replacePlaceholders_some (first more : Char → Bool) (minMore : Nat) (c : Char)
    (cs name rest : List Char) (h : placeholderAt first more minMore (c :: cs) = some (name, rest)) :
    replacePlaceholders first more minMore (c :: cs) 0
      = namedGroup name ++ replacePlaceholders first more minMore cs (name.length + 1) := by
  simp only [replacePlaceholders, h]

/-- Replacing the placeholders of a template made of well-formed pieces gives
the compiled texts of the pieces. -/
theorem replacePlaceholders_pieces (ps : List Piece) (h : ∀ p ∈ ps, p.wellFormed = true) :
    replacePlaceholders (inClass false foldLetter) (inClass false foldWord) 1
        (ps.map Piece.source).flatten 0
      = (ps.map Piece.compiled).flatten := by
  induction ps with
  | nil => rfl
  | cons p rest ih =>
    have hrest : ∀ q ∈ rest, q.wellFormed = true := fun q hq => h q (List.mem_cons_of_mem _ hq)
    have hp := h p (List.mem_cons_self _ _)
    cases p with
    | lit c =>
      have hc : isMeta c = false := by simpa [Piece.wellFormed] using hp
      have hne := not_meta_ne_brace c hc
      have hat : placeholderAt (inClass false foldLetter) (inClass false foldWord) 1
          (c :: (rest.map Piece.source).flatten) = none := by
        unfold placeholderAt
        split
        · rename_i b c' cs heq
          simp only [List.cons.injEq] at heq
          rw [← heq.1]
          simp [hne]
        · rfl
      have hsrc : ((Piece.lit c :: rest).map Piece.source).flatten
          = c :: (rest.map Piece.source).flatten := rfl
      have hcmp : ((Piece.lit c :: rest).map Piece.compiled).flatten
          = c :: (rest.map Piece.compiled).flatten := rfl
      rw [hsrc, hcmp, replacePlaceholders_none _ _ _ _ _ hat, ih hrest]
    | hole name =>
      cases name with
      | nil => simp [Piece.wellFormed] at hp
      | cons c tl =>
        cases tl with
        | nil => simp [Piece.wellFormed] at hp
        | cons d ds =>
          simp only [Piece.wellFormed, Bool.and_eq_true] at hp
          obtain ⟨hc, hds⟩ := hp
          obtain ⟨htake, hdrop⟩ := foldWord_all_takeWhile (d :: ds)
            (rest.map Piece.source).flatten hds
          have hat : placeholderAt (inClass false foldLetter) (inClass false foldWord) 1
              ('{' :: c :: ((d :: ds) ++ '}' :: (rest.map Piece.source).flatten))
              = some (c :: d :: ds, (rest.map Piece.source).flatten) := by
            simp only [placeholderAt, htake, hdrop, hc, List.length_cons, true_and, if_true]
            simp
          have hskip := replacePlaceholders_skip (inClass false foldLetter)
            (inClass false foldWord) 1 (c :: d :: ds ++ ['}']) (rest.map Piece.source).flatten
          have hsrc : ((Piece.hole (c :: d :: ds) :: rest).map Piece.source).flatten
              = '{' :: c :: ((d :: ds) ++ '}' :: (rest.map Piece.source).flatten) := by
            simp [Piece.source]
          have hcmp : ((Piece.hole (c :: d :: ds) :: rest).map Piece.compiled).flatten
              = namedGroup (c :: d :: ds) ++ (rest.map Piece.compiled).flatten := rfl
          have htail : c :: ((d :: ds) ++ '}' :: (rest.map Piece.source).flatten)
              = (c :: d :: ds ++ ['}']) ++ (rest.map Piece.source).flatten := by simp
          have hlen : (c :: d :: ds ++ ['}']).length = (c :: d :: ds).length + 1 := by simp
          rw [hsrc, hcmp, replacePlaceholders_some _ _ _ _ _ _ _ hat, htail, ← hlen, hskip,
            ih hrest]

/-- The compiled pattern of a template made of well-formed pieces. -/
theorem compilePattern_pieces (ps : List Piece) (h : ∀ p ∈ ps, p.wellFormed = true) :
    compilePattern (templateOfPieces ps)
      = ⟨'^' :: ((ps.map Piece.compiled).flatten ++ patternTail)⟩ := by
  unfold compilePattern
  rw [replaceAll_patternRE]
  unfold templateOfPieces
  simp only [replacePlaceholders_pieces ps h]
  rfl

/-- No repetition operator is applied in front of text that does not begin
with one. -/
theorem applyPostfix_plain (a : Regex) (s : List Char) (h : postfixFree s = true) :
    applyPostfix a s = some (a, s) := by
  cases s with
  | nil => rfl
  | cons c cs =>
    simp only [postfixFree, Bool.not_eq_true', Bool.or_eq_false_iff, decide_eq_false_iff_not] at h
    obtain ⟨⟨h1, h2⟩, h3⟩ := h
    unfold applyPostfix
    split
    · rename_i heq; simp only [List.cons.injEq] at heq; exact absurd heq.1 h1
    · rename_i heq; simp only [List.cons.injEq] at heq; exact absurd heq.1 h2
    · rename_i heq; simp only [List.cons.injEq] at heq; exact absurd heq.1 h3
    · rfl

/-- Parsing a literal rune. -/
theorem parseSeq_lit (fuel : Nat) (c : Char) (rest : List Char) (hc : isMeta c = false)
    (hrest : postfixFree rest = true) :
    parseSeq (fuel + 1) (c :: rest)
      = match parseSeq fuel rest with
        | some (items, rest') => some (.lit c :: items, rest')
        | none => none := by
  have h1 : c ≠ ')' := by rintro rfl; revert hc; decide
  have h2 : c ≠ '^' := by rintro rfl; revert hc; decide
  have h3 : c ≠ '$' := by rintro rfl; revert hc; decide
  have h4 : c ≠ '[' := by rintro rfl; revert hc; decide
  have h5 : c ≠ '(' := by rintro rfl; revert hc; decide
  conv_lhs => unfold parseSeq
  simp only []
  split
  · rename_i heq; cases heq
  · rename_i heq; simp only [List.cons.injEq] at heq; exact absurd heq.1 h1
  · rename_i heq; simp only [List.cons.injEq] at heq; exact absurd heq.1 h2
  · rename_i heq; simp only [List.cons.injEq] at heq; exact absurd heq.1 h3
  · rename_i heq; simp only [List.cons.injEq] at heq; exact absurd heq.1 h4
  · rename_i heq; simp only [List.cons.injEq] at heq; exact absurd heq.1 h5
  · rename_i c' rest' _ _ _ _ _ heq
    simp only [List.cons.injEq] at heq
    obtain ⟨rfl, rfl⟩ := heq
    simp only [hc, Bool.false_eq_true, if_false, applyPostfix_plain _ _ hrest]

/-- Reading a group name that is followed by `>`. -/
theorem parseName_append (n r : List Char) (hgt : ∀ x ∈ n, x ≠ '>') :
    parseName (n ++ '>' :: r) = if n.all isWordChar then some (n, r) else none := by
  induction n with
  | nil => simp [parseName]
  | cons x xs ih =>
    have hx : x ≠ '>' := hgt x (List.mem_cons_self _ _)
    have hxs : ∀ y ∈ xs, y ≠ '>' := fun y hy => hgt y (List.mem_cons_of_mem _ hy)
    simp only [List.cons_append, parseName, hx, if_false, List.append_eq, ih hxs, List.all_cons,
      Bool.and_eq_true]
    by_cases hw : isWordChar x = true
    · by_cases hall : xs.all isWordChar = true
      · simp [hw, hall]
      · simp [hw, hall]
    · simp [hw]

/-- Parsing the body `[^/#?]+` of an emitted group up to its closing parenthesis. -/
theorem parseSeq_groupBody (fuel : Nat) (rest : List Char) :
    parseSeq (fuel + 2) ('[' :: '^' :: '/' :: '#' :: '?' :: ']' :: '+' :: ')' :: rest)
      = some ([.plus (.cls true stops)], ')' :: rest) := by
  rfl

/-- Parsing the closing part of a compiled pattern. -/
theorem parseSeq_patternTail (fuel : Nat) :
    parseSeq (fuel + 3) patternTail = some ([.quest (.cls false stops), .eot], []) := by
  rfl

/-- Parsing the leading `^`. -/
theorem parseSeq_bot (fuel : Nat) (rest : List Char) (hrest : postfixFree rest = true) :
    parseSeq (fuel + 1) ('^' :: rest)
      = match parseSeq fuel rest with
        | some (items, rest') => some (.bot :: items, rest')
        | none => none := by
  conv_lhs => unfold parseSeq
  simp only [applyPostfix_plain _ _ hrest]

/-- Parsing an emitted named group. -/
theorem parseSeq_group (fuel : Nat) (c : Char) (tl rest : List Char)
    (hgt : ∀ x ∈ c :: tl, x ≠ '>') (hrest : postfixFree rest = true) :
    parseSeq (fuel + 3) (namedGroup (c :: tl) ++ rest)
      = if (c :: tl).all isWordChar then
          match parseSeq (fuel + 2) rest with
          | some (items, rest') =>
            some (.cap ⟨c :: tl⟩ (.plus (.cls true stops)) :: items, rest')
          | none => none
        else none := by
  have htext : namedGroup (c :: tl) ++ rest
      = '(' :: '?' :: 'P' :: '<' :: ((c :: tl) ++ '>' ::
          ('[' :: '^' :: '/' :: '#' :: '?' :: ']' :: '+' :: ')' :: rest)) := by
    simp [namedGroup]
  rw [htext]
  conv_lhs => unfold parseSeq
  simp only [parseName_append _ _ hgt]
  by_cases hall : (c :: tl).all isWordChar = true
  · simp only [hall, if_true, parseSeq_groupBody, seqOf, applyPostfix_plain _ _ hrest]
  · simp only [hall, Bool.false_eq_true, if_false]

/-- The compiled text of pieces, followed by the closing part, does not begin
with a repetition operator. -/
theorem postfixFree_pieces (ps : List Piece) (h : ∀ p ∈ ps, p.wellFormed = true) :
    postfixFree ((ps.map Piece.compiled).flatten ++ patternTail) = true := by
  cases ps with
  | nil => rfl
  | cons p rest =>
    have hp := h p (List.mem_cons_self _ _)
    cases p with
    | lit c =>
      have hc : isMeta c = false := by simpa [Piece.wellFormed] using hp
      have h1 : c ≠ '+' := by rintro rfl; revert hc; decide
      have h2 : c ≠ '*' := by rintro rfl; revert hc; decide
      have h3 : c ≠ '?' := by rintro rfl; revert hc; decide
      simp [Piece.compiled, postfixFree, h1, h2, h3]
    | hole name => rfl

/-- A rune of a recognised placeholder name is not `>`. -/
theorem hole_name_no_gt (c d : Char) (ds : List Char)
    (h : (Piece.hole (c :: d :: ds)).wellFormed = true) : ∀ x ∈ c :: d :: ds, x ≠ '>' := by
  simp only [Piece.wellFormed, Bool.and_eq_true, List.all_eq_true] at h
  obtain ⟨hc, hds⟩ := h
  intro x hx
  rcases List.mem_cons.mp hx with rfl | hx
  · rintro rfl; revert hc; decide
  · have := hds x hx
    rintro rfl; revert this; decide

/-- Parsing the compiled text of well-formed pieces and the closing part gives
the nodes of the pieces, provided every placeholder name is a valid group
name; otherwise the pattern is rejected. -/
theorem parseSeq_pieces (ps : List Piece) (h : ∀ p ∈ ps, p.wellFormed = true) :
    ∀ fuel, ((ps.map Piece.compiled).flatten ++ patternTail).length < fuel →
      parseSeq fuel ((ps.map Piece.compiled).flatten ++ patternTail)
        = if ps.all Piece.asciiName
          then some (ps.map Piece.node ++ [.quest (.cls false stops), .eot], [])
          else none := by
  induction ps with
  | nil =>
    intro fuel hlen
    have h7 : patternTail.length = 7 := rfl
    simp only [List.map_nil, List.flatten_nil, List.nil_append, h7] at hlen
    obtain ⟨f, rfl⟩ : ∃ f, fuel = f + 3 := ⟨fuel - 3, by omega⟩
    simp only [List.map_nil, List.flatten_nil, List.nil_append, parseSeq_patternTail, List.all_nil,
      if_true]
  | cons p rest ih =>
    intro fuel hlen
    have hrest : ∀ q ∈ rest, q.wellFormed = true := fun q hq => h q (List.mem_cons_of_mem _ hq)
    have hp := h p (List.mem_cons_self _ _)
    have hfree := postfixFree_pieces rest hrest
    cases p with
    | lit c =>
      have hc : isMeta c = false := by simpa [Piece.wellFormed] using hp
      have htext : ((Piece.lit c :: rest).map Piece.compiled).flatten ++ patternTail
          = c :: ((rest.map Piece.compiled).flatten ++ patternTail) := rfl
      rw [htext] at hlen ⊢
      simp only [List.length_cons] at hlen
      obtain ⟨f, rfl⟩ : ∃ f, fuel = f + 1 := ⟨fuel - 1, by omega⟩
      rw [parseSeq_lit f c _ hc hfree, ih hrest f (by omega)]
      by_cases hall : rest.all Piece.asciiName = true
      · simp [hall, Piece.asciiName, Piece.node]
      · simp [hall, Piece.asciiName]
    | hole name =>
      cases name with
      | nil => simp [Piece.wellFormed] at hp
      | cons c tl =>
        cases tl with
        | nil => simp [Piece.wellFormed] at hp
        | cons d ds =>
          have hgt := hole_name_no_gt c d ds hp
          have htext : ((Piece.hole (c :: d :: ds) :: rest).map Piece.compiled).flatten
              ++ patternTail
              = namedGroup (c :: d :: ds) ++ ((rest.map Piece.compiled).flatten ++ patternTail) := by
            simp [Piece.compiled]
          rw [htext] at hlen ⊢
          have hng : (namedGroup (c :: d :: ds)).length = 4 + (ds.length + 2) + 9 := by
            simp [namedGroup]
            omega
          rw [List.length_append, hng] at hlen
          obtain ⟨f, rfl⟩ : ∃ f, fuel = f + 3 := ⟨fuel - 3, by omega⟩
          rw [parseSeq_group f c (d :: ds) _ hgt hfree, ih hrest (f + 2) (by omega)]
          by_cases hname : (c :: d :: ds).all isWordChar = true
          · by_cases hall : rest.all Piece.asciiName = true
            · simp only [hname, hall, if_true, List.all_cons, Piece.asciiName, Bool.and_self,
                List.map_cons, Piece.node, List.cons_append]
            · simp only [hname, hall, if_true, List.all_cons, Piece.asciiName,
                Bool.false_eq_true, if_false, Bool.and_false]
          · simp only [hname, Bool.false_eq_true, if_false, List.all_cons, Piece.asciiName,
              Bool.false_and]

/-- Compiling the pattern of a template made of well-formed pieces gives the
concatenation of the nodes of the pieces between `^` and the closing part,
provided every placeholder name is a valid group name; otherwise
`regexp.MustCompile` rejects the pattern. -/
theorem mustCompile_pieces (ps : List Piece) (h : ∀ p ∈ ps, p.wellFormed = true) :
    regexp_MustCompile (compilePattern (templateOfPieces ps))
      = if ps.all Piece.asciiName
        then some (seqOf (.bot :: (ps.map Piece.node ++ [.quest (.cls false stops), .eot])))
        else none := by
  unfold regexp_MustCompile
  rw [compilePattern_pieces ps h]
  simp only [List.length_cons]
  rw [parseSeq_bot _ _ (postfixFree_pieces ps h), parseSeq_pieces ps h _ (Nat.lt_succ_self _)]
  by_cases hall : ps.all Piece.asciiName = true
  · simp only [hall, if_true]
  · simp only [hall, Bool.false_eq_true, if_false]

/-- The group names of a concatenation of nodes. -/
theorem capNames_seqOf (l : List Regex) : capNames (seqOf l) = (l.map capNames).flatten := by
  induction l with
  | nil => rfl
  | cons a rest ih =>
    cases rest with
    | nil => simp [seqOf]
    | cons b rest' =>
      simp only [seqOf, capNames, ih, List.map_cons, List.flatten_cons]

/-- There are as many groups as group names. -/
theorem numCap_eq_length (re : Regex) : numCap re = (capNames re).length := by
  induction re with
  | cat a b iha ihb => simp [numCap, capNames, iha, ihb]
  | alt a b iha ihb => simp [numCap, capNames, iha, ihb]
  | star a ih => simp [numCap, capNames, ih]
  | plus a ih => simp [numCap, capNames, ih]
  | quest a ih => simp [numCap, capNames, ih]
  | cap name a ih => simp [numCap, capNames, ih]; omega
  | empty => rfl
  | lit c => rfl
  | cls neg ranges => rfl
  | bot => rfl
  | eot => rfl

/-- The loop of `try` keeps the keys it has. -/
theorem mem_keys_addNamed (names : List String) (subs : List (List Char)) (p : Values)
    (k : GoBytes) (hk : k ∈ valuesKeys p) : k ∈ valuesKeys (addNamed names subs p) := by
  induction names generalizing subs p with
  | nil => exact hk
  | cons name names ih =>
    cases subs with
    | nil => exact hk
    | cons m ms =>
      unfold addNamed
      apply ih
      split
      · rw [valuesKeys_valuesAdd]
        split
        · exact hk
        · exact List.mem_append_left _ hk
      · exact hk

/-- The loop of `try` adds a key for every named group. -/
theorem mem_keys_addNamed_name (names : List String) (subs : List (List Char)) (p : Values)
    (name : String) (hlen : names.length ≤ subs.length) (hname : name ∈ names)
    (hne : name ≠ "") : bytes name ∈ valuesKeys (addNamed names subs p) := by
  induction names generalizing subs p with
  | nil => cases hname
  | cons n names ih =>
    cases subs with
    | nil => simp at hlen
    | cons m ms =>
      simp only [List.length_cons, Nat.add_le_add_iff_right] at hlen
      unfold addNamed
      rcases List.mem_cons.mp hname with rfl | hmem
      · apply mem_keys_addNamed
        simp only [hne, ne_eq, not_false_eq_true, if_true]
        rw [valuesKeys_valuesAdd]
        split
        · assumption
        · simp
      · exact ih ms _ hlen hmem

/-- A successful `try` returns a parameter for every named group of the
route's expression. -/
theorem try_has_key (gr : gatewayRoute) (path : String) (params : Values) (name : String)
    (h : gr.try path = some params) (hname : name ∈ capNames gr.re) (hne : name ≠ "") :
    bytes name ∈ valuesKeys params := by
  unfold gatewayRoute.try at h
  cases hf : FindStringSubmatch gr.re path with
  | none => rw [hf] at h; cases h
  | some subs =>
    rw [hf] at h
    simp only [Option.some.injEq] at h
    subst h
    have hlen : (SubexpNames gr.re).length ≤ subs.length := by
      unfold FindStringSubmatch at hf
      split at hf
      · cases hf
      · simp only [Option.some.injEq] at hf
        subst hf
        simp [SubexpNames, numCap_eq_length]
    apply mem_keys_addNamed_name _ _ _ _ hlen _ hne
    simp only [SubexpNames, List.mem_cons]
    exact Or.inr hname

/-- The UTF-8 encoding of an ASCII rune from `0` to `z` is its single byte. -/
theorem utf8EncodeChar_ascii (n : Nat) (h1 : 48 ≤ n) (h2 : n ≤ 122) :
    String.utf8EncodeChar (Char.ofNat n) = [UInt8.ofNat n] := by
  interval_cases n <;> rfl

/-- The number of a word rune. -/
theorem isWordChar_bounds (x : Char) (h : isWordChar x = true) : 48 ≤ x.toNat ∧ x.toNat ≤ 122 := by
  have hu : '_'.toNat = 95 := by decide
  have hA : 'A'.toNat = 65 := by decide
  have hZ : 'Z'.toNat = 90 := by decide
  have ha : 'a'.toNat = 97 := by decide
  have hz : 'z'.toNat = 122 := by decide
  have h0 : '0'.toNat = 48 := by decide
  have h9 : '9'.toNat = 57 := by decide
  simp only [isWordChar, Bool.or_eq_true, Bool.and_eq_true, decide_eq_true_eq, hA, hZ, ha, hz, h0,
    h9] at h
  rcases h with ((h | h) | h) | h
  · omega
  · omega
  · omega
  · subst h; rw [hu]; omega

/-- The bytes of a name made of word runes: one byte per rune, none a dot. -/
theorem utf8_word (n : List Char) (h : n.all isWordChar = true) :
    (utf8 n).length = n.length ∧ dot ∉ utf8 n := by
  induction n with
  | nil => exact ⟨rfl, fun hc => nomatch hc⟩
  | cons x xs ih =>
    simp only [List.all_cons, Bool.and_eq_true] at h
    obtain ⟨hx, hxs⟩ := h
    obtain ⟨ihl, ihd⟩ := ih hxs
    obtain ⟨h1, h2⟩ := isWordChar_bounds x hx
    have henc : String.utf8EncodeChar x = [UInt8.ofNat x.toNat] := by
      have := utf8EncodeChar_ascii x.toNat h1 h2
      rwa [Char.ofNat_toNat] at this
    have hnd : UInt8.ofNat x.toNat ≠ dot := by
      intro hc
      have hlt : x.toNat < UInt8.size := by
        have : UInt8.size = 256 := rfl
        omega
      have h46 : (UInt8.ofNat x.toNat).toNat = dot.toNat := by rw [hc]
      rw [UInt8.toNat_ofNat_of_lt hlt] at h46
      have hdot : dot.toNat = 46 := rfl
      omega
    constructor
    · simp only [utf8, henc, List.singleton_append, List.length_cons, ihl]
    · simp only [utf8, henc, List.singleton_append, List.mem_cons, not_or]
      exact ⟨fun hc => hnd hc.symm, ihd⟩

/-- The parameter key of a group whose name has two or more word runes has
more bytes than dot-separated segments. -/
theorem word_name_long (n : List Char) (h : n.all isWordChar = true) (hlen : 2 ≤ n.length) :
    (strings_Split (utf8 n) dot).length < (utf8 n).length := by
  obtain ⟨hl, hd⟩ := utf8_word n h
  rw [strings_Split_single _ _ hd, hl]
  simpa using hlen

/-- A name recognised with at least one further rune has two or more runes. -/
theorem placeholderAt_name_length (first more : Char → Bool) (s name rest : List Char)
    (h : placeholderAt first more 1 s = some (name, rest)) : 2 ≤ name.length := by
  unfold placeholderAt at h
  split at h
  · split at h
    · rename_i hcond
      split at h
      · split at h
        · simp only [Option.some.injEq, Prod.mk.injEq] at h
          rw [← h.1]
          simp only [List.length_cons]
          omega
        · cases h
      · cases h
    · cases h
  · cases h

/-- The group name of a placeholder piece is a group name of the compiled
expression. -/
theorem hole_name_mem_capNames (ps : List Piece) (name : List Char)
    (h : Piece.hole name ∈ ps) :
    (⟨name⟩ : String) ∈
      capNames (seqOf (.bot :: (ps.map Piece.node ++ [.quest (.cls false stops), .eot]))) := by
  rw [capNames_seqOf]
  simp only [List.map_cons, List.map_append, List.map_map, List.flatten_cons, List.flatten_append,
    List.mem_append, List.mem_flatten, List.mem_map, Function.comp]
  right
  left
  exact ⟨[⟨name⟩], ⟨Piece.hole name, h, rfl⟩, List.mem_singleton.mpr rfl⟩

/-- A route compiled from a template with a recognised placeholder never
forwards a request it matches. -/
theorem onMatch_placeholder_route (ps : List Piece) (name : List Char) (re : Regex)
    (endpoint : String) (hwf : ∀ p ∈ ps, p.wellFormed = true) (hhole : Piece.hole name ∈ ps)
    (hre : regexp_MustCompile (compilePattern (templateOfPieces ps)) = some re)
    (rt : Runtime) (r : Request) (params : Values)
    (htry : (⟨re, endpoint⟩ : gatewayRoute).try r.path = some params) :
    utf8 name ∈ valuesKeys (url_Query (mergedRawQuery params r))
      ∧ (strings_Split (utf8 name) dot).length < (utf8 name).length
      ∧ ∀ r', onMatch rt ⟨re, endpoint⟩ params r ≠ .forward r' := by
  rw [mustCompile_pieces ps hwf] at hre
  by_cases hall : ps.all Piece.asciiName = true
  swap
  · simp only [hall, Bool.false_eq_true, if_false] at hre
    cases hre
  simp only [hall, if_true, Option.some.injEq] at hre
  have hword : name.all isWordChar = true := by
    have := (List.all_eq_true.mp hall) (Piece.hole name) hhole
    simpa [Piece.asciiName] using this
  have hlen : 2 ≤ name.length := by
    have hw := hwf (Piece.hole name) hhole
    cases name with
    | nil => simp [Piece.wellFormed] at hw
    | cons c tl =>
      cases tl with
      | nil => simp [Piece.wellFormed] at hw
      | cons d ds => simp
  have hne : (⟨name⟩ : String) ≠ "" := by
    intro hc
    have hd : name = [] := congrArg String.data hc
    rw [hd] at hlen
    simp at hlen
  have hcap : (⟨name⟩ : String) ∈ capNames (⟨re, endpoint⟩ : gatewayRoute).re := by
    rw [← hre]
    exact hole_name_mem_capNames ps name hhole
  have hkey : utf8 name ∈ valuesKeys params :=
    try_has_key ⟨re, endpoint⟩ r.path params ⟨name⟩ htry hcap hne
  obtain ⟨h1, h2⟩ := try_invariant ⟨re, endpoint⟩ r.path params htry
  have hpos : params.length > 0 := by
    cases params with
    | nil => simp [valuesKeys] at hkey
    | cons e rest => simp
  have hm : mergedRawQuery params r = valuesEncode params ++ 38 :: r.rawQuery := by
    simp only [mergedRawQuery, hpos, if_true]
  have hmerged : utf8 name ∈ valuesKeys (url_Query (mergedRawQuery params r)) := by
    rw [hm]
    exact (valuesGet_merged params r.rawQuery (utf8 name) h1 h2 hkey).1
  have hlong := word_name_long name hword hlen
  exact ⟨hmerged, hlong, (onMatch_long_key rt ⟨re, endpoint⟩ params r (utf8 name) hmerged hlong).2.2⟩

/-- C19: behind the gate, a matched request whose merged query has a key with
two or more bytes other than the dot never reaches the wrapped handler: it is
answered 400 when the body does not decode and ends in a panic otherwise.
`patternRE` recognises only names of two or more runes, so this applies to
every request matched by a route compiled from a template of metacharacter-free
literals with at least one recognised placeholder: such a route is never
forwarded. -/
theorem c19_long_key_never_forwarded :
    (∀ (rt : Runtime) (declared pre post : List (String × gatewayRoute)) (r : Request)
        (gr : gatewayRoute) (params : Values) (k : GoBytes),
        mediaType rt (headerGet r.header "Content-Type") = "application/json".data →
        declared = pre ++ (r.method, gr) :: post →
        (∀ d ∈ pre, d.1 = r.method → d.2.try r.path = none) →
        gr.try r.path = some params →
        k ∈ valuesKeys (url_Query (mergedRawQuery params r)) →
        2 ≤ nonDotCount k →
        ((rt.jsonDecode r.body).toValue = none →
            serve rt (buildRoutes declared) r = .respond 400 none)
          ∧ ((rt.jsonDecode r.body).toValue ≠ none →
            ∃ p, serve rt (buildRoutes declared) r = .panic p)
          ∧ (∀ r', serve rt (buildRoutes declared) r ≠ .forward r'))
      ∧ (∀ (st : Bool) (s : List Char) (caps : Caps) (rest : List Char),
          matchAt patternRE st s = some (caps, rest) → 2 ≤ (capture caps 1).length)
      ∧ (∀ (ps : List Piece) (name : List Char) (re : Regex) (endpoint : String),
          (∀ p ∈ ps, p.wellFormed = true) → Piece.hole name ∈ ps →
          regexp_MustCompile (compilePattern (templateOfPieces ps)) = some re →
          ∀ (rt : Runtime) (declared pre post : List (String × gatewayRoute)) (r : Request)
            (params : Values),
            mediaType rt (headerGet r.header "Content-Type") = "application/json".data →
            declared = pre ++ (r.method, (⟨re, endpoint⟩ : gatewayRoute)) :: post →
            (∀ d ∈ pre, d.1 = r.method → d.2.try r.path = none) →
            (⟨re, endpoint⟩ : gatewayRoute).try r.path = some params →
            ∀ r', serve rt (buildRoutes declared) r ≠ .forward r') := by
  refine ⟨?_, ?_, ?_⟩
  · intro rt declared pre post r gr params k hgate hsplit hpre hgr hk hcount
    rw [serve_of_first_match rt declared pre post r gr params hgate hsplit hpre hgr]
    exact onMatch_long_key rt gr params r k hk ((long_path_iff k).mpr hcount)
  · intro st s caps rest h
    rw [matchAt_patternRE] at h
    cases hp : placeholderAt (inClass false foldLetter) (inClass false foldWord) 1 s with
    | none => rw [hp] at h; cases h
    | some res =>
      obtain ⟨name, rest'⟩ := res
      rw [hp] at h
      simp only [Option.some.injEq, Prod.mk.injEq] at h
      rw [← h.1]
      simp only [capture, if_true]
      exact placeholderAt_name_length _ _ s name rest' hp
  · intro ps name re endpoint hwf hhole hre rt declared pre post r params hgate hsplit hpre htry
    rw [serve_of_first_match rt declared pre post r ⟨re, endpoint⟩ params hgate hsplit hpre htry]
    exact (onMatch_placeholder_route ps name re endpoint hwf hhole hre rt r params htry).2.2

/-- C19 instance: the template `/v1/items/{id}` is made of well-formed pieces
with the placeholder `id`; the request `GET /v1/items/42?active=true` matches
its route, the merged query has the key `id`, and with a body that does not
decode the answer is 400; the request is not forwarded. -/
theorem c19_long_key_never_forwarded_witness :
    templateOfPieces itemPieces = "/v1/items/{id}"
      ∧ serve (Runtime.fixed .failed) (buildRoutes [("GET", itemRoute)]) itemRequest
          = .respond 400 none
      ∧ serve (Runtime.fixed .failed) (buildRoutes [("GET", itemRoute)]) itemRequest
          ≠ .forward itemRequest :=
  ⟨by decide,
    (c19_long_key_never_forwarded.1 (Runtime.fixed .failed) [("GET", itemRoute)] [] []
      itemRequest itemRoute [(bytes "id", [bytes "42"])] (bytes "id") rfl rfl
      (fun _ h => nomatch h) (by decide) (by decide) (by decide)).1 rfl,
    c19_long_key_never_forwarded.2.2 itemPieces "id".data itemRe "/twirp/Service/GetItem"
      (by decide) (by decide) (by decide) (Runtime.fixed .failed) [("GET", itemRoute)] [] []
      itemRequest [(bytes "id", [bytes "42"])] rfl rfl (fun _ h => nomatch h) (by decide)
      itemRequest⟩

/-- C12 instance: `GET /v1/items` without a query on the route of `/v1/items`
is forwarded as `POST /twirp/Service/ListItems` with body, content length, raw
query and headers untouched. -/
theorem c12_no_params_forwards_unchanged_witness :
    listRoute.try listRequest.path = some []
      ∧ listRequest.rawQuery = []
      ∧ ∃ r', serve (Runtime.fixed .failed) (buildRoutes [("GET", listRoute)]) listRequest
            = .forward r'
          ∧ r'.method = "POST" ∧ r'.path = listRoute.endpoint
          ∧ r'.body = listRequest.body ∧ r'.contentLength = listRequest.contentLength
          ∧ r'.rawQuery = listRequest.rawQuery ∧ r'.header = listRequest.header :=
  ⟨by decide, rfl,
    c12_no_params_forwards_unchanged (Runtime.fixed .failed) [("GET", listRoute)] [] []
      listRequest listRoute rfl rfl (fun _ h => nomatch h) (by decide) rfl⟩

/-- C15 instance: `patternRE` finds nothing in `/v1/items`, which compiles to
`^/v1/items[/#?]?$`. -/
theorem c15_template_without_placeholder_witness :
    findFrom patternRE true "/v1/items".data = none
      ∧ compilePattern "/v1/items" = "^" ++ "/v1/items" ++ "[/#?]?$"
      ∧ pattern (.get "/v1/items") = .ok ("^" ++ "/v1/items" ++ "[/#?]?$") :=
  ⟨by decide, c15_template_without_placeholder.1 "/v1/items" (by decide)⟩

/-- C18 instance: the path `id` has two bytes other than the dot and one
segment, and `gatewaySetJSON` panics on it. -/
theorem c18_long_path_panics_witness :
    2 ≤ nonDotCount (bytes "id")
      ∧ ∃ p, gatewaySetJSON (.obj []) (bytes "id") (.str (bytes "42")) = ⟨.obj [], .error p⟩
          ∧ (p = .sliceBounds ∨ p = .indexRange ∨ p = .typeAssertion) :=
  ⟨by decide, (c18_long_path_panics (.obj []) (.str (bytes "42")) (bytes "id")).2.1 (by decide)⟩

/-- C20 instance: `DELETE /v1/items/42` against two matching GET routes is
answered 405 and `GET` is listed twice, once per route. -/
theorem c20_allow_lists_verb_per_route_witness :
    serve (Runtime.fixed .failed) (buildRoutes [("GET", itemRoute), ("GET", kindRoute)])
          deleteRequest
        = .respond 405 (some "GET, GET")
      ∧ some "GET, GET" = some (strings_Join (allowedVerbs (Runtime.fixed .failed)
            (buildRoutes [("GET", itemRoute), ("GET", kindRoute)]) deleteRequest))
      ∧ (∀ v, v ≠ deleteRequest.method → (allowedVerbs (Runtime.fixed .failed)
            (buildRoutes [("GET", itemRoute), ("GET", kindRoute)]) deleteRequest).count v
          = (matchingRoutes [("GET", itemRoute), ("GET", kindRoute)] deleteRequest.path v).length)
      ∧ deleteRequest.method ∉ allowedVerbs (Runtime.fixed .failed)
            (buildRoutes [("GET", itemRoute), ("GET", kindRoute)]) deleteRequest :=
  ⟨(serve_two_get_routes (Runtime.fixed .failed)).2,
    c20_allow_lists_verb_per_route (Runtime.fixed .failed)
      [("GET", itemRoute), ("GET", kindRoute)] deleteRequest (some "GET, GET")
      (serve_two_get_routes (Runtime.fixed .failed)).2⟩

/-- Reading the key just written. -/
theorem mapGet_mapSet_self (m : List (GoBytes × Value)) (k : GoBytes) (v : Value) :
    mapGet (mapSet m k v) k = some v := by
  induction m with
  | nil => simp [mapSet, mapGet]
  | cons e rest ih =>
    obtain ⟨k', v'⟩ := e
    by_cases h : k' = k
    · simp [mapSet, mapGet, h]
    · simp [mapSet, mapGet, h, ih]

/-- Reading another key than the one written. -/
theorem mapGet_mapSet_ne (m : List (GoBytes × Value)) (k k2 : GoBytes) (v : Value)
    (hne : k ≠ k2) : mapGet (mapSet m k v) k2 = mapGet m k2 := by
  induction m with
  | nil => simp [mapSet, mapGet, hne]
  | cons e rest ih =>
    obtain ⟨k', v'⟩ := e
    by_cases h : k' = k
    · subst h
      simp [mapSet, mapGet, hne]
    · by_cases h2 : k' = k2
      · subst h2
        simp [mapSet, mapGet, h]
      · simp [mapSet, mapGet, h, h2, ih]

/-- A write below an object leaves an object at the root. -/
theorem writeAt_obj (m : List (GoBytes × Value)) (cursor : List GoBytes) (key : GoBytes)
    (value : Value) : ∃ m', writeAt (.obj m) cursor key value = .obj m' := by
  cases cursor with
  | nil => exact ⟨_, rfl⟩
  | cons p ps =>
    cases h : mapGet m p with
    | none => exact ⟨m, by simp [writeAt, h]⟩
    | some child => exact ⟨mapSet m p (writeAt child ps key value), by simp [writeAt, h]⟩

/-- The document of an object stays an object across a call of `gatewaySetJSON`. -/
theorem gatewaySetJSON_obj_root (m : List (GoBytes × Value)) (path : GoBytes) (value : Value) :
    ∃ m', (gatewaySetJSON (.obj m) path value).root = .obj m' := by
  unfold gatewaySetJSON
  cases path with
  | nil => exact ⟨m, rfl⟩
  | cons b rest =>
    simp only [List.length_cons]
    split
    · exact ⟨m, rfl⟩
    · split
      · exact ⟨m, rfl⟩
      · split
        · split
          · exact ⟨m, rfl⟩
          · exact writeAt_obj m _ _ _
        · split
          · exact ⟨m, rfl⟩
          · exact ⟨m, rfl⟩
        · exact ⟨m, rfl⟩

/-- A walk that starts at a string does not end at a map. -/
theorem walk_str (s : GoBytes) (segs : List GoBytes) (data : List (GoBytes × Value)) :
    walk (.str s) segs ≠ .ok (.obj data) := by
  cases segs with
  | nil =>
    intro h
    simp only [walk] at h
    cases h
  | cons p ps =>
    intro h
    simp only [walk, indexAsMap] at h
    cases h

/-- A write along a cursor that the loop walked keeps a string member of the
root, unless it is a write into the root under the member's own key. -/
theorem writeAt_keeps_member (m data : List (GoBytes × Value)) (cursor : List GoBytes)
    (key name s : GoBytes) (value : Value)
    (hwalk : walk (.obj m) cursor = .ok (.obj data))
    (hget : mapGet m name = some (.str s))
    (hkey : cursor = [] → key ≠ name) :
    ∃ m', writeAt (.obj m) cursor key value = .obj m' ∧ mapGet m' name = some (.str s) := by
  cases cursor with
  | nil =>
    refine ⟨mapSet m key value, rfl, ?_⟩
    rw [mapGet_mapSet_ne m key name value (hkey rfl)]
    exact hget
  | cons p ps =>
    by_cases hp : p = name
    · subst hp
      simp only [walk, indexAsMap, hget, Option.getD_some] at hwalk
      exact absurd hwalk (walk_str s ps data)
    · cases hc : mapGet m p with
      | none => exact ⟨m, by simp [writeAt, hc], hget⟩
      | some child =>
        refine ⟨mapSet m p (writeAt child ps key value), by simp [writeAt, hc], ?_⟩
        rw [mapGet_mapSet_ne m p name _ hp]
        exact hget

/-- The segment a one-byte path stores under is not a different one-byte key. -/
theorem split_one_byte_key (c b : UInt8) (key : GoBytes) (hne : [c] ≠ [b])
    (hkey : (strings_Split [c] dot).get? 0 = some key) : key ≠ [b] := by
  by_cases hc : c = dot
  · subst hc
    simp only [strings_Split, if_true] at hkey
    simp only [List.get?_cons_zero, Option.some.injEq] at hkey
    subst hkey
    intro h
    cases h
  · simp only [strings_Split, hc, if_false] at hkey
    simp only [List.get?_cons_zero, Option.some.injEq] at hkey
    subst hkey
    exact hne

/-- A call of `gatewaySetJSON` that returns normally, for a path other than
the one-byte key `b`, keeps the string stored under `b` in the root. -/
theorem gatewaySetJSON_keeps_member (m : List (GoBytes × Value)) (b : UInt8) (s k : GoBytes)
    (value root' : Value)
    (hget : mapGet m [b] = some (.str s)) (hk : k ≠ [b])
    (h : gatewaySetJSON (.obj m) k value = ⟨root', .ok ()⟩) :
    ∃ m', root' = .obj m' ∧ mapGet m' [b] = some (.str s) := by
  cases k with
  | nil =>
    simp only [gatewaySetJSON, List.length_nil] at h
    cases h
  | cons c rest =>
    simp only [gatewaySetJSON, List.length_cons] at h
    split at h
    · cases h
    · cases hw : walk (.obj m) ((strings_Split (c :: rest) dot).take rest.length) with
      | error e => rw [hw] at h; cases h
      | ok data =>
        rw [hw] at h
        cases data with
        | obj d =>
          simp only at h
          cases hg : (strings_Split (c :: rest) dot).get? rest.length with
          | none => rw [hg] at h; cases h
          | some key =>
            rw [hg] at h
            simp only [SetResult.mk.injEq, and_true] at h
            have hkey : (strings_Split (c :: rest) dot).take rest.length = [] → key ≠ [b] := by
              intro ht
              have hlen : rest.length = 0 := by
                rcases List.take_eq_nil_iff.mp ht with h0 | h0
                · exact h0
                · exact absurd h0 (strings_Split_ne_nil _ _)
              have hrest : rest = [] := List.length_eq_zero.mp hlen
              subst hrest
              exact split_one_byte_key c b key hk hg
            obtain ⟨m', hm', hget'⟩ := writeAt_keeps_member m d _ key [b] s value hw hget hkey
            exact ⟨m', by rw [← h, hm'], hget'⟩
        | nilMap =>
          simp only at h
          cases hg : (strings_Split (c :: rest) dot).get? rest.length with
          | none => rw [hg] at h; cases h
          | some key => rw [hg] at h; cases h
        | null => cases h
        | bool _ => cases h
        | num _ => cases h
        | str _ => cases h
        | arr _ => cases h

/-- The loop over a concatenation of key lists: the first list, then the
second on the document the first left. -/
theorem setAll_append (query : Values) (pre post : List GoBytes) (request : Value) :
    setAll query request (pre ++ post)
      = match setAll query request pre with
        | .error p => .error p
        | .ok request' => setAll query request' post := by
  induction pre generalizing request with
  | nil => rfl
  | cons k rest ih =>
    simp only [List.cons_append, setAll]
    cases (gatewaySetJSON request k (.str (valuesGet query k))).ret with
    | error p => rfl
    | ok u => exact ih _

/-- A loop that ends normally on an object keeps the string stored under a
one-byte key that is not among the keys applied. -/
theorem setAll_keeps_member (query : Values) (b : UInt8) (s : GoBytes) (keys : List GoBytes)
    (m : List (GoBytes × Value)) (request' : Value)
    (hget : mapGet m [b] = some (.str s)) (hnot : [b] ∉ keys)
    (h : setAll query (.obj m) keys = .ok request') :
    ∃ m', request' = .obj m' ∧ mapGet m' [b] = some (.str s) := by
  induction keys generalizing m with
  | nil =>
    simp only [setAll, Except.ok.injEq] at h
    exact ⟨m, h.symm, hget⟩
  | cons k rest ih =>
    simp only [setAll] at h
    cases hret : (gatewaySetJSON (.obj m) k (.str (valuesGet query k))).ret with
    | error p => rw [hret] at h; cases h
    | ok u =>
      rw [hret] at h
      simp only at h
      have hk : k ≠ [b] := fun hc => hnot (by rw [hc]; exact List.mem_cons_self _ _)
      have hcall : gatewaySetJSON (.obj m) k (.str (valuesGet query k))
          = ⟨(gatewaySetJSON (.obj m) k (.str (valuesGet query k))).root, .ok ()⟩ := by
        rw [← hret]
      obtain ⟨m1, hm1, hget1⟩ := gatewaySetJSON_keeps_member m b s k _ _ hget hk hcall
      rw [hm1] at h
      exact ih m1 hget1 (fun hc => hnot (List.mem_cons_of_mem _ hc)) h

/-- A loop that ends normally on an object has stored, under every one-byte key
other than the dot among the pairwise different keys applied, the string looked
up for that key. -/
theorem setAll_writes_member (query : Values) (b : UInt8) (hb : b ≠ dot) (keys : List GoBytes)
    (m : List (GoBytes × Value)) (request' : Value)
    (hmem : [b] ∈ keys) (hnodup : keys.Nodup)
    (h : setAll query (.obj m) keys = .ok request') :
    ∃ m', request' = .obj m' ∧ mapGet m' [b] = some (.str (valuesGet query [b])) := by
  induction keys generalizing m with
  | nil => cases hmem
  | cons k rest ih =>
    simp only [List.nodup_cons] at hnodup
    by_cases hk : k = [b]
    · subst hk
      simp only [setAll, gatewaySetJSON_one_byte m b _ hb] at h
      exact setAll_keeps_member query b _ rest _ request' (mapGet_mapSet_self m [b] _)
        hnodup.1 h
    · simp only [setAll] at h
      cases hret : (gatewaySetJSON (.obj m) k (.str (valuesGet query k))).ret with
      | error p => rw [hret] at h; cases h
      | ok u =>
        rw [hret] at h
        simp only at h
        obtain ⟨m1, hm1⟩ := gatewaySetJSON_obj_root m k (.str (valuesGet query k))
        rw [hm1] at h
        have hrest : [b] ∈ rest := by
          rcases List.mem_cons.mp hmem with hc | hc
          · exact absurd hc.symm hk
          · exact hc
        exact ih m1 hrest hnodup.2 h

/-- The keys of a parsed query are pairwise different. -/
theorem keys_url_Query_nodup (raw : GoBytes) : (valuesKeys (url_Query raw)).Nodup := by
  rw [url_Query_eq]
  exact keys_addPairs_nodup _ [] List.nodup_nil

/-- Single-value lookup in a parsed query is the value of the first pair with
the key. -/
theorem valuesGet_url_Query (raw key : GoBytes) :
    valuesGet (url_Query raw) key = firstValue (queryPairs raw) key := by
  rw [url_Query_eq, valuesGet_addPairs _ _ _ nonEmpty_nil]
  simp [valuesKeys]

/-- A forwarded request whose body decoded to an object carries, under every
one-byte key of the merged query other than the dot, the string looked up for
that key. -/
theorem onMatch_forward_member (rt : Runtime) (gr : gatewayRoute) (params : Values)
    (r r' : Request) (b : UInt8) (m : List (GoBytes × Value)) (hb : b ≠ dot)
    (hkey : [b] ∈ valuesKeys (url_Query (mergedRawQuery params r)))
    (hdec : rt.jsonDecode r.body = .map m)
    (h : onMatch rt gr params r = .forward r') :
    ∃ m', r'.body = rt.jsonMarshal (.obj m')
      ∧ mapGet m' [b] = some (.str (valuesGet (url_Query (mergedRawQuery params r)) [b])) := by
  have hlen : (url_Query (mergedRawQuery params r)).length > 0 := by
    cases hq : url_Query (mergedRawQuery params r) with
    | nil => rw [hq] at hkey; simp [valuesKeys] at hkey
    | cons e rest => simp
  simp only [onMatch, hlen, if_true, hdec, Decoded.toValue] at h
  cases hs : setAll (url_Query (mergedRawQuery params r)) (.obj m)
      (rt.rangeKeys (valuesKeys (url_Query (mergedRawQuery params r)))) with
  | error p => rw [hs] at h; cases h
  | ok request' =>
    rw [hs] at h
    simp only [Outcome.forward.injEq] at h
    have hperm := rt.rangeKeys_perm (valuesKeys (url_Query (mergedRawQuery params r)))
    obtain ⟨m', hm', hget⟩ := setAll_writes_member _ b hb _ m request'
      (hperm.mem_iff.mpr hkey) (hperm.nodup_iff.mpr (keys_url_Query_nodup _)) hs
    refine ⟨m', ?_, hget⟩
    rw [← h, hm']

/-- A key of the map is visited exactly once by `range`. -/
theorem rangeKeys_split (rt : Runtime) (keys : List GoBytes) (key : GoBytes)
    (hmem : key ∈ keys) (hnodup : keys.Nodup) :
    ∃ pre post, rt.rangeKeys keys = pre ++ key :: post ∧ key ∉ pre ∧ key ∉ post := by
  have hperm := rt.rangeKeys_perm keys
  have hm : key ∈ rt.rangeKeys keys := hperm.mem_iff.mpr hmem
  have hn : (rt.rangeKeys keys).Nodup := hperm.nodup_iff.mpr hnodup
  obtain ⟨pre, post, hsplit⟩ := List.append_of_mem hm
  rw [hsplit] at hn
  refine ⟨pre, post, hsplit, ?_, ?_⟩
  · intro hc
    have := (List.nodup_append.mp hn).2.2
    exact this hc (List.mem_cons_self _ _)
  · have := (List.nodup_append.mp hn).2.1
    exact (List.nodup_cons.mp this).1

/-- After a write along a cursor that the loop walked, the same walk ends at
the map that holds the value under the key. -/
theorem writeAt_stores (root : Value) (cursor : List GoBytes) (key : GoBytes) (value : Value)
    (d : List (GoBytes × Value)) (hwalk : walk root cursor = .ok (.obj d)) :
    walk (writeAt root cursor key value) cursor = .ok (.obj (mapSet d key value)) := by
  induction cursor generalizing root with
  | nil =>
    simp only [walk, Except.ok.injEq] at hwalk
    subst hwalk
    rfl
  | cons p ps ih =>
    cases root with
    | obj m =>
      simp only [walk, indexAsMap] at hwalk
      cases hc : mapGet m p with
      | none =>
        rw [hc] at hwalk
        simp only [Option.getD_none] at hwalk
        have := walk_null ps _ hwalk
        cases this
      | some child =>
        rw [hc] at hwalk
        simp only [Option.getD_some] at hwalk
        simp only [writeAt, hc, walk, indexAsMap, mapGet_mapSet_self, Option.getD_some]
        exact ih child hwalk
    | nilMap =>
      simp only [walk, indexAsMap] at hwalk
      have := walk_null ps _ hwalk
      cases this
    | null => simp [walk, indexAsMap] at hwalk
    | bool _ => simp [walk, indexAsMap] at hwalk
    | num _ => simp [walk, indexAsMap] at hwalk
    | str _ => simp [walk, indexAsMap] at hwalk
    | arr _ => simp [walk, indexAsMap] at hwalk

/-- After a call of `gatewaySetJSON` that returns normally, the value is stored
in the document: the walk over `pp[:len(path)-1]` ends at a map that holds the
value under `pp[len(path)-1]`. -/
theorem gatewaySetJSON_stores (root root' value : Value) (path : GoBytes)
    (h : gatewaySetJSON root path value = ⟨root', .ok ()⟩) :
    ∃ data key, walk root' ((strings_Split path dot).take (path.length - 1)) = .ok (.obj data)
      ∧ (strings_Split path dot).get? (path.length - 1) = some key
      ∧ mapGet data key = some value := by
  cases path with
  | nil =>
    simp only [gatewaySetJSON, List.length_nil] at h
    cases h
  | cons c rest =>
    simp only [gatewaySetJSON, List.length_cons] at h
    simp only [List.length_cons, Nat.add_sub_cancel]
    split at h
    · cases h
    · cases hw : walk root ((strings_Split (c :: rest) dot).take rest.length) with
      | error e => rw [hw] at h; cases h
      | ok data =>
        rw [hw] at h
        cases data with
        | obj d =>
          simp only at h
          cases hg : (strings_Split (c :: rest) dot).get? rest.length with
          | none => rw [hg] at h; cases h
          | some key =>
            rw [hg] at h
            simp only [SetResult.mk.injEq, and_true] at h
            refine ⟨mapSet d key value, key, ?_, rfl, mapGet_mapSet_self d key value⟩
            rw [← h]
            exact writeAt_stores root _ key value d hw
        | nilMap =>
          simp only at h
          cases hg : (strings_Split (c :: rest) dot).get? rest.length with
          | none => rw [hg] at h; cases h
          | some key => rw [hg] at h; cases h
        | null => cases h
        | bool _ => cases h
        | num _ => cases h
        | str _ => cases h
        | arr _ => cases h

/-- The step of the loop at a key: the call of `gatewaySetJSON` for the key
gets the string looked up for it. -/
theorem setAll_at_key (query : Values) (request : Value) (pre post : List GoBytes)
    (key value : GoBytes) (hget : valuesGet query key = value) :
    setAll query request (pre ++ key :: post)
      = match setAll query request pre with
        | .error p => .error p
        | .ok request' =>
          match (gatewaySetJSON request' key (.str value)).ret with
          | .error p => .error p
          | .ok _ => setAll query (gatewaySetJSON request' key (.str value)).root post := by
  subst hget
  rw [setAll_append]
  cases setAll query request pre with
  | error p => rfl
  | ok request' => rfl

/-- A matched request with a key in its merged query and a body that decodes:
the outcome is that of the loop over the keys in the order of `range`, a panic
of the loop or the forward of the marshalled document. -/
theorem onMatch_loop (rt : Runtime) (gr : gatewayRoute) (params : Values) (r : Request)
    (key : GoBytes) (request : Value)
    (hkey : key ∈ valuesKeys (url_Query (mergedRawQuery params r)))
    (hdec : (rt.jsonDecode r.body).toValue = some request) :
    onMatch rt gr params r
      = match setAll (url_Query (mergedRawQuery params r)) request
            (rt.rangeKeys (valuesKeys (url_Query (mergedRawQuery params r)))) with
        | .error p => .panic p
        | .ok request' =>
          .forward { r with
            rawQuery := mergedRawQuery params r
            body := rt.jsonMarshal request'
            contentLength := (rt.jsonMarshal request').length
            method := "POST"
            path := gr.endpoint } := by
  have hlen : (url_Query (mergedRawQuery params r)).length > 0 := by
    cases hq : url_Query (mergedRawQuery params r) with
    | nil => rw [hq] at hkey; simp [valuesKeys] at hkey
    | cons e rest => simp
  simp only [onMatch, hlen, if_true, hdec]

/-- C11: for a matched request and a path capture `name` with value `value`,
the merged raw query is the encoded captures, `&`, and the original raw query;
first-value lookup of the name in the decoded merged query returns `value`,
whatever the original query holds under that name; when the body decodes the
outcome is that of the loop over the keys of the merged query, `range` visits
the name once, and the call of `gatewaySetJSON` the loop makes for the name
gets the string `value`. When the name is one byte and the request is
forwarded with a body that decoded to an object, the forwarded body holds
`value` under the name. -/
theorem c11_path_capture_wins (rt : Runtime) (gr : gatewayRoute) (r : Request) (params : Values)
    (name value : GoBytes) (more : List GoBytes)
    (hgr : gr.try r.path = some params) (hname : (name, value :: more) ∈ params) :
    mergedRawQuery params r = valuesEncode params ++ 38 :: r.rawQuery
      ∧ valuesGet (url_Query (mergedRawQuery params r)) name = value
      ∧ (∃ pre post,
          rt.rangeKeys (valuesKeys (url_Query (mergedRawQuery params r))) = pre ++ name :: post
            ∧ name ∉ pre ∧ name ∉ post)
      ∧ (∀ request : Value, (rt.jsonDecode r.body).toValue = some request →
          onMatch rt gr params r
            = match setAll (url_Query (mergedRawQuery params r)) request
                  (rt.rangeKeys (valuesKeys (url_Query (mergedRawQuery params r)))) with
              | .error p => .panic p
              | .ok request' =>
                .forward { r with
                  rawQuery := mergedRawQuery params r
                  body := rt.jsonMarshal request'
                  contentLength := (rt.jsonMarshal request').length
                  method := "POST"
                  path := gr.endpoint })
      ∧ (∀ (request : Value) (pre post : List GoBytes),
          setAll (url_Query (mergedRawQuery params r)) request (pre ++ name :: post)
            = match setAll (url_Query (mergedRawQuery params r)) request pre with
              | .error p => .error p
              | .ok request' =>
                match (gatewaySetJSON request' name (.str value)).ret with
                | .error p => .error p
                | .ok _ => setAll (url_Query (mergedRawQuery params r))
                    (gatewaySetJSON request' name (.str value)).root post)
      ∧ (∀ (b : UInt8) (m : List (GoBytes × Value)) (r' : Request),
          name = [b] → b ≠ dot → rt.jsonDecode r.body = .map m →
          onMatch rt gr params r = .forward r' →
          ∃ m', r'.body = rt.jsonMarshal (.obj m') ∧ mapGet m' name = some (.str value)) := by
  obtain ⟨h1, h2⟩ := try_invariant gr r.path params hgr
  have hkey : name ∈ valuesKeys params := List.mem_map.mpr ⟨_, hname, rfl⟩
  have hlen : params.length > 0 := by
    cases params with
    | nil => cases hname
    | cons e rest => simp
  have hm : mergedRawQuery params r = valuesEncode params ++ 38 :: r.rawQuery := by
    simp only [mergedRawQuery, hlen, if_true]
  have hmerged := valuesGet_merged params r.rawQuery name h1 h2 hkey
  rw [← hm] at hmerged
  have hget : valuesGet (url_Query (mergedRawQuery params r)) name = value := by
    rw [hmerged.2, valuesGet_of_mem params name (value :: more) h2 hname]
    rfl
  refine ⟨hm, hget, ?_, ?_, ?_, ?_⟩
  · exact rangeKeys_split rt _ name hmerged.1 (keys_url_Query_nodup _)
  · intro request hdec
    exact onMatch_loop rt gr params r name request hmerged.1 hdec
  · intro request pre post
    exact setAll_at_key _ request pre post name value hget
  · intro b m r' hb hdot hdec hfwd
    subst hb
    obtain ⟨m', hbody, hmem⟩ := onMatch_forward_member rt gr params r r' b m hdot hmerged.1
      hdec hfwd
    rw [hget] at hmem
    exact ⟨m', hbody, hmem⟩

/-- C11 instances, conflicts on a name. `GET /v1/items/42?x=7` with the body
`{}` on the route of `/v1/items/(?P<x>[^/#?]+)`: the original query holds `7`
under `x`, the path capture is `42`, lookup in the merged query `x=42&x=7`
gives `42`, and the request is forwarded with the body `{"x":"42"}`.
`GET /v1/items/42?id=7` on the route of `/v1/items/{id}`: the original query
holds `7` under `id`, lookup in the merged query `id=42&id=7` gives the path
capture `42`. -/
theorem c11_path_capture_wins_witness :
    regexp_MustCompile (compilePattern "/v1/items/(?P<x>[^/#?]+)") = some shortRe
      ∧ shortRoute.try shortRequest.path = some [(bytes "x", [bytes "42"])]
      ∧ valuesGet (url_Query shortRequest.rawQuery) (bytes "x") = bytes "7"
      ∧ mergedRawQuery [(bytes "x", [bytes "42"])] shortRequest = bytes "x=42&x=7"
      ∧ onMatch Runtime.sample shortRoute [(bytes "x", [bytes "42"])] shortRequest
          = .forward { shortRequest with
              method := "POST"
              path := "/twirp/Service/GetItem"
              rawQuery := bytes "x=42&x=7"
              body := bytes "\x7b\"x\":\"42\"\x7d"
              contentLength := 10 }
      ∧ valuesGet (url_Query (mergedRawQuery [(bytes "x", [bytes "42"])] shortRequest))
            (bytes "x") = bytes "42"
      ∧ (∃ m', bytes "\x7b\"x\":\"42\"\x7d" = Runtime.sample.jsonMarshal (.obj m')
          ∧ mapGet m' (bytes "x") = some (.str (bytes "42")))
      ∧ itemRoute.try conflictRequest.path = some [(bytes "id", [bytes "42"])]
      ∧ valuesGet (url_Query conflictRequest.rawQuery) (bytes "id") = bytes "7"
      ∧ mergedRawQuery [(bytes "id", [bytes "42"])] conflictRequest = bytes "id=42&id=7"
      ∧ valuesGet (url_Query (mergedRawQuery [(bytes "id", [bytes "42"])] conflictRequest))
            (bytes "id") = bytes "42" :=
  ⟨by decide, by decide, by decide, by decide, rfl,
    (c11_path_capture_wins Runtime.sample shortRoute shortRequest [(bytes "x", [bytes "42"])]
      (bytes "x") (bytes "42") [] (by decide) (by decide)).2.1,
    (c11_path_capture_wins Runtime.sample shortRoute shortRequest [(bytes "x", [bytes "42"])]
      (bytes "x") (bytes "42") [] (by decide) (by decide)).2.2.2.2.2 120 []
      { shortRequest with
          method := "POST"
          path := "/twirp/Service/GetItem"
          rawQuery := bytes "x=42&x=7"
          body := bytes "\x7b\"x\":\"42\"\x7d"
          contentLength := 10 }
      (by decide) (by decide) rfl rfl,
    by decide, by decide, by decide,
    (c11_path_capture_wins Runtime.sample itemRoute conflictRequest
      [(bytes "id", [bytes "42"])] (bytes "id") (bytes "42") [] (by decide) (by decide)).2.1⟩

/-- C16, amended: in a matched request the value looked up for a key of the
merged query is the value of the key's first occurrence there, also when the
key occurs more than once. The call of `gatewaySetJSON` that the loop makes for
the key gets that value, and when the call returns normally the document holds
that value at the position the call wrote to; when the body decodes, the
outcome is that of this loop, in which `range` visits the key once. When the key is one byte other
than the dot and the request is forwarded with a body that decoded to an
object, the forwarded body holds that value under the key. -/
theorem c16_first_occurrence_is_applied (rt : Runtime) (gr : gatewayRoute) (params : Values)
    (r : Request) (key : GoBytes) :
    valuesGet (url_Query (mergedRawQuery params r)) key
        = firstValue (queryPairs (mergedRawQuery params r)) key
      ∧ (∀ (request : Value) (pre post : List GoBytes),
          setAll (url_Query (mergedRawQuery params r)) request (pre ++ key :: post)
            = match setAll (url_Query (mergedRawQuery params r)) request pre with
              | .error p => .error p
              | .ok request' =>
                match (gatewaySetJSON request' key
                    (.str (firstValue (queryPairs (mergedRawQuery params r)) key))).ret with
                | .error p => .error p
                | .ok _ => setAll (url_Query (mergedRawQuery params r))
                    (gatewaySetJSON request' key
                      (.str (firstValue (queryPairs (mergedRawQuery params r)) key))).root post)
      ∧ (∀ (request root' : Value),
          gatewaySetJSON request key
              (.str (firstValue (queryPairs (mergedRawQuery params r)) key))
            = ⟨root', .ok ()⟩ →
          ∃ data k,
            walk root' ((strings_Split key dot).take (key.length - 1)) = .ok (.obj data)
              ∧ (strings_Split key dot).get? (key.length - 1) = some k
              ∧ mapGet data k
                  = some (.str (firstValue (queryPairs (mergedRawQuery params r)) key)))
      ∧ (∀ request : Value, key ∈ valuesKeys (url_Query (mergedRawQuery params r)) →
          (rt.jsonDecode r.body).toValue = some request →
          (∃ pre post,
            rt.rangeKeys (valuesKeys (url_Query (mergedRawQuery params r)))
                = pre ++ key :: post
              ∧ key ∉ pre ∧ key ∉ post)
            ∧ onMatch rt gr params r
              = match setAll (url_Query (mergedRawQuery params r)) request
                    (rt.rangeKeys (valuesKeys (url_Query (mergedRawQuery params r)))) with
                | .error p => .panic p
                | .ok request' =>
                  .forward { r with
                    rawQuery := mergedRawQuery params r
                    body := rt.jsonMarshal request'
                    contentLength := (rt.jsonMarshal request').length
                    method := "POST"
                    path := gr.endpoint })
      ∧ (∀ (b : UInt8) (m : List (GoBytes × Value)) (r' : Request),
          key = [b] → b ≠ dot →
          key ∈ valuesKeys (url_Query (mergedRawQuery params r)) →
          rt.jsonDecode r.body = .map m →
          onMatch rt gr params r = .forward r' →
          ∃ m', r'.body = rt.jsonMarshal (.obj m')
            ∧ mapGet m' key
                = some (.str (firstValue (queryPairs (mergedRawQuery params r)) key))) := by
  have hget := valuesGet_url_Query (mergedRawQuery params r) key
  refine ⟨hget, ?_, ?_, ?_, ?_⟩
  · intro request pre post
    exact setAll_at_key _ request pre post key _ hget
  · intro request root' h
    exact gatewaySetJSON_stores request root' _ key h
  · intro request hkey hdec
    exact ⟨rangeKeys_split rt _ key hkey (keys_url_Query_nodup _),
      onMatch_loop rt gr params r key request hkey hdec⟩
  · intro b m r' hb hdot hkey hdec hfwd
    subst hb
    obtain ⟨m', hbody, hmem⟩ := onMatch_forward_member rt gr params r r' b m hdot hkey hdec hfwd
    rw [hget] at hmem
    exact ⟨m', hbody, hmem⟩

/-- C16 instance: `GET /v1/items?x=1&x=2` with the body `{}` carries the key
`x` twice and is forwarded; the forwarded body holds under `x` the value of the
first occurrence, `1`. -/
theorem c16_first_occurrence_is_applied_witness :
    queryPairs (mergedRawQuery [] repeatedRequest)
        = [(bytes "x", bytes "1"), (bytes "x", bytes "2")]
      ∧ firstValue (queryPairs (mergedRawQuery [] repeatedRequest)) (bytes "x") = bytes "1"
      ∧ onMatch Runtime.sample listRoute [] repeatedRequest
          = .forward { repeatedRequest with
              method := "POST"
              path := "/twirp/Service/ListItems"
              body := bytes "\x7b\"x\":\"1\"\x7d"
              contentLength := 9 }
      ∧ ∃ m', bytes "\x7b\"x\":\"1\"\x7d" = Runtime.sample.jsonMarshal (.obj m')
          ∧ mapGet m' (bytes "x")
              = some (.str (firstValue (queryPairs (mergedRawQuery [] repeatedRequest))
                  (bytes "x"))) :=
  ⟨by decide, by decide, rfl,
    (c16_first_occurrence_is_applied Runtime.sample listRoute [] repeatedRequest
      (bytes "x")).2.2.2.2 120 []
      { repeatedRequest with
          method := "POST"
          path := "/twirp/Service/ListItems"
          body := bytes "\x7b\"x\":\"1\"\x7d"
          contentLength := 9 }
      (by decide) (by decide) (by decide) rfl rfl⟩

end TwirpGateway
